import Mathlib

/-!
Verification development for the llmTextGenerator crawl-and-change-detection
engine (`backend/app/helper.py`, `backend/app/crawler.py`).

The Python source is shallowly embedded: pure helpers become Lean functions,
the crawl loop becomes explicit state passing with fuel, and the pieces that
live outside the repository (the network, `hashlib.sha256`, Playwright, the
OpenAI enrichment call) are abstracted as function parameters.  URL handling
follows CPython `urllib.parse` (`urlparse`, `urljoin`) restricted to URLs
without embedded control characters, since `helper.py` delegates to it.
-/

namespace LlmTextGen

/-! ## Model of CPython `urllib.parse` (the subset `helper.py` exercises) -/

/-- Characters CPython accepts inside a URL scheme (letters, digits, `+-.`). -/
def schemeChar (c : Char) : Bool :=
  c.isAlpha || c.isDigit || c == '+' || c == '-' || c == '.'

/-- Split at the first occurrence of `c`: the prefix before `c` and, when `c`
occurs, the remainder after it (CPython `str.split(c, 1)` guarded by `c in s`). -/
def splitFirst (c : Char) : List Char → List Char × Option (List Char)
  | [] => ([], none)
  | a :: as =>
    if a == c then ([], some as)
    else
      let r := splitFirst c as
      (a :: r.1, r.2)

/-- ASCII lowercasing, as `str.lower` behaves on the ASCII URLs in scope. -/
def lowerChars (l : List Char) : List Char := l.map Char.toLower

/-- Scheme detection of CPython `urlsplit`: a valid scheme before the first
`:` is split off and lowercased; otherwise the caller-supplied default is
used (CPython signature `urlsplit(url, scheme='')`). -/
def splitScheme (dflt : List Char) (l : List Char) : List Char × List Char :=
  match splitFirst ':' l with
  | (before, some after) =>
    if before ≠ [] ∧ (before.headD ' ').isAlpha ∧ before.all schemeChar then
      (lowerChars before, after)
    else (dflt, l)
  | (_, none) => (dflt, l)

/-- Delimiters ending the netloc in CPython `_splitnetloc`. -/
def netlocDelim (c : Char) : Bool := c == '/' || c == '?' || c == '#'

/-- Netloc split of CPython `urlsplit`: after the scheme, a leading `//`
introduces the netloc, running up to the next `/`, `?` or `#`. -/
def splitNetloc : List Char → List Char × List Char
  | '/' :: '/' :: rest =>
    (rest.takeWhile (fun c => !netlocDelim c), rest.dropWhile (fun c => !netlocDelim c))
  | l => ([], l)

/-- Fragment split: everything after the first `#` (CPython
`url.split('#', 1)` guarded by `'#' in url`). -/
def splitFragment (l : List Char) : List Char × List Char :=
  match splitFirst '#' l with
  | (before, some after) => (before, after)
  | (_, none) => (l, [])

/-- Query split: everything after the first `?`. -/
def splitQuery (l : List Char) : List Char × List Char :=
  match splitFirst '?' l with
  | (before, some after) => (before, after)
  | (_, none) => (l, [])

/-- Params split of CPython `urlparse._splitparams`: the first `;` of the
last path segment separates the params. -/
def splitParams (l : List Char) : List Char × List Char :=
  if l.contains '/' then
    let pre := (l.reverse.dropWhile (· ≠ '/')).reverse
    let seg := (l.reverse.takeWhile (· ≠ '/')).reverse
    match splitFirst ';' seg with
    | (before, some after) => (pre ++ before, after)
    | (_, none) => (l, [])
  else
    match splitFirst ';' l with
    | (before, some after) => (before, after)
    | (_, none) => (l, [])

/-- The six components returned by CPython `urlparse`. -/
structure UrlParts where
  scheme : List Char
  netloc : List Char
  path : List Char
  params : List Char
  query : List Char
  fragment : List Char
deriving DecidableEq, Repr

/-- CPython `urlsplit` (fragments allowed, as the crawler never disables
them): scheme, then netloc, then fragment, then query. -/
def urlsplitChars (dflt : List Char) (l : List Char) : UrlParts :=
  let s := splitScheme dflt l
  let n := splitNetloc s.2
  let f := splitFragment n.2
  let q := splitQuery f.1
  { scheme := s.1, netloc := n.1, path := q.1, params := [], query := q.2, fragment := f.2 }

/-- CPython `urlparse`: `urlsplit` followed by `_splitparams` on the path. -/
def urlparseChars (dflt : List Char) (l : List Char) : UrlParts :=
  let s := urlsplitChars dflt l
  let p := splitParams s.path
  { s with path := p.1, params := p.2 }

/-- CPython `urlunsplit`, over (scheme, netloc, path, query, fragment). -/
def urlunsplitChars (scheme netloc path query fragment : List Char) : List Char :=
  let url := path
  let url :=
    if netloc ≠ [] ∨ (url ≠ [] ∧ url.take 2 = ['/', '/']) then
      '/' :: '/' :: (netloc ++ (if url ≠ [] ∧ url.take 1 ≠ ['/'] then '/' :: url else url))
    else url
  let url := if scheme ≠ [] then scheme ++ ':' :: url else url
  let url := if query ≠ [] then url ++ '?' :: query else url
  if fragment ≠ [] then url ++ '#' :: fragment else url

/-- CPython `urlunparse`: params are rejoined to the path with `;`. -/
def urlunparseChars (u : UrlParts) : List Char :=
  let path := if u.params ≠ [] then u.path ++ ';' :: u.params else u.path
  urlunsplitChars u.scheme u.netloc path u.query u.fragment

/-- Join segment lists with `c` (Python `c.join(parts)`). -/
def joinWith (c : Char) : List (List Char) → List Char
  | [] => []
  | [a] => a
  | a :: rest => a ++ c :: joinWith c rest

/-- Schemes CPython treats as supporting relative URLs (the entries the
crawler can meet; notably `mailto`, `tel` and `javascript` are absent). -/
def uses_relative : List (List Char) :=
  ["", "ftp", "http", "gopher", "nntp", "imap", "wais", "file", "https",
   "shttp", "mms", "prospero", "rtsp", "rtspu", "sftp", "svn", "svn+ssh",
   "ws", "wss"].map String.toList

/-- Schemes CPython treats as carrying a netloc. -/
def uses_netloc : List (List Char) :=
  ["", "ftp", "http", "gopher", "nntp", "telnet", "imap", "wais", "file",
   "mms", "https", "shttp", "snews", "prospero", "rtsp", "rtspu", "rsync",
   "svn", "svn+ssh", "sftp", "nfs", "git", "git+ssh", "ws", "wss"].map String.toList

/-- Dot-segment resolution loop of CPython `urljoin`. -/
def resolveSegments (segments : List (List Char)) : List (List Char) :=
  let resolved := segments.foldl (fun acc seg =>
    if seg = ['.', '.'] then acc.dropLast
    else if seg = ['.'] then acc
    else acc ++ [seg]) []
  if segments.getLast? = some ['.'] ∨ segments.getLast? = some ['.', '.'] then
    resolved ++ [[]]
  else resolved

/-- CPython `urljoin` on character lists. -/
def urljoinChars (base url : List Char) : List Char :=
  if base = [] then url
  else if url = [] then base
  else
    let b := urlparseChars [] base
    let u := urlparseChars b.scheme url
    if u.scheme ≠ b.scheme ∨ uses_relative.contains u.scheme = false then url
    else if uses_netloc.contains u.scheme ∧ u.netloc ≠ [] then
      urlunparseChars u
    else
      let netloc := if uses_netloc.contains u.scheme then b.netloc else u.netloc
      if u.path = [] ∧ u.params = [] then
        let query := if u.query = [] then b.query else u.query
        urlunparseChars
          { scheme := u.scheme, netloc := netloc, path := b.path,
            params := b.params, query := query, fragment := u.fragment }
      else
        let base_parts := b.path.splitOn '/'
        let base_parts :=
          if base_parts.getLast? = some [] then base_parts else base_parts.dropLast
        let segments :=
          if u.path.take 1 = ['/'] then u.path.splitOn '/'
          else
            match base_parts ++ u.path.splitOn '/' with
            | [] => []
            | first :: rest =>
              match rest.getLast? with
              | some last => first :: (rest.dropLast.filter (· ≠ [])) ++ [last]
              | none => [first]
        let path := joinWith '/' (resolveSegments segments)
        let path := if path = [] then ['/'] else path
        urlunparseChars
          { scheme := u.scheme, netloc := netloc, path := path,
            params := u.params, query := u.query, fragment := u.fragment }

/-- CPython `urljoin` on strings. -/
def urljoin (base url : String) : String :=
  String.mk (urljoinChars base.toList url.toList)

/-! ## Model of `backend/app/helper.py` -/

/-- Substring containment, Python `needle in hay`. -/
def containsSub (needle hay : List Char) : Bool :=
  hay.tails.any (fun t => needle.isPrefixOf t)

/-- `helper.categorize_url`: heuristic section from the lowercased URL. -/
def categorize_url (url : String) : String :=
  let u := lowerChars url.toList
  if containsSub "doc".toList u then "Docs"
  else if containsSub "example".toList u || containsSub "demo".toList u then "Examples"
  else if containsSub "blog".toList u || containsSub "post".toList u then "Blog"
  else "Other"

/-- `helper.is_excluded_url`: low-value terms, non-content schemes, non-HTML
extensions, anchor-only strings, and deeply nested paths are excluded. -/
def is_excluded_url (url : String) : Bool :=
  let ul := lowerChars url.toList
  if (["login", "privacy", "terms", "cart", "faq"].map String.toList).any
      (fun t => containsSub t ul) then true
  else if (["mailto:", "tel:", "javascript:"].map String.toList).any
      (fun p => p.isPrefixOf ul) then true
  else if ([".pdf", ".jpg", ".jpeg", ".png", ".gif", ".css", ".js", ".zip", ".mp4"].map
      String.toList).any (fun e => e.isSuffixOf (urlparseChars [] ul).path) then true
  else if ['#'].isPrefixOf ul then true
  else if 3 < (urlparseChars [] ul).path.count '/' then true
  else false

/-- Python `path.rstrip('/')`. -/
def rstripSlash (l : List Char) : List Char := (l.reverse.dropWhile (· == '/')).reverse

/-- `helper.normalize_url`: rebuild `scheme://netloc` plus the path without
its trailing slashes (or `/` when that leaves nothing) plus any query;
params and fragment are dropped. -/
def normalize_url (url : String) : String :=
  let p := urlparseChars [] url.toList
  let path := if rstripSlash p.path = [] then ['/'] else rstripSlash p.path
  let out := p.scheme ++ ':' :: '/' :: '/' :: (p.netloc ++ path)
  String.mk (if p.query ≠ [] then out ++ '?' :: p.query else out)

/-- `helper.calculate_page_score`: `max(0, 100 - depth*10)`. -/
def calculate_page_score (depth : Nat) : Int :=
  max 0 (100 - (depth : Int) * 10)

/-! ## Model of `WebCrawler` (backend/app/crawler.py) -/

/-- One persisted `CrawledPage` row (models.CrawledPage), minus the ORM ids. -/
structure PageRec where
  url : String
  depth : Nat
  content_hash : String
  page_title : String
  page_description : String
  page_content : String
  etag : Option String
  last_modified : Option String
  links : List String
  page_score : Int
  last_seen : Nat
  not_seen_count : Nat
deriving DecidableEq, Repr

/-- Status strings produced by `check_url_with_head`. -/
inductive HeadStatus
  | notModified | modified | invalidType | tooLarge | forbidden | error | headFailed
deriving DecidableEq, Repr

/-- The fields of the `check_url_with_head` result dict that `crawl_url_job`
reads (`is_valid` and `status`). -/
structure HeadCheck where
  is_valid : Bool
  status : HeadStatus
deriving DecidableEq, Repr

/-- What the network returns for a HEAD request: a 304, a 200 carrying a
content type and optional length, some other status, or an exception. -/
inductive HeadResponse
  | status304
  | status200 (contentType : String) (contentLength : Option Nat)
  | statusOther (code : Nat)
  | failed
deriving DecidableEq, Repr

/-- The fetched-and-parsed data for one page: the fields of
`fetch_page_content`'s result dict together with the fields
`parse_page_content` extracts from its HTML. -/
structure PageData where
  title : String
  description : String
  content : String
  etag : Option String
  last_modified : Option String
  links : List String
deriving DecidableEq, Repr

/-- The external world for one crawl: the robots.txt verdict, the HEAD
behavior (a function of the conditional-request validators), and the
combined fetch-and-parse outcome (`none` models any exception raised while
fetching or parsing, which `crawl_url_job` catches and skips). -/
structure Site where
  robots : String → Bool
  head : String → Option String → Option String → HeadResponse
  fetch : String → Option PageData

/-- The configuration values of `core/config.py` the crawl engine reads. -/
structure Settings where
  MAX_PAGES : Nat
  MAX_DEPTH : Nat
  GRACE_PERIOD_CRAWLS : Nat
deriving Repr

/-- `WebCrawler.check_url_with_head`: robots gate first, then 304 / 200
content-type and 10 MB size checks / other status / exception fallback. -/
def check_url_with_head (site : Site) (url : String)
    (etag last_modified : Option String) : HeadCheck :=
  if site.robots url = false then ⟨false, .forbidden⟩
  else
    match site.head url etag last_modified with
    | .status304 => ⟨true, .notModified⟩
    | .status200 ct cl =>
      if containsSub "text/html".toList (lowerChars ct.toList) = false then
        ⟨false, .invalidType⟩
      else
        match cl with
        | some n => if 10 * 1024 * 1024 < n then ⟨false, .tooLarge⟩ else ⟨true, .modified⟩
        | none => ⟨true, .modified⟩
    | .statusOther _ => ⟨false, .error⟩
    | .failed => ⟨true, .headFailed⟩

/-- Outcome of the `requests.get` attempt inside `fetch_page_content`: a 2xx
response (with the `text/html` content-type test and the `_is_spa_shell`
heuristic abstracted to booleans), an HTTP error status raised by
`raise_for_status`, or any other transport failure or timeout. -/
inductive RequestsOutcome
  | success (isHtml : Bool) (isSpaShell : Bool)
  | httpError (status : Nat)
  | transportError
deriving DecidableEq, Repr

/-- What `fetch_page_content` does after the `requests` attempt. -/
inductive FetchPhaseResult
  | useRequestsResponse
  | fallbackToPlaywright
  | raiseHttpError (status : Nat)
  | returnNone
deriving DecidableEq, Repr

/-- Error-dispatch logic of `fetch_page_content` (crawler.py lines 255-294):
HTML 2xx responses are used directly unless the SPA heuristic fires; HTTP
errors 403, 404 and 500 are re-raised without fallback; every other HTTP
error and every transport failure falls back to Playwright; a 2xx non-HTML
response falls through and the function returns None. -/
def fetch_page_content_phase1 : RequestsOutcome → FetchPhaseResult
  | .success true true => .fallbackToPlaywright
  | .success true false => .useRequestsResponse
  | .success false _ => .returnNone
  | .httpError s =>
    if s = 403 ∨ s = 404 ∨ s = 500 then .raiseHttpError s else .fallbackToPlaywright
  | .transportError => .fallbackToPlaywright

/-- Link extraction of `parse_page_content` (crawler.py lines 356-362): each
anchor href (the BeautifulSoup anchor scan is abstracted to the href list)
is resolved against the base URL and kept when it is not excluded and its
host equals the base domain; the Python set is modelled as a deduplicated
list. -/
def parse_page_links (base_url : String) (hrefs : List String) : List String :=
  let base_domain := (urlparseChars [] base_url.toList).netloc
  hrefs.foldl (fun acc h =>
    let href := urljoin base_url h
    if ¬ is_excluded_url href = true ∧ (urlparseChars [] href.toList).netloc = base_domain
        ∧ href ∉ acc then
      acc ++ [href]
    else acc) []

/-- In-run crawl state: the `existing_pages` dict (an insertion-ordered
association list, as Python dicts are), the `seen_in_this_crawl` and
`visited` sets, the frontier deque, the fetched-page counter, and a trace of
the URLs for which `fetch_page_content` was invoked. -/
structure CrawlState where
  existing : List (String × PageRec)
  seen : List String
  visited : List String
  queue : List (String × Nat)
  pagesFetched : Nat
  fetchTrace : List String
deriving DecidableEq, Repr

/-- Dict lookup `existing_pages.get(key)`. -/
def lookupPage (k : String) (l : List (String × PageRec)) : Option PageRec :=
  (l.find? (fun e => e.1 == k)).map Prod.snd

/-- In-place dict value update (keeps insertion order, as Python does). -/
def updatePage (k : String) (r : PageRec) (l : List (String × PageRec)) :
    List (String × PageRec) :=
  l.map (fun e => if e.1 == k then (k, r) else e)

/-- The link-enqueue loops of `crawl_url_job` (lines 445-449 and 521-524):
each link is normalized and appended at `depth + 1` unless already visited. -/
def enqueueLinks (links : List String) (visited : List String) (depth : Nat)
    (queue : List (String × Nat)) : List (String × Nat) :=
  links.foldl (fun q link =>
    let n := normalize_url link
    if n ∈ visited then q else q ++ [(n, depth + 1)]) queue

/-- Field updates of the existing-page branch (lines 477-489). -/
def updatedRecord (old : PageRec) (depth : Nat) (hashFn : String → String)
    (pd : PageData) (now : Nat) : PageRec :=
  { old with
    content_hash := hashFn pd.content, page_title := pd.title,
    page_description := pd.description, page_content := pd.content,
    etag := pd.etag, last_modified := pd.last_modified, links := pd.links,
    depth := depth, page_score := calculate_page_score depth,
    last_seen := now, not_seen_count := 0 }

/-- The new `CrawledPage` constructed at lines 499-513. -/
def newRecord (url : String) (depth : Nat) (hashFn : String → String)
    (pd : PageData) (now : Nat) : PageRec :=
  { url := url, depth := depth, content_hash := hashFn pd.content,
    page_title := pd.title, page_description := pd.description,
    page_content := pd.content, etag := pd.etag,
    last_modified := pd.last_modified, links := pd.links,
    page_score := calculate_page_score depth, last_seen := now,
    not_seen_count := 0 }

/-- The fetch-and-store path of the frontier loop (lines 459-534): record the
`fetch_page_content` invocation, skip on exception, otherwise upsert the page
record, bump the counter and enqueue the parsed links when within the depth
bound. -/
def fetchPhase (st : Settings) (site : Site) (hashFn : String → String) (now : Nat)
    (s : CrawlState) (normalized : String) (depth : Nat) (rest : List (String × Nat))
    (visited seen : List String) : CrawlState :=
  let trace := s.fetchTrace ++ [normalized]
  match site.fetch normalized with
  | none =>
    { s with visited := visited, seen := seen, queue := rest, fetchTrace := trace }
  | some pd =>
    let existing2 :=
      match lookupPage normalized s.existing with
      | some old => updatePage normalized (updatedRecord old depth hashFn pd now) s.existing
      | none => s.existing ++ [(normalized, newRecord normalized depth hashFn pd now)]
    let queue2 :=
      if depth < st.MAX_DEPTH then enqueueLinks pd.links visited depth rest else rest
    { existing := existing2, visited := visited, seen := seen, queue := queue2,
      pagesFetched := s.pagesFetched + 1, fetchTrace := trace }

/-- One iteration of the frontier loop body (lines 418-534): pop, skip
visited or too-deep entries, probe existing pages with HEAD (304 touches the
record and re-enqueues its stored links; an invalid probe skips the URL),
otherwise fetch.  The code guards the cached-link replay by the truthiness
of the stored JSON string, which is non-empty for every crawler-written row,
so the guard is modelled as always passing. -/
def crawlStep (st : Settings) (site : Site) (hashFn : String → String) (now : Nat)
    (s : CrawlState) : CrawlState :=
  match s.queue with
  | [] => s
  | (current_url, depth) :: rest =>
    let normalized := normalize_url current_url
    if normalized ∈ s.visited ∨ st.MAX_DEPTH < depth then
      { s with queue := rest }
    else
      let visited := normalized :: s.visited
      let seen := normalized :: s.seen
      match lookupPage normalized s.existing with
      | some page =>
        let hc := check_url_with_head site normalized page.etag page.last_modified
        if hc.status = .notModified then
          let page2 := { page with last_seen := now, not_seen_count := 0 }
          let queue2 :=
            if depth < st.MAX_DEPTH then enqueueLinks page.links visited depth rest else rest
          { s with existing := updatePage normalized page2 s.existing,
                   visited := visited, seen := seen, queue := queue2 }
        else if hc.is_valid = false then
          { s with visited := visited, seen := seen, queue := rest }
        else
          fetchPhase st site hashFn now s normalized depth rest visited seen
      | none => fetchPhase st site hashFn now s normalized depth rest visited seen

/-- The frontier loop (line 417): run while the queue is non-empty and the
fetched-page counter is below `MAX_PAGES`; fuel makes the recursion
structural and a finished run is one whose stop condition holds. -/
def crawlLoop (st : Settings) (site : Site) (hashFn : String → String) (now : Nat) :
    Nat → CrawlState → CrawlState
  | 0, s => s
  | fuel + 1, s =>
    if s.queue = [] ∨ st.MAX_PAGES ≤ s.pagesFetched then s
    else crawlLoop st site hashFn now fuel (crawlStep st site hashFn now s)

/-- Lifecycle pass, step 1 (lines 540-543): bump `not_seen_count` for every
page not seen in this crawl. -/
def incrementNotSeen (seen : List String) (l : List (String × PageRec)) :
    List (String × PageRec) :=
  l.map (fun e =>
    if e.1 ∈ seen then e
    else (e.1, { e.2 with not_seen_count := e.2.not_seen_count + 1 }))

/-- Lifecycle pass, step 2 (lines 548-554): delete every page whose counter
reached the grace threshold. -/
def evictExpired (grace : Nat) (l : List (String × PageRec)) : List (String × PageRec) :=
  l.filter (fun e => e.2.not_seen_count < grace)

/-- Stable insertion into a descending-by-score list: the inserted element
goes before later elements of equal score, modelling the stability of
Python `list.sort(key=..., reverse=True)`. -/
def insertByScore (p : PageRec) : List PageRec → List PageRec
  | [] => [p]
  | q :: qs => if p.page_score < q.page_score then q :: insertByScore p qs else p :: q :: qs

/-- Stable descending sort by `page_score` (line 564). -/
def sortByScoreDesc : List PageRec → List PageRec
  | [] => []
  | p :: l => insertByScore p (sortByScoreDesc l)

/-- Score-based pruning (lines 561-571): when more than `maxPages` rows
survive, keep the first `maxPages` of the stable descending sort and delete
the rest; survivors keep their storage order.  Rows are assumed pairwise
distinct as records (distinct URLs), matching the database's distinct rows. -/
def prunePages (maxPages : Nat) (l : List (String × PageRec)) : List (String × PageRec) :=
  if l.length ≤ maxPages then l
  else
    let keep := (sortByScoreDesc (l.map Prod.snd)).take maxPages
    l.filter (fun e => e.2 ∈ keep)

/-! ## Model of `helper.generate_llms_txt` and `crawl_url_job` -/

/-- Python `"\n".join(lines)`. -/
def joinLines : List String → String
  | [] => ""
  | [a] => a
  | a :: rest => a ++ "\n" ++ joinLines rest

/-- First-seen order of the section categories (Python dict `setdefault`). -/
def sectionCategories (rest : List PageRec) : List String :=
  rest.foldl (fun cats p =>
    let c := categorize_url p.url
    if c ∈ cats then cats else cats ++ [c]) []

/-- Section bodies of `generate_llms_txt`, one `##` header per category then
one `- [text](url): note` entry per page. -/
def sectionLines (rest : List PageRec) : List String :=
  (sectionCategories rest).foldl (fun lines c =>
    lines ++ ("## " ++ c ++ "\n") ::
      ((rest.filter (fun p => categorize_url p.url = c)).map (fun p =>
        let link_text := if p.page_title = "" then p.url else p.page_title
        let notes := if p.page_description ≠ "" then p.page_description else p.page_content
        "- [" ++ link_text ++ "](" ++ p.url ++ ")" ++
          (if notes ≠ "" then ": " ++ notes else "")))) []

/-- `helper.generate_llms_txt`, following its heuristic branch (the `except`
fallback): the root page supplies the header, the remaining pages are
grouped by `categorize_url`.  The AI enrichment call is an external service
(out of scope); on its failure the source falls back to exactly this
grouping. -/
def generate_llms_txt (pages : List PageRec) (root_url : String) : String :=
  match pages with
  | [] => ""
  | root :: rest =>
    let title := if root.page_title = "" then root_url else root.page_title
    let desc := root.page_description
    let lines := ("# " ++ title ++ "\n") ::
      ((if desc ≠ "" then ["> " ++ desc ++ "\n"] else []) ++ sectionLines rest)
    joinLines lines

/-- The `URLJob` fields `crawl_url_job` reads and writes (progress and
timestamp bookkeeping omitted); `last_monitored` is reduced to its
truthiness, which is all line 592 tests. -/
structure JobState where
  llm_text_content : Option String
  content_hash : Option String
  last_monitored : Bool
  status : String
deriving DecidableEq, Repr

/-- Unordered equality of the page-state dicts compared at line 593 (Python
`dict !=`); keys are unique in every state the job builds. -/
def dictEq (a b : List (String × String)) : Bool :=
  a.all (fun e => b.contains e) && b.all (fun e => a.contains e)

/-- Result of one `crawl_url_job` run: the updated job row, the surviving
page rows in storage order, the score-ordered `final_pages` query result,
whether the manifest was regenerated, and the final loop state (exposing
the fetch trace and counters). -/
structure CrawlOutcome where
  job : JobState
  pages : List (String × PageRec)
  finalPages : List PageRec
  regenerated : Bool
  loopState : CrawlState
deriving Repr

/-- `crawl_url_job` (lines 371-621): load the existing pages keyed by their
normalized URL, snapshot the digests, run the frontier loop from the
normalized root, apply the lifecycle pass and pruning, then regenerate the
manifest when the digest states differ, when `last_monitored` is unset, or
when no manifest text is stored.  The sha256 digest is abstracted as
`hashFn`; timestamps as `now`. -/
def crawl_url_job (st : Settings) (site : Site) (hashFn : String → String)
    (now : Nat) (fuel : Nat) (job : JobState) (rootUrl : String)
    (pages0 : List PageRec) : CrawlOutcome :=
  let existing0 := pages0.map (fun p => (normalize_url p.url, p))
  let initialStates := existing0.map (fun e => (e.1, e.2.content_hash))
  let s0 : CrawlState :=
    { existing := existing0, seen := [], visited := [],
      queue := [(normalize_url rootUrl, 0)], pagesFetched := 0, fetchTrace := [] }
  let s := crawlLoop st site hashFn now fuel s0
  let afterInc := incrementNotSeen s.seen s.existing
  let afterEvict := evictExpired st.GRACE_PERIOD_CRAWLS afterInc
  let survivors := prunePages st.MAX_PAGES afterEvict
  let finalPages := sortByScoreDesc (survivors.map Prod.snd)
  if finalPages.isEmpty then
    { job := { job with status := "error" }, pages := survivors,
      finalPages := finalPages, regenerated := false, loopState := s }
  else
    let finalStates := finalPages.map (fun p => (normalize_url p.url, p.content_hash))
    let pages_changed := if job.last_monitored then !dictEq initialStates finalStates else true
    let llmFalsy := match job.llm_text_content with | none => true | some t => t = ""
    if pages_changed || llmFalsy then
      let llm := generate_llms_txt finalPages rootUrl
      let job2 : JobState :=
        { job with llm_text_content := some llm,
                   content_hash := some (hashFn llm), status := "completed" }
      { job := job2, pages := survivors, finalPages := finalPages,
        regenerated := true, loopState := s }
    else
      { job := { job with status := "completed" }, pages := survivors,
        finalPages := finalPages, regenerated := false, loopState := s }

/-- Pop-skip characterization helper: the queue entries appended by
`enqueueLinks` are the normalized links not yet visited, at `depth + 1`. -/
def pendingLinks (links : List String) (visited : List String) (depth : Nat) :
    List (String × Nat) :=
  (links.map (fun l => (normalize_url l, depth + 1))).filter
    (fun e => !visited.contains e.1)

/-! ## Concrete fixtures used by witness and counterexample theorems -/

/-- A small fetch result with two outbound links. -/
def fixturePageData : PageData :=
  { title := "Root", description := "landing page", content := "welcome to the site",
    etag := some "e1", last_modified := none, links := ["http://a/b", "http://a/c"] }

/-- A small fetch result with no links. -/
def fixtureLeafData : PageData :=
  { title := "Leaf", description := "", content := "leaf body text",
    etag := none, last_modified := none, links := [] }

/-- A permissive site whose HEAD endpoint always fails over to GET. -/
def fixtureSite : Site :=
  { robots := fun _ => true,
    head := fun _ _ _ => HeadResponse.failed,
    fetch := fun u => if u = "http://a/" then some fixturePageData else some fixtureLeafData }

/-- A crawl configuration with a budget of 2 pages and depth bound 3. -/
def fixtureSettings : Settings :=
  { MAX_PAGES := 2, MAX_DEPTH := 3, GRACE_PERIOD_CRAWLS := 2 }

/-- The initial loop state for a crawl of `http://a/` with no stored pages. -/
def fixtureState : CrawlState :=
  { existing := [], seen := [], visited := [], queue := [("http://a/", 0)],
    pagesFetched := 0, fetchTrace := [] }

/-- A site whose robots.txt disallows everything. -/
def disallowedSite : Site :=
  { robots := fun _ => false,
    head := fun _ _ _ => HeadResponse.status304,
    fetch := fun _ => some fixtureLeafData }

/-- A stored page row with an ETag and one stored link. -/
def fixtureRec : PageRec :=
  { url := "http://a/b", depth := 1, content_hash := "h", page_title := "B",
    page_description := "", page_content := "body", etag := some "e2",
    last_modified := none, links := ["http://a/c"], page_score := 90,
    last_seen := 5, not_seen_count := 0 }

/-- A permissive site whose HEAD endpoint always answers 304. -/
def cachedSite : Site :=
  { robots := fun _ => true,
    head := fun _ _ _ => HeadResponse.status304,
    fetch := fun _ => some fixtureLeafData }

/-- A loop state holding `fixtureRec` with its URL at the head of the frontier. -/
def cachedState : CrawlState :=
  { existing := [("http://a/b", fixtureRec)], seen := [], visited := [],
    queue := [("http://a/b", 1)], pagesFetched := 0, fetchTrace := [] }

/-- One crawl's lifecycle effect on a single page row absent from that crawl,
built directly from the lifecycle passes: increment the not-seen counter,
then evict when it reached the grace threshold. -/
def absentLifecycle (grace : Nat) (u : String) (p : PageRec) : Option PageRec :=
  match evictExpired grace (incrementNotSeen [] [(u, p)]) with
  | [] => none
  | e :: _ => some e.2

/-- The surviving row after `k` consecutive crawls in which the page was
absent (`none` once the grace-period eviction deleted it). -/
def absentRun (grace : Nat) (u : String) : Nat → PageRec → Option PageRec
  | 0, p => some p
  | k + 1, p =>
    match absentLifecycle grace u p with
    | none => none
    | some q => absentRun grace u k q

/-- Three distinct rows for the pruning witness: scores 100, 90, 90, with the
two 90-score rows tied and ordered by insertion. -/
def pruneRow1 : PageRec :=
  { fixtureRec with url := "http://a/", depth := 0, page_score := 100 }

/-- Second pruning-witness row (earlier of the two tied rows). -/
def pruneRow2 : PageRec :=
  { fixtureRec with url := "http://a/b", depth := 1, page_score := 90 }

/-- Third pruning-witness row (later of the two tied rows). -/
def pruneRow3 : PageRec :=
  { fixtureRec with url := "http://a/c", depth := 1, page_score := 90 }

/-- The pruning-witness table in storage order. -/
def pruneRows : List (String × PageRec) :=
  [("http://a/", pruneRow1), ("http://a/b", pruneRow2), ("http://a/c", pruneRow3)]

/-- Record-touching map applied by run-two mirroring: every page whose key
was visited carries `last_seen := now` and a reset counter. -/
def touchAll (now2 : Nat) (vs : List String) (l : List (String × PageRec)) :
    List (String × PageRec) :=
  l.map (fun e => if e.1 ∈ vs then
    (e.1, { e.2 with last_seen := now2, not_seen_count := 0 }) else e)

/-- Run-two state mirroring a run-one state: same frontier, visited and seen
sets, no fetches, and the final run-one database with the visited records
touched. -/
def mirrorState (now2 : Nat) (DB1 : List (String × PageRec)) (tr : List String)
    (s1 : CrawlState) : CrawlState :=
  { existing := touchAll now2 s1.visited DB1, seen := s1.seen,
    visited := s1.visited, queue := s1.queue, pagesFetched := 0, fetchTrace := tr }

/-- Invariants of the frontier loop started from an empty database: stored
keys are visited; every record came from a successful fetch of its key
(matching links), with a zero counter and its url equal to its key; keys are
unique; seen equals visited; the database is no larger than the fetch
counter; and every visited key whose fetch succeeds is stored. -/
def RunInv (site : Site) (s : CrawlState) : Prop :=
  (∀ k, (lookupPage k s.existing).isSome → k ∈ s.visited) ∧
  (∀ e ∈ s.existing,
    (∃ pd, site.fetch e.1 = some pd ∧ e.2.links = pd.links) ∧
    e.2.not_seen_count = 0 ∧ e.2.url = e.1) ∧
  (s.existing.map Prod.fst).Nodup ∧
  s.seen = s.visited ∧
  s.existing.length ≤ s.pagesFetched ∧
  (∀ k, k ∈ s.visited → site.fetch k ≠ none → (lookupPage k s.existing).isSome)

/-- A freshly created `URLJob` row: no manifest, never monitored. -/
def job0 : JobState :=
  { llm_text_content := none, content_hash := none, last_monitored := false,
    status := "pending" }

/-! ## Sanity checks of the URL model against CPython behavior -/

example : normalize_url "https://site.com" = "https://site.com/" := by decide
example : normalize_url "https://site.com/a/" = "https://site.com/a" := by decide
example : normalize_url "https://site.com/a#frag" = "https://site.com/a" := by decide
example : normalize_url "https://site.com/a?q=1" = "https://site.com/a?q=1" := by decide
example : normalize_url "a" = "://a" := by decide
example : normalize_url "://a" = "://://a" := by decide
example : urljoin "https://site.com/" "#section" = "https://site.com/#section" := by decide
example : urljoin "https://site.com/" "mailto:a@b.com" = "mailto:a@b.com" := by decide
example : urljoin "https://site.com/" "https://site.com/image.png" = "https://site.com/image.png" := by decide
example : urljoin "https://site.com/" "docs/intro.html" = "https://site.com/docs/intro.html" := by decide
example : urljoin "https://site.com/a/b/" "../c" = "https://site.com/a/c" := by decide
example : is_excluded_url "mailto:a@b.com" = true := by decide
example : is_excluded_url "#section" = true := by decide
example : is_excluded_url "https://site.com/image.png" = true := by decide
example : is_excluded_url "https://site.com/#section" = false := by decide
example : is_excluded_url "https://other-domain.com/page" = false := by decide
example : is_excluded_url "https://site.com/a/b/c/d" = true := by decide
example : calculate_page_score 0 = 100 := by decide
example : calculate_page_score 12 = 0 := by decide


/-! ## General lemmas about the embedded operations -/

theorem enqueueLinks_eq (links : List String) (visited : List String) (depth : Nat)
    (queue : List (String × Nat)) :
    enqueueLinks links visited depth queue = queue ++ pendingLinks links visited depth := by
  induction links generalizing queue with
  | nil => simp [enqueueLinks, pendingLinks]
  | cons l ls ih =>
    by_cases h : normalize_url l ∈ visited
    · simp [enqueueLinks, pendingLinks, h] at ih ⊢
      exact ih queue
    · simp only [enqueueLinks, pendingLinks, List.foldl_cons, List.map_cons, List.filter_cons] at ih ⊢
      have hc : visited.contains (normalize_url l) = false := by
        simpa using h
      simp only [if_neg h, hc, Bool.not_false, if_pos] at ih ⊢
      rw [ih (queue ++ [(normalize_url l, depth + 1)])]
      simp [pendingLinks]

theorem crawlLoop_done (st : Settings) (site : Site) (hashFn : String → String)
    (now : Nat) (fuel : Nat) (s : CrawlState)
    (h : s.queue = [] ∨ st.MAX_PAGES ≤ s.pagesFetched) :
    crawlLoop st site hashFn now fuel s = s := by
  cases fuel with
  | zero => rfl
  | succ f => simp [crawlLoop, h]

/-! ## C1: link exclusion in `parse_page_content` -/

/-- C1: the claim states that when crawling `https://site.com/` the hrefs
`mailto:a@b.com`, `#section`, `https://site.com/image.png` and
`https://other-domain.com/page` are all excluded from the link set returned
by `parse_page_content`, the fragment-only link by the exclusion rule.  In
the code, hrefs are resolved with `urljoin` before `is_excluded_url` runs,
so `#section` reaches the filter as `https://site.com/#section`, which no
exclusion matches: the discovered link set is exactly that resolved
fragment link, while the other three candidates are excluded. -/
theorem C1_fragment_href_included :
    parse_page_links "https://site.com/"
      ["mailto:a@b.com", "#section", "https://site.com/image.png",
       "https://other-domain.com/page"] = ["https://site.com/#section"] ∧
    is_excluded_url "https://site.com/#section" = false := by decide

/-! ## C4: fallback decision after the lightweight GET -/

/-- C4 counterexample: 502 is a 500-class status, yet `fetch_page_content`
attempts the Playwright fallback for it instead of raising immediately
(the code tests membership in `[403, 404, 500]` only). -/
theorem C4_counterexample_502_falls_back :
    500 ≤ 502 ∧ 502 < 600 ∧
    fetch_page_content_phase1 (RequestsOutcome.httpError 502) =
      FetchPhaseResult.fallbackToPlaywright ∧
    fetch_page_content_phase1 (RequestsOutcome.httpError 502) ≠
      FetchPhaseResult.raiseHttpError 502 := by decide

/-- C4 (amended): the statuses that fail immediately without the rendering
fallback are exactly 403, 404 and the single status 500; every other HTTP
error status and every other transport failure or timeout attempts the
Playwright fallback. -/
theorem C4_no_fallback_exactly_403_404_500 :
    (∀ c : Nat,
      (fetch_page_content_phase1 (RequestsOutcome.httpError c) =
          FetchPhaseResult.raiseHttpError c ↔ c = 403 ∨ c = 404 ∨ c = 500) ∧
      (¬(c = 403 ∨ c = 404 ∨ c = 500) →
        fetch_page_content_phase1 (RequestsOutcome.httpError c) =
          FetchPhaseResult.fallbackToPlaywright)) ∧
    fetch_page_content_phase1 RequestsOutcome.transportError =
      FetchPhaseResult.fallbackToPlaywright := by
  refine ⟨fun c => ⟨?_, fun h => ?_⟩, rfl⟩
  · by_cases h : c = 403 ∨ c = 404 ∨ c = 500 <;>
      simp [fetch_page_content_phase1, h]
  · simp [fetch_page_content_phase1, h]

/-! ## C10, counterexample part: `normalize_url` idempotence fails -/

/-- C10 counterexample: `normalize_url` is not idempotent on every URL.  On
the scheme-less URL `a`, one application yields `://a`, whose re-parse finds
neither scheme nor netloc, so a second application yields `://://a`. -/
theorem C10_counterexample_not_idempotent :
    normalize_url (normalize_url "a") ≠ normalize_url "a" ∧
    normalize_url "a" = "://a" ∧ normalize_url "://a" = "://://a" := by decide

/-! ## Association-list lemmas for the `existing_pages` dict -/

theorem lookupPage_cons (k : String) (e : String × PageRec) (tl : List (String × PageRec)) :
    lookupPage k (e :: tl) = if e.1 = k then some e.2 else lookupPage k tl := by
  by_cases he : e.1 = k
  · simp [lookupPage, List.find?_cons_of_pos, he]
  · simp [lookupPage, List.find?_cons_of_neg, he]

theorem updatePage_cons (k : String) (r : PageRec) (e : String × PageRec)
    (tl : List (String × PageRec)) :
    updatePage k r (e :: tl) = (if e.1 = k then (k, r) else e) :: updatePage k r tl := by
  by_cases he : e.1 = k <;> simp [updatePage, he]

theorem lookupPage_mem {k : String} {p : PageRec} {l : List (String × PageRec)}
    (h : lookupPage k l = some p) : (k, p) ∈ l := by
  induction l with
  | nil => simp [lookupPage] at h
  | cons e tl ih =>
    rw [lookupPage_cons] at h
    by_cases he : e.1 = k
    · rw [if_pos he] at h
      obtain ⟨a, b⟩ := e
      simp at h he
      subst he
      subst h
      exact List.mem_cons_self _ _
    · rw [if_neg he] at h
      exact List.mem_cons_of_mem _ (ih h)

theorem lookupPage_updatePage_self {k : String} {l : List (String × PageRec)}
    (r : PageRec) (h : (lookupPage k l).isSome) :
    lookupPage k (updatePage k r l) = some r := by
  induction l with
  | nil => simp [lookupPage] at h
  | cons e tl ih =>
    rw [lookupPage_cons] at h
    rw [updatePage_cons]
    by_cases he : e.1 = k
    · simp [he, lookupPage_cons]
    · rw [if_neg he] at h
      rw [if_neg he, lookupPage_cons, if_neg he]
      exact ih h

theorem lookupPage_updatePage_ne {k k2 : String} {l : List (String × PageRec)}
    (r : PageRec) (h : k2 ≠ k) :
    lookupPage k2 (updatePage k r l) = lookupPage k2 l := by
  induction l with
  | nil => simp [lookupPage, updatePage]
  | cons e tl ih =>
    rw [updatePage_cons, lookupPage_cons, lookupPage_cons]
    by_cases he : e.1 = k
    · rw [if_pos he, if_neg (by simpa using fun hc => h hc.symm), if_neg (he ▸ h ∘ Eq.symm)]
      exact ih
    · rw [if_neg he]
      by_cases he2 : e.1 = k2
      · rw [if_pos he2, if_pos he2]
      · rw [if_neg he2, if_neg he2]
        exact ih

theorem lookupPage_append_isSome {k : String} {l l2 : List (String × PageRec)}
    (h : (lookupPage k l).isSome) : (lookupPage k (l ++ l2)).isSome := by
  induction l with
  | nil => simp [lookupPage] at h
  | cons e tl ih =>
    rw [lookupPage_cons] at h
    rw [List.cons_append, lookupPage_cons]
    by_cases he : e.1 = k
    · simp [he]
    · rw [if_neg he] at h ⊢
      exact ih h

theorem updatePage_mem {k k2 : String} {r r2 : PageRec} {l : List (String × PageRec)}
    (h : (k2, r2) ∈ updatePage k r l) : (k2, r2) ∈ l ∨ (k2 = k ∧ r2 = r) := by
  induction l with
  | nil => simp [updatePage] at h
  | cons e tl ih =>
    rw [updatePage_cons] at h
    rcases List.mem_cons.mp h with h2 | h2
    · by_cases he : e.1 = k
      · rw [if_pos he] at h2
        right
        exact ⟨congrArg Prod.fst h2, congrArg Prod.snd h2⟩
      · rw [if_neg he] at h2
        left
        exact h2 ▸ List.mem_cons_self _ _
    · rcases ih h2 with h3 | h3
      · exact Or.inl (List.mem_cons_of_mem _ h3)
      · exact Or.inr h3


/-! ## Case analysis of one frontier-loop iteration -/

theorem crawlStep_characterization (st : Settings) (site : Site)
    (hashFn : String → String) (now : Nat) (s : CrawlState) :
    (s.queue = [] ∧ crawlStep st site hashFn now s = s) ∨
    (∃ u d rest, s.queue = (u, d) :: rest ∧
      (((normalize_url u ∈ s.visited ∨ st.MAX_DEPTH < d) ∧
          crawlStep st site hashFn now s = { s with queue := rest }) ∨
        (normalize_url u ∉ s.visited ∧ d ≤ st.MAX_DEPTH ∧
          ((∃ page, lookupPage (normalize_url u) s.existing = some page ∧
              (check_url_with_head site (normalize_url u) page.etag
                  page.last_modified).status = HeadStatus.notModified ∧
              crawlStep st site hashFn now s =
                { s with
                  existing := updatePage (normalize_url u)
                    { page with last_seen := now, not_seen_count := 0 } s.existing,
                  visited := normalize_url u :: s.visited,
                  seen := normalize_url u :: s.seen,
                  queue := if d < st.MAX_DEPTH then
                      rest ++ pendingLinks page.links (normalize_url u :: s.visited) d
                    else rest }) ∨
            (∃ page, lookupPage (normalize_url u) s.existing = some page ∧
              (check_url_with_head site (normalize_url u) page.etag
                  page.last_modified).status ≠ HeadStatus.notModified ∧
              (check_url_with_head site (normalize_url u) page.etag
                  page.last_modified).is_valid = false ∧
              crawlStep st site hashFn now s =
                { s with visited := normalize_url u :: s.visited,
                         seen := normalize_url u :: s.seen, queue := rest }) ∨
            ((lookupPage (normalize_url u) s.existing = none ∨
                ∃ page, lookupPage (normalize_url u) s.existing = some page ∧
                  (check_url_with_head site (normalize_url u) page.etag
                      page.last_modified).status ≠ HeadStatus.notModified ∧
                  (check_url_with_head site (normalize_url u) page.etag
                      page.last_modified).is_valid = true) ∧
              site.fetch (normalize_url u) = none ∧
              crawlStep st site hashFn now s =
                { s with visited := normalize_url u :: s.visited,
                         seen := normalize_url u :: s.seen, queue := rest,
                         fetchTrace := s.fetchTrace ++ [normalize_url u] }) ∨
            (∃ page pd, lookupPage (normalize_url u) s.existing = some page ∧
              (check_url_with_head site (normalize_url u) page.etag
                  page.last_modified).status ≠ HeadStatus.notModified ∧
              (check_url_with_head site (normalize_url u) page.etag
                  page.last_modified).is_valid = true ∧
              site.fetch (normalize_url u) = some pd ∧
              crawlStep st site hashFn now s =
                { existing := updatePage (normalize_url u)
                    (updatedRecord page d hashFn pd now) s.existing,
                  visited := normalize_url u :: s.visited,
                  seen := normalize_url u :: s.seen,
                  queue := if d < st.MAX_DEPTH then
                      rest ++ pendingLinks pd.links (normalize_url u :: s.visited) d
                    else rest,
                  pagesFetched := s.pagesFetched + 1,
                  fetchTrace := s.fetchTrace ++ [normalize_url u] }) ∨
            (∃ pd, lookupPage (normalize_url u) s.existing = none ∧
              site.fetch (normalize_url u) = some pd ∧
              crawlStep st site hashFn now s =
                { existing := s.existing ++
                    [(normalize_url u, newRecord (normalize_url u) d hashFn pd now)],
                  visited := normalize_url u :: s.visited,
                  seen := normalize_url u :: s.seen,
                  queue := if d < st.MAX_DEPTH then
                      rest ++ pendingLinks pd.links (normalize_url u :: s.visited) d
                    else rest,
                  pagesFetched := s.pagesFetched + 1,
                  fetchTrace := s.fetchTrace ++ [normalize_url u] }))))) := by
  rcases hq : s.queue with _ | ⟨⟨u, d⟩, rest⟩
  · exact Or.inl ⟨rfl, by unfold crawlStep; rw [hq]⟩
  · refine Or.inr ⟨u, d, rest, rfl, ?_⟩
    by_cases hskip : normalize_url u ∈ s.visited ∨ st.MAX_DEPTH < d
    · refine Or.inl ⟨hskip, ?_⟩
      unfold crawlStep
      simp only [hq, if_pos hskip]
    · have hnv : normalize_url u ∉ s.visited := fun hc => hskip (Or.inl hc)
      have hd : d ≤ st.MAX_DEPTH := by
        rcases Nat.lt_or_ge st.MAX_DEPTH d with h | h
        · exact absurd (Or.inr h) hskip
        · exact h
      refine Or.inr ⟨hnv, hd, ?_⟩
      rcases hl : lookupPage (normalize_url u) s.existing with _ | page
      · rcases hf : site.fetch (normalize_url u) with _ | pd
        · refine Or.inr (Or.inr (Or.inl ⟨Or.inl rfl, rfl, ?_⟩))
          unfold crawlStep fetchPhase
          simp only [hq, if_neg hskip, hl, hf]
        · refine Or.inr (Or.inr (Or.inr (Or.inr ⟨pd, rfl, rfl, ?_⟩)))
          unfold crawlStep fetchPhase
          simp only [hq, if_neg hskip, hl, hf, enqueueLinks_eq]
      · by_cases h304 : (check_url_with_head site (normalize_url u) page.etag
            page.last_modified).status = HeadStatus.notModified
        · refine Or.inl ⟨page, rfl, h304, ?_⟩
          unfold crawlStep
          simp only [hq, if_neg hskip, hl, if_pos h304, enqueueLinks_eq]
        · by_cases hval : (check_url_with_head site (normalize_url u) page.etag
              page.last_modified).is_valid = false
          · refine Or.inr (Or.inl ⟨page, rfl, h304, hval, ?_⟩)
            unfold crawlStep
            simp only [hq, if_neg hskip, hl, if_neg h304, if_pos hval]
          · have hval2 : (check_url_with_head site (normalize_url u) page.etag
                page.last_modified).is_valid = true := by
              rcases Bool.eq_false_or_eq_true ((check_url_with_head site (normalize_url u)
                page.etag page.last_modified).is_valid) with h | h
              · exact h
              · exact absurd h hval
            rcases hf : site.fetch (normalize_url u) with _ | pd
            · refine Or.inr (Or.inr (Or.inl ⟨Or.inr ⟨page, rfl, h304, hval2⟩, rfl, ?_⟩))
              unfold crawlStep fetchPhase
              simp only [hq, if_neg hskip, hl, if_neg h304, if_neg hval, hf]
            · refine Or.inr (Or.inr (Or.inr (Or.inl ⟨page, pd, rfl, h304, hval2, rfl, ?_⟩)))
              unfold crawlStep fetchPhase
              simp only [hq, if_neg hskip, hl, if_neg h304, if_neg hval, hf, enqueueLinks_eq]

/-! ## Step invariants derived from the characterization -/

theorem pendingLinks_mem {links visited : List String} {depth : Nat}
    {e : String × Nat} (h : e ∈ pendingLinks links visited depth) :
    e.2 = depth + 1 ∧ (∃ l ∈ links, e.1 = normalize_url l) ∧ e.1 ∉ visited := by
  unfold pendingLinks at h
  have hm := List.mem_of_mem_filter h
  have hf := List.of_mem_filter h
  rcases List.mem_map.mp hm with ⟨l, hl, he⟩
  subst he
  refine ⟨rfl, ⟨l, hl, rfl⟩, ?_⟩
  simpa using hf

theorem crawlStep_budget (st : Settings) (site : Site) (hashFn : String → String)
    (now : Nat) (s : CrawlState) :
    s.pagesFetched ≤ (crawlStep st site hashFn now s).pagesFetched ∧
    (crawlStep st site hashFn now s).pagesFetched ≤ s.pagesFetched + 1 := by
  rcases crawlStep_characterization st site hashFn now s with ⟨_, hs⟩ |
    ⟨u, d, rest, hq, ⟨_, hs⟩ | ⟨_, _, ⟨page, _, _, hs⟩ | ⟨page, _, _, _, hs⟩ |
      ⟨_, _, hs⟩ | ⟨page, pd, _, _, _, _, hs⟩ | ⟨pd, _, _, hs⟩⟩⟩ <;>
    rw [hs] <;> simp

theorem crawlStep_visited_sub (st : Settings) (site : Site) (hashFn : String → String)
    (now : Nat) (s : CrawlState) :
    ∀ x ∈ s.visited, x ∈ (crawlStep st site hashFn now s).visited := by
  rcases crawlStep_characterization st site hashFn now s with ⟨_, hs⟩ |
    ⟨u, d, rest, hq, ⟨_, hs⟩ | ⟨_, _, ⟨page, _, _, hs⟩ | ⟨page, _, _, _, hs⟩ |
      ⟨_, _, hs⟩ | ⟨page, pd, _, _, _, _, hs⟩ | ⟨pd, _, _, hs⟩⟩⟩ <;>
    rw [hs] <;> intro x hx <;> simp [hx]

theorem crawlStep_seen_sub (st : Settings) (site : Site) (hashFn : String → String)
    (now : Nat) (s : CrawlState) :
    ∀ x ∈ s.seen, x ∈ (crawlStep st site hashFn now s).seen := by
  rcases crawlStep_characterization st site hashFn now s with ⟨_, hs⟩ |
    ⟨u, d, rest, hq, ⟨_, hs⟩ | ⟨_, _, ⟨page, _, _, hs⟩ | ⟨page, _, _, _, hs⟩ |
      ⟨_, _, hs⟩ | ⟨page, pd, _, _, _, _, hs⟩ | ⟨pd, _, _, hs⟩⟩⟩ <;>
    rw [hs] <;> intro x hx <;> simp [hx]

theorem crawlLoop_succ (st : Settings) (site : Site) (hashFn : String → String)
    (now : Nat) (f : Nat) (s : CrawlState)
    (h : ¬(s.queue = [] ∨ st.MAX_PAGES ≤ s.pagesFetched)) :
    crawlLoop st site hashFn now (f + 1) s =
    crawlLoop st site hashFn now f (crawlStep st site hashFn now s) := by
  show (if s.queue = [] ∨ st.MAX_PAGES ≤ s.pagesFetched then s
        else crawlLoop st site hashFn now f (crawlStep st site hashFn now s)) = _
  rw [if_neg h]

theorem crawlStep_not_in_trace (st : Settings) (site : Site) (hashFn : String → String)
    (now : Nat) (s : CrawlState) (n : String)
    (hv : n ∈ s.visited) (ht : n ∉ s.fetchTrace) :
    n ∈ (crawlStep st site hashFn now s).visited ∧
    n ∉ (crawlStep st site hashFn now s).fetchTrace := by
  rcases crawlStep_characterization st site hashFn now s with ⟨_, hs⟩ |
    ⟨u, d, rest, hq, ⟨_, hs⟩ | ⟨hnv, _, ⟨page, _, _, hs⟩ | ⟨page, _, _, _, hs⟩ |
      ⟨_, _, hs⟩ | ⟨page, pd, _, _, _, _, hs⟩ | ⟨pd, _, _, hs⟩⟩⟩ <;> rw [hs] <;>
    refine ⟨by simp [hv], ?_⟩ <;>
    first
      | exact ht
      | (intro hmem
         have hmem2 : n ∈ s.fetchTrace ∨ n = normalize_url u := by simpa using hmem
         rcases hmem2 with h2 | rfl
         · exact ht h2
         · exact hnv hv)

theorem crawlLoop_not_in_trace (st : Settings) (site : Site) (hashFn : String → String)
    (now : Nat) (fuel : Nat) :
    ∀ s n, n ∈ s.visited → n ∉ s.fetchTrace →
      n ∉ (crawlLoop st site hashFn now fuel s).fetchTrace := by
  induction fuel with
  | zero => intro s n _ ht; exact ht
  | succ f ih =>
    intro s n hv ht
    by_cases hdone : s.queue = [] ∨ st.MAX_PAGES ≤ s.pagesFetched
    · rw [crawlLoop_done st site hashFn now (f + 1) s hdone]
      exact ht
    · have hstep := crawlStep_not_in_trace st site hashFn now s n hv ht
      rw [crawlLoop_succ st site hashFn now f s hdone]
      exact ih _ n hstep.1 hstep.2

theorem crawlStep_depth_inv (st : Settings) (site : Site) (hashFn : String → String)
    (now : Nat) (s : CrawlState)
    (hex : ∀ e ∈ s.existing, e.2.depth ≤ st.MAX_DEPTH)
    (hqu : ∀ e ∈ s.queue, e.2 ≤ st.MAX_DEPTH) :
    (∀ e ∈ (crawlStep st site hashFn now s).existing, e.2.depth ≤ st.MAX_DEPTH) ∧
    (∀ e ∈ (crawlStep st site hashFn now s).queue, e.2 ≤ st.MAX_DEPTH) := by
  have hrest : ∀ u d rest, s.queue = (u, d) :: rest → ∀ e ∈ rest, e.2 ≤ st.MAX_DEPTH :=
    fun u d rest hq e he => hqu e (hq ▸ List.mem_cons_of_mem _ he)
  have hpend : ∀ (links : List String) (vis : List String) (d : Nat),
      d < st.MAX_DEPTH → ∀ e ∈ pendingLinks links vis d, e.2 ≤ st.MAX_DEPTH := by
    intro links vis d hlt e he
    have := (pendingLinks_mem he).1
    omega
  rcases crawlStep_characterization st site hashFn now s with ⟨_, hs⟩ |
    ⟨u, d, rest, hq, ⟨_, hs⟩ | ⟨hnv, hd, ⟨page, hl, _, hs⟩ | ⟨page, hl, _, _, hs⟩ |
      ⟨_, _, hs⟩ | ⟨page, pd, hl, _, _, _, hs⟩ | ⟨pd, hl, _, hs⟩⟩⟩ <;> rw [hs]
  · exact ⟨hex, hqu⟩
  · exact ⟨hex, hrest u d rest hq⟩
  · -- 304 touch
    refine ⟨?_, ?_⟩
    · intro e he
      rcases updatePage_mem he with h2 | ⟨_, h2⟩
      · exact hex e h2
      · have := hex _ (lookupPage_mem hl)
        rw [h2]
        simpa using this
    · intro e he
      by_cases hlt : d < st.MAX_DEPTH
      · rw [if_pos hlt] at he
        rcases List.mem_append.mp he with h2 | h2
        · exact hrest u d rest hq e h2
        · exact hpend _ _ _ hlt e h2
      · rw [if_neg hlt] at he
        exact hrest u d rest hq e he
  · exact ⟨hex, hrest u d rest hq⟩
  · exact ⟨hex, hrest u d rest hq⟩
  · -- fetch update
    refine ⟨?_, ?_⟩
    · intro e he
      rcases updatePage_mem he with h2 | ⟨_, h2⟩
      · exact hex e h2
      · rw [h2]
        simpa [updatedRecord] using hd
    · intro e he
      by_cases hlt : d < st.MAX_DEPTH
      · rw [if_pos hlt] at he
        rcases List.mem_append.mp he with h2 | h2
        · exact hrest u d rest hq e h2
        · exact hpend _ _ _ hlt e h2
      · rw [if_neg hlt] at he
        exact hrest u d rest hq e he
  · -- fetch create
    refine ⟨?_, ?_⟩
    · intro e he
      rcases List.mem_append.mp he with h2 | h2
      · exact hex e h2
      · rcases List.mem_singleton.mp h2 with rfl
        simpa [newRecord] using hd
    · intro e he
      by_cases hlt : d < st.MAX_DEPTH
      · rw [if_pos hlt] at he
        rcases List.mem_append.mp he with h2 | h2
        · exact hrest u d rest hq e h2
        · exact hpend _ _ _ hlt e h2
      · rw [if_neg hlt] at he
        exact hrest u d rest hq e he

/-! ## C7: the depth bound -/

/-- C7: with `maxDepth = d`, a frontier entry popped with depth greater than
`d` is skipped outright, and starting from a state whose records and frontier
entries respect the bound (as the initial state with the root at depth 0
does), every record after any number of loop iterations still has
`depth ≤ maxDepth`: no Page is ever created or updated past the bound.
Links are enqueued at `depth + 1` only when `depth < maxDepth`, which is how
the frontier part of the invariant is maintained. -/
theorem C7_depth_bound (st : Settings) (site : Site) (hashFn : String → String)
    (now : Nat) :
    (∀ s u d rest, s.queue = (u, d) :: rest → st.MAX_DEPTH < d →
      crawlStep st site hashFn now s = { s with queue := rest }) ∧
    (∀ fuel s, (∀ e ∈ s.existing, e.2.depth ≤ st.MAX_DEPTH) →
      (∀ e ∈ s.queue, e.2 ≤ st.MAX_DEPTH) →
      (∀ e ∈ (crawlLoop st site hashFn now fuel s).existing,
        e.2.depth ≤ st.MAX_DEPTH) ∧
      (∀ e ∈ (crawlLoop st site hashFn now fuel s).queue, e.2 ≤ st.MAX_DEPTH)) := by
  constructor
  · intro s u d rest hq hgt
    unfold crawlStep
    simp only [hq, if_pos (Or.inr hgt)]
  · intro fuel
    induction fuel with
    | zero => intro s hex hqu; exact ⟨hex, hqu⟩
    | succ f ih =>
      intro s hex hqu
      by_cases hdone : s.queue = [] ∨ st.MAX_PAGES ≤ s.pagesFetched
      · rw [crawlLoop_done st site hashFn now (f + 1) s hdone]
        exact ⟨hex, hqu⟩
      · rw [crawlLoop_succ st site hashFn now f s hdone]
        have hstep := crawlStep_depth_inv st site hashFn now s hex hqu
        exact ih _ hstep.1 hstep.2

/-! ## C8: the page budget -/

/-- C8: starting from a fetched-page counter within the budget (the run
starts at 0), the counter never exceeds `MAX_PAGES` at any point of the
frontier loop, and the loop stops without taking a step as soon as the
frontier is empty or the counter has reached `MAX_PAGES`. -/
theorem C8_page_budget (st : Settings) (site : Site) (hashFn : String → String)
    (now : Nat) :
    (∀ fuel s, s.pagesFetched ≤ st.MAX_PAGES →
      (crawlLoop st site hashFn now fuel s).pagesFetched ≤ st.MAX_PAGES) ∧
    (∀ fuel s, (s.queue = [] ∨ st.MAX_PAGES ≤ s.pagesFetched) →
      crawlLoop st site hashFn now fuel s = s) := by
  constructor
  · intro fuel
    induction fuel with
    | zero => intro s h; exact h
    | succ f ih =>
      intro s h
      by_cases hdone : s.queue = [] ∨ st.MAX_PAGES ≤ s.pagesFetched
      · rw [crawlLoop_done st site hashFn now (f + 1) s hdone]
        exact h
      · have hlt : s.pagesFetched < st.MAX_PAGES := by
          rcases Nat.lt_or_ge s.pagesFetched st.MAX_PAGES with h2 | h2
          · exact h2
          · exact absurd (Or.inr h2) hdone
        rw [crawlLoop_succ st site hashFn now f s hdone]
        have hstep := (crawlStep_budget st site hashFn now s).2
        exact ih _ (by omega)
  · exact fun fuel s h => crawlLoop_done st site hashFn now fuel s h

/-! ## C5: the NOT_MODIFIED cache hit -/

/-- C5: when an existing Page's HEAD probe returns NOT_MODIFIED, the loop
iteration performs no fetch (the fetch trace and the fetched-page counter
are unchanged, and the URL is never fetched later in the crawl either,
because it is now marked visited), stores the record unchanged except for
`last_seen := now` and `not_seen_count := 0`, leaves every other record
untouched, and re-enqueues the record's stored links at `depth + 1`
(those not already visited) exactly when `depth < MAX_DEPTH`. -/
theorem C5_not_modified_frame (st : Settings) (site : Site) (hashFn : String → String)
    (now : Nat) (s : CrawlState) (u : String) (d : Nat) (rest : List (String × Nat))
    (page : PageRec)
    (hq : s.queue = (u, d) :: rest)
    (hnv : normalize_url u ∉ s.visited)
    (hd : d ≤ st.MAX_DEPTH)
    (hrec : lookupPage (normalize_url u) s.existing = some page)
    (h304 : (check_url_with_head site (normalize_url u) page.etag
        page.last_modified).status = HeadStatus.notModified) :
    (crawlStep st site hashFn now s).fetchTrace = s.fetchTrace ∧
    (crawlStep st site hashFn now s).pagesFetched = s.pagesFetched ∧
    lookupPage (normalize_url u) (crawlStep st site hashFn now s).existing =
      some { page with last_seen := now, not_seen_count := 0 } ∧
    (∀ k, k ≠ normalize_url u →
      lookupPage k (crawlStep st site hashFn now s).existing = lookupPage k s.existing) ∧
    (crawlStep st site hashFn now s).visited = normalize_url u :: s.visited ∧
    (crawlStep st site hashFn now s).seen = normalize_url u :: s.seen ∧
    (crawlStep st site hashFn now s).queue =
      (if d < st.MAX_DEPTH then
        rest ++ pendingLinks page.links (normalize_url u :: s.visited) d
      else rest) ∧
    (∀ fuel, normalize_url u ∉ s.fetchTrace →
      normalize_url u ∉
        (crawlLoop st site hashFn now fuel (crawlStep st site hashFn now s)).fetchTrace) := by
  have hskip : ¬(normalize_url u ∈ s.visited ∨ st.MAX_DEPTH < d) := by
    intro h
    rcases h with h | h
    · exact hnv h
    · omega
  have hs : crawlStep st site hashFn now s =
      { s with
        existing := updatePage (normalize_url u)
          { page with last_seen := now, not_seen_count := 0 } s.existing,
        visited := normalize_url u :: s.visited,
        seen := normalize_url u :: s.seen,
        queue := if d < st.MAX_DEPTH then
            rest ++ pendingLinks page.links (normalize_url u :: s.visited) d
          else rest } := by
    unfold crawlStep
    simp only [hq, if_neg hskip, hrec, if_pos h304, enqueueLinks_eq]
  rw [hs]
  refine ⟨rfl, rfl, ?_, ?_, rfl, rfl, rfl, ?_⟩
  · exact lookupPage_updatePage_self _ (by simp [hrec])
  · intro k hk
    exact lookupPage_updatePage_ne _ hk
  · intro fuel ht
    exact crawlLoop_not_in_trace st site hashFn now fuel _ _ (by simp) ht

/-! ## C3: robots.txt gating -/

theorem check_url_with_head_forbidden (site : Site) (u : String)
    (e l : Option String) (h : site.robots u = false) :
    check_url_with_head site u e l = ⟨false, HeadStatus.forbidden⟩ := by
  unfold check_url_with_head
  rw [if_pos h]

theorem lookupPage_updatePage_isSome {n k : String} {r : PageRec}
    {l : List (String × PageRec)} (h : (lookupPage n l).isSome) :
    (lookupPage n (updatePage k r l)).isSome := by
  by_cases hk : n = k
  · subst hk
    rw [lookupPage_updatePage_self r h]
    rfl
  · rw [lookupPage_updatePage_ne r hk]
    exact h

theorem crawlStep_robots_gate (st : Settings) (site : Site) (hashFn : String → String)
    (now : Nat) (s : CrawlState) (n : String)
    (hrob : site.robots n = false)
    (hrec : (lookupPage n s.existing).isSome)
    (ht : n ∉ s.fetchTrace) :
    (lookupPage n (crawlStep st site hashFn now s).existing).isSome ∧
    n ∉ (crawlStep st site hashFn now s).fetchTrace := by
  rcases crawlStep_characterization st site hashFn now s with ⟨_, hs⟩ |
    ⟨u, d, rest, hq, ⟨_, hs⟩ | ⟨hnv, hd, ⟨page, hl, h304, hs⟩ | ⟨page, hl, _, _, hs⟩ |
      ⟨hcase, hf, hs⟩ | ⟨page, pd, hl, h304, hval, hf, hs⟩ | ⟨pd, hl, hf, hs⟩⟩⟩ <;> rw [hs]
  · exact ⟨hrec, ht⟩
  · exact ⟨hrec, ht⟩
  · exact ⟨lookupPage_updatePage_isSome hrec, ht⟩
  · exact ⟨hrec, ht⟩
  · -- fetch attempt failed; the fetched URL cannot be `n`
    have hne : normalize_url u ≠ n := by
      intro heq
      subst heq
      rcases hcase with hnone | ⟨page, hl, _, hval⟩
      · rw [hnone] at hrec
        exact absurd hrec (by simp)
      · rw [check_url_with_head_forbidden site _ page.etag page.last_modified hrob] at hval
        exact absurd hval (by simp)
    refine ⟨hrec, ?_⟩
    intro hmem
    rcases List.mem_append.mp hmem with h2 | h2
    · exact ht h2
    · exact hne (List.mem_singleton.mp h2).symm
  · have hne : normalize_url u ≠ n := by
      intro heq
      subst heq
      rw [check_url_with_head_forbidden site _ page.etag page.last_modified hrob] at hval
      exact absurd hval (by simp)
    refine ⟨lookupPage_updatePage_isSome hrec, ?_⟩
    intro hmem
    rcases List.mem_append.mp hmem with h2 | h2
    · exact ht h2
    · exact hne (List.mem_singleton.mp h2).symm
  · have hne : normalize_url u ≠ n := by
      intro heq
      subst heq
      rw [hl] at hrec
      exact absurd hrec (by simp)
    refine ⟨lookupPage_append_isSome hrec, ?_⟩
    intro hmem
    rcases List.mem_append.mp hmem with h2 | h2
    · exact ht h2
    · exact hne (List.mem_singleton.mp h2).symm

/-- C3 (amended): robots.txt gate-keeps only the HEAD-probe path.  For a URL
that has a stored Page record, a robots.txt disallow verdict means the probe
returns FORBIDDEN and the crawler never invokes `fetch_page_content` for that
URL during the frontier loop.  (New URLs are not gated: the robots check in
`fetch_page_content` is commented out, see the counterexample.) -/
theorem C3_robots_gates_probed_pages (st : Settings) (site : Site)
    (hashFn : String → String) (now : Nat) (fuel : Nat) :
    ∀ s n, site.robots n = false → (lookupPage n s.existing).isSome →
      n ∉ s.fetchTrace →
      n ∉ (crawlLoop st site hashFn now fuel s).fetchTrace := by
  induction fuel with
  | zero => intro s n _ _ ht; exact ht
  | succ f ih =>
    intro s n hrob hrec ht
    by_cases hdone : s.queue = [] ∨ st.MAX_PAGES ≤ s.pagesFetched
    · rw [crawlLoop_done st site hashFn now (f + 1) s hdone]
      exact ht
    · rw [crawlLoop_succ st site hashFn now f s hdone]
      have hstep := crawlStep_robots_gate st site hashFn now s n hrob hrec ht
      exact ih _ n hrob hstep.1 hstep.2

/-- C3 counterexample: the claim says no fetch is ever issued for a URL that
robots.txt disallows.  But `fetch_page_content`'s robots check is commented
out and new URLs get no HEAD probe, so crawling a site whose robots.txt
disallows everything still fetches the root URL. -/
theorem C3_counterexample_disallowed_fetch :
    disallowedSite.robots "http://a/" = false ∧
    "http://a/" ∈ (crawl_url_job fixtureSettings disallowedSite id 0 4
      { llm_text_content := none, content_hash := none,
        last_monitored := false, status := "pending" }
      "http://a/" []).loopState.fetchTrace := by decide

/-- Witness for `C3_robots_gates_probed_pages` at a concrete site and state:
the stored page `http://a/b` is robots-disallowed and is never fetched. -/
theorem C3_robots_gates_probed_pages_witness :
    "http://a/b" ∉
      (crawlLoop fixtureSettings disallowedSite id 0 6
        { cachedState with queue := [("http://a/b", 1), ("http://a/c", 1)] }).fetchTrace :=
  C3_robots_gates_probed_pages fixtureSettings disallowedSite id 0 6
    { cachedState with queue := [("http://a/b", 1), ("http://a/c", 1)] }
    "http://a/b" rfl (by decide) (by decide)

/-- Witness for `C5_not_modified_frame` at a concrete 304 probe. -/
theorem C5_not_modified_frame_witness :
    (crawlStep fixtureSettings cachedSite id 7 cachedState).fetchTrace =
      cachedState.fetchTrace ∧
    (crawlStep fixtureSettings cachedSite id 7 cachedState).pagesFetched =
      cachedState.pagesFetched ∧
    lookupPage (normalize_url "http://a/b")
      (crawlStep fixtureSettings cachedSite id 7 cachedState).existing =
      some { fixtureRec with last_seen := 7, not_seen_count := 0 } :=
  let h := C5_not_modified_frame fixtureSettings cachedSite id 7 cachedState
    "http://a/b" 1 [] fixtureRec rfl (by decide) (by decide) (by decide) (by decide)
  ⟨h.1, h.2.1, h.2.2.1⟩

/-- Witness for `C7_depth_bound`: after running the loop on the concrete
fixture crawl, every stored record respects the depth bound, and a
too-deep frontier entry is popped without processing. -/
theorem C7_depth_bound_witness :
    (∀ e ∈ (crawlLoop fixtureSettings fixtureSite id 0 9 fixtureState).existing,
      e.2.depth ≤ fixtureSettings.MAX_DEPTH) ∧
    crawlStep fixtureSettings fixtureSite id 0
      { fixtureState with queue := [("http://a/", 9)] } =
      { fixtureState with queue := [] } :=
  ⟨((C7_depth_bound fixtureSettings fixtureSite id 0).2 9 fixtureState
      (by intro e he; simp [fixtureState] at he)
      (by intro e he; simp [fixtureState] at he; rw [he]; decide)).1,
   (C7_depth_bound fixtureSettings fixtureSite id 0).1
      { fixtureState with queue := [("http://a/", 9)] } "http://a/" 9 [] rfl (by decide)⟩

/-- Witness for `C8_page_budget` on the concrete fixture crawl: the counter
stays within the budget of 2 and a drained frontier stops the loop. -/
theorem C8_page_budget_witness :
    (crawlLoop fixtureSettings fixtureSite id 0 9 fixtureState).pagesFetched ≤
      fixtureSettings.MAX_PAGES ∧
    crawlLoop fixtureSettings fixtureSite id 0 9 { fixtureState with queue := [] } =
      { fixtureState with queue := [] } :=
  ⟨(C8_page_budget fixtureSettings fixtureSite id 0).1 9 fixtureState (by decide),
   (C8_page_budget fixtureSettings fixtureSite id 0).2 9
     { fixtureState with queue := [] } (Or.inl rfl)⟩

/-! ## C9: the not-seen counter and grace-period eviction -/

theorem lookupPage_append_left {n : String} {l1 : List (String × PageRec)} {r : PageRec}
    (l2 : List (String × PageRec)) (h : lookupPage n l1 = some r) :
    lookupPage n (l1 ++ l2) = some r := by
  induction l1 with
  | nil => simp [lookupPage] at h
  | cons e tl ih =>
    rw [lookupPage_cons] at h
    rw [List.cons_append, lookupPage_cons]
    by_cases he : e.1 = n
    · rw [if_pos he] at h ⊢
      exact h
    · rw [if_neg he] at h ⊢
      exact ih h

theorem lookupPage_append_right {n : String} {l1 : List (String × PageRec)}
    (l2 : List (String × PageRec)) (h : lookupPage n l1 = none) :
    lookupPage n (l1 ++ l2) = lookupPage n l2 := by
  induction l1 with
  | nil => simp
  | cons e tl ih =>
    rw [lookupPage_cons] at h
    rw [List.cons_append, lookupPage_cons]
    by_cases he : e.1 = n
    · rw [if_pos he] at h
      exact absurd h (by simp)
    · rw [if_neg he] at h
      rw [if_neg he]
      exact ih h

theorem absentLifecycle_eq (grace : Nat) (u : String) (p : PageRec) :
    absentLifecycle grace u p =
      if p.not_seen_count + 1 < grace
      then some { p with not_seen_count := p.not_seen_count + 1 } else none := by
  unfold absentLifecycle incrementNotSeen evictExpired
  by_cases h : p.not_seen_count + 1 < grace <;> simp [h]

theorem absentRun_alive (grace : Nat) (u : String) :
    ∀ (k : Nat) (p : PageRec), p.not_seen_count + k < grace →
      absentRun grace u k p = some { p with not_seen_count := p.not_seen_count + k } := by
  intro k
  induction k with
  | zero => intro p _; simp [absentRun]
  | succ j ih =>
    intro p h
    have h1 : p.not_seen_count + 1 < grace := by omega
    unfold absentRun
    rw [absentLifecycle_eq, if_pos h1]
    show absentRun grace u j { p with not_seen_count := p.not_seen_count + 1 } = _
    rw [ih { p with not_seen_count := p.not_seen_count + 1 } (by simp; omega)]
    simp
    omega

theorem absentRun_dies (grace : Nat) (u : String) :
    ∀ (k : Nat) (p : PageRec), p.not_seen_count + k = grace → 1 ≤ k →
      absentRun grace u k p = none := by
  intro k
  induction k with
  | zero => intro p _ h; omega
  | succ j ih =>
    intro p h _
    unfold absentRun
    rw [absentLifecycle_eq]
    by_cases h1 : p.not_seen_count + 1 < grace
    · rw [if_pos h1]
      have hj : 1 ≤ j := by omega
      show absentRun grace u j { p with not_seen_count := p.not_seen_count + 1 } = none
      exact ih { p with not_seen_count := p.not_seen_count + 1 } (by simp; omega) hj
    · rw [if_neg h1]

/-- C9: (i) the lifecycle pass increments the not-seen counter of exactly the
rows absent from the crawl and leaves the others untouched; (ii) eviction
keeps exactly the rows whose counter is below the grace threshold; (iii) any
record the frontier loop writes (a cache-hit touch, an update or a creation)
carries counter 0, so a successfully revisited page is reset; (iv)
consequently a page starting at counter 0 survives `k < gracePeriod`
consecutive absent crawls with counter `k` — in particular it survives
`gracePeriod - 1` of them — and is deleted by the crawl in which its absence
count reaches `gracePeriod`. -/
theorem C9_grace_period :
    (∀ (seen : List String) (l : List (String × PageRec)) (u : String) (p : PageRec),
      (u, p) ∈ l → u ∉ seen →
      (u, { p with not_seen_count := p.not_seen_count + 1 }) ∈ incrementNotSeen seen l) ∧
    (∀ (seen : List String) (l : List (String × PageRec)) (u : String) (p : PageRec),
      (u, p) ∈ l → u ∈ seen → (u, p) ∈ incrementNotSeen seen l) ∧
    (∀ (grace : Nat) (l : List (String × PageRec)) (u : String) (q : PageRec),
      (u, q) ∈ evictExpired grace l ↔ ((u, q) ∈ l ∧ q.not_seen_count < grace)) ∧
    (∀ (st : Settings) (site : Site) (hashFn : String → String) (now : Nat)
      (s : CrawlState) (n : String) (p : PageRec),
      lookupPage n (crawlStep st site hashFn now s).existing = some p →
      lookupPage n s.existing = some p ∨ p.not_seen_count = 0) ∧
    (∀ (grace : Nat) (u : String) (p : PageRec), 1 ≤ grace → p.not_seen_count = 0 →
      (∀ k, k < grace → absentRun grace u k p = some { p with not_seen_count := k }) ∧
      absentRun grace u grace p = none) := by
  refine ⟨?_, ?_, ?_, ?_, ?_⟩
  · intro seen l u p hmem habs
    have h2 := List.mem_map_of_mem (fun e =>
      if e.1 ∈ seen then e
      else (e.1, { e.2 with not_seen_count := e.2.not_seen_count + 1 })) hmem
    simpa [incrementNotSeen, habs] using h2
  · intro seen l u p hmem hseen
    have h2 := List.mem_map_of_mem (fun e =>
      if e.1 ∈ seen then e
      else (e.1, { e.2 with not_seen_count := e.2.not_seen_count + 1 })) hmem
    simpa [incrementNotSeen, hseen] using h2
  · intro grace l u q
    simp [evictExpired, List.mem_filter]
  · intro st site hashFn now s n p hp
    rcases crawlStep_characterization st site hashFn now s with ⟨_, hs⟩ |
      ⟨u, d, rest, hq, ⟨_, hs⟩ | ⟨hnv, hd, ⟨page, hl, h304, hs⟩ | ⟨page, hl, _, _, hs⟩ |
        ⟨hcase, hf, hs⟩ | ⟨page, pd, hl, h304, hval, hf, hs⟩ | ⟨pd, hl, hf, hs⟩⟩⟩ <;>
      rw [hs] at hp
    · exact Or.inl hp
    · exact Or.inl hp
    · by_cases hn : n = normalize_url u
      · subst hn
        rw [lookupPage_updatePage_self _ (by simp [hl])] at hp
        right
        rw [← Option.some_inj.mp hp]
      · rw [lookupPage_updatePage_ne _ hn] at hp
        exact Or.inl hp
    · exact Or.inl hp
    · exact Or.inl hp
    · by_cases hn : n = normalize_url u
      · subst hn
        rw [lookupPage_updatePage_self _ (by simp [hl])] at hp
        right
        rw [← Option.some_inj.mp hp]
        rfl
      · rw [lookupPage_updatePage_ne _ hn] at hp
        exact Or.inl hp
    · by_cases hn : n = normalize_url u
      · subst hn
        rw [lookupPage_append_right _ hl, lookupPage_cons, if_pos rfl] at hp
        right
        rw [← Option.some_inj.mp hp]
        rfl
      · rcases hcase2 : lookupPage n s.existing with _ | r
        · rw [lookupPage_append_right _ hcase2, lookupPage_cons,
            if_neg (fun hc => hn hc.symm)] at hp
          simp [lookupPage] at hp
        · rw [lookupPage_append_left _ hcase2] at hp
          exact Or.inl hp
  · intro grace u p hg hc
    constructor
    · intro k hk
      rw [absentRun_alive grace u k p (by omega), hc]
      simp
    · exact absentRun_dies grace u grace p (by omega) hg

/-- Witness for `C9_grace_period` with the default grace period 2: an absent
page survives one crawl with counter 1 and is deleted after two. -/
theorem C9_grace_period_witness :
    ((fixtureRec.url, { fixtureRec with not_seen_count := 1 }) ∈
      incrementNotSeen [] [(fixtureRec.url, fixtureRec)]) ∧
    absentRun 2 fixtureRec.url 1 fixtureRec =
      some { fixtureRec with not_seen_count := 1 } ∧
    absentRun 2 fixtureRec.url 2 fixtureRec = none :=
  ⟨C9_grace_period.1 [] [(fixtureRec.url, fixtureRec)] fixtureRec.url fixtureRec
      (by simp) (by simp),
   (C9_grace_period.2.2.2.2 2 fixtureRec.url fixtureRec (by decide) (by decide)).1
      1 (by decide),
   (C9_grace_period.2.2.2.2 2 fixtureRec.url fixtureRec (by decide) (by decide)).2⟩

/-! ## C6: sorting and pruning lemmas -/

theorem insertByScore_perm (p : PageRec) (l : List PageRec) :
    List.Perm (insertByScore p l) (p :: l) := by
  induction l with
  | nil => simp [insertByScore]
  | cons q qs ih =>
    unfold insertByScore
    by_cases hlt : p.page_score < q.page_score
    · rw [if_pos hlt]
      exact (ih.cons q).trans (List.Perm.swap p q qs)
    · rw [if_neg hlt]

theorem sortByScoreDesc_perm (l : List PageRec) :
    List.Perm (sortByScoreDesc l) l := by
  induction l with
  | nil => simp [sortByScoreDesc]
  | cons p ps ih =>
    unfold sortByScoreDesc
    exact (insertByScore_perm p (sortByScoreDesc ps)).trans (ih.cons p)

theorem insertByScore_mem {x p : PageRec} {l : List PageRec} :
    x ∈ insertByScore p l ↔ x = p ∨ x ∈ l := by
  rw [(insertByScore_perm p l).mem_iff]
  simp

theorem insertByScore_sorted (p : PageRec) (l : List PageRec)
    (h : l.Pairwise (fun a b => b.page_score ≤ a.page_score)) :
    (insertByScore p l).Pairwise (fun a b => b.page_score ≤ a.page_score) := by
  induction l with
  | nil => simp [insertByScore]
  | cons q qs ih =>
    rw [List.pairwise_cons] at h
    unfold insertByScore
    by_cases hlt : p.page_score < q.page_score
    · rw [if_pos hlt]
      rw [List.pairwise_cons]
      constructor
      · intro b hb
        rcases insertByScore_mem.mp hb with rfl | hb2
        · exact le_of_lt hlt
        · exact h.1 b hb2
      · exact ih h.2
    · rw [if_neg hlt]
      rw [List.pairwise_cons]
      refine ⟨?_, List.pairwise_cons.mpr ⟨h.1, h.2⟩⟩
      intro b hb
      rcases List.mem_cons.mp hb with rfl | hb2
      · exact le_of_not_lt hlt
      · exact le_trans (h.1 b hb2) (le_of_not_lt hlt)

theorem sortByScoreDesc_sorted (l : List PageRec) :
    (sortByScoreDesc l).Pairwise (fun a b => b.page_score ≤ a.page_score) := by
  induction l with
  | nil => simp [sortByScoreDesc]
  | cons p ps ih => exact insertByScore_sorted p (sortByScoreDesc ps) ih

theorem insertByScore_filter_score (p : PageRec) (sc : Int) :
    ∀ M : List PageRec,
      (insertByScore p M).filter (fun q => q.page_score = sc) =
        if p.page_score = sc then p :: M.filter (fun q => q.page_score = sc)
        else M.filter (fun q => q.page_score = sc) := by
  intro M
  induction M with
  | nil =>
    simp only [insertByScore, List.filter_cons, List.filter_nil]
    by_cases h : p.page_score = sc <;> simp [h]
  | cons q qs ih =>
    unfold insertByScore
    by_cases hlt : p.page_score < q.page_score
    · rw [if_pos hlt, List.filter_cons, List.filter_cons, ih]
      by_cases hp : p.page_score = sc
      · have hq : ¬ q.page_score = sc := by
          intro hq2
          rw [hp] at hlt
          rw [hq2] at hlt
          exact lt_irrefl sc hlt
        simp [hp, hq]
      · by_cases hq : q.page_score = sc <;> simp [hp, hq]
    · rw [if_neg hlt, List.filter_cons]
      by_cases hp : p.page_score = sc <;> simp [hp]

theorem sortByScoreDesc_filter_score (l : List PageRec) (sc : Int) :
    (sortByScoreDesc l).filter (fun q => q.page_score = sc) =
      l.filter (fun q => q.page_score = sc) := by
  induction l with
  | nil => rfl
  | cons p ps ih =>
    unfold sortByScoreDesc
    rw [insertByScore_filter_score, List.filter_cons, ih]
    by_cases hp : p.page_score = sc <;> simp [hp]

theorem pair_sublist_split {p q : PageRec} :
    ∀ {L : List PageRec}, List.Sublist [p, q] L →
      ∃ A B C, L = A ++ p :: B ++ q :: C := by
  intro L h
  induction L with
  | nil => cases h
  | cons x xs ih =>
    rcases h with _ | @⟨_, _, _, h2⟩ | @⟨_, _, _, h2⟩
    · rcases ih h2 with ⟨A, B, C, rfl⟩
      exact ⟨x :: A, B, C, rfl⟩
    · rcases List.append_of_mem ((List.singleton_sublist.mp h2)) with ⟨B, C, rfl⟩
      exact ⟨[], B, C, rfl⟩

theorem mem_take_of_before {p q : PageRec} {A B C : List PageRec} {k : Nat}
    (hnd : (A ++ p :: B ++ q :: C).Nodup)
    (hq : q ∈ (A ++ p :: B ++ q :: C).take k) :
    p ∈ (A ++ p :: B ++ q :: C).take k := by
  have hqX : q ∉ A ++ p :: B := by
    intro hc
    exact (List.nodup_append.mp hnd).2.2 hc (List.mem_cons_self q C)
  rw [List.take_append_eq_append_take] at hq ⊢
  rcases List.mem_append.mp hq with h | h
  · exact absurd (List.mem_of_mem_take h) hqX
  · have hpos : 0 < k - (A ++ p :: B).length := by
      rcases Nat.eq_zero_or_pos (k - (A ++ p :: B).length) with hz | hp2
      · rw [hz] at h
        simp at h
      · exact hp2
    have hlen : (A ++ p :: B).length ≤ k := by omega
    refine List.mem_append_left _ ?_
    rw [List.take_of_length_le hlen]
    exact List.mem_append_right A (List.mem_cons_self p B)

theorem filter_map_snd (l : List (String × PageRec)) (P : PageRec → Prop)
    [DecidablePred P] :
    (l.filter (fun e => P e.2)).map Prod.snd = (l.map Prod.snd).filter (fun p => P p) := by
  induction l with
  | nil => rfl
  | cons e tl ih =>
    rw [List.map_cons, List.filter_cons, List.filter_cons]
    by_cases h : P e.2
    · simp [h, ih]
    · simp [h, ih]

/-- C6: when more rows survive the lifecycle pass than `maxPages` and the
rows are pairwise distinct records, pruning keeps exactly `maxPages` rows and
keeps them in storage order; membership coincides with the first `maxPages`
elements of the stable descending sort, every deleted row scores no higher
than every survivor, the sort preserves the stored order within each score
class (stability of Python `list.sort`), and between two rows of equal score
the earlier-inserted one survives whenever the later one does: the surviving
set is exactly the top-`maxPages` by score with ties resolved by insertion
order. -/
theorem C6_prune_top_by_score (k : Nat) (l : List (String × PageRec))
    (hlen : k < l.length) (hnd : (l.map Prod.snd).Nodup) :
    ((prunePages k l).map Prod.snd).length = k ∧
    (∀ p : PageRec, p ∈ (prunePages k l).map Prod.snd ↔
      p ∈ (sortByScoreDesc (l.map Prod.snd)).take k) ∧
    List.Sublist (prunePages k l) l ∧
    (∀ p ∈ l.map Prod.snd, p ∉ (prunePages k l).map Prod.snd →
      ∀ q ∈ (prunePages k l).map Prod.snd, p.page_score ≤ q.page_score) ∧
    (∀ sc : Int,
      (sortByScoreDesc (l.map Prod.snd)).filter (fun r => r.page_score = sc) =
        (l.map Prod.snd).filter (fun r => r.page_score = sc)) ∧
    (∀ (l1 l2 l3 : List PageRec) (p q : PageRec),
      l.map Prod.snd = l1 ++ p :: l2 ++ q :: l3 → p.page_score = q.page_score →
      q ∈ (prunePages k l).map Prod.snd → p ∈ (prunePages k l).map Prod.snd) := by
  have hprune : prunePages k l =
      l.filter (fun e => e.2 ∈ (sortByScoreDesc (l.map Prod.snd)).take k) := by
    unfold prunePages
    rw [if_neg (by omega)]
  have hmap : (prunePages k l).map Prod.snd =
      (l.map Prod.snd).filter
        (fun p => p ∈ (sortByScoreDesc (l.map Prod.snd)).take k) := by
    rw [hprune]
    exact filter_map_snd l _
  have hperm : List.Perm (sortByScoreDesc (l.map Prod.snd)) (l.map Prod.snd) :=
    sortByScoreDesc_perm _
  have hsortnd : (sortByScoreDesc (l.map Prod.snd)).Nodup := hperm.nodup_iff.mpr hnd
  have hsortlen : (sortByScoreDesc (l.map Prod.snd)).length = l.length := by
    rw [hperm.length_eq, List.length_map]
  have hkeeplen : ((sortByScoreDesc (l.map Prod.snd)).take k).length = k := by
    rw [List.length_take, hsortlen]
    omega
  have hsplit : (sortByScoreDesc (l.map Prod.snd)).take k ++
      (sortByScoreDesc (l.map Prod.snd)).drop k = sortByScoreDesc (l.map Prod.snd) :=
    List.take_append_drop k _
  have hsortnd2 : ((sortByScoreDesc (l.map Prod.snd)).take k ++
      (sortByScoreDesc (l.map Prod.snd)).drop k).Nodup := by
    rw [hsplit]
    exact hsortnd
  have hdisj : ∀ x ∈ (sortByScoreDesc (l.map Prod.snd)).drop k,
      x ∉ (sortByScoreDesc (l.map Prod.snd)).take k :=
    fun x hxd hxt => (List.nodup_append.mp hsortnd2).2.2 hxt hxd
  have hfiltersorted : (sortByScoreDesc (l.map Prod.snd)).filter
      (fun p => p ∈ (sortByScoreDesc (l.map Prod.snd)).take k) =
      (sortByScoreDesc (l.map Prod.snd)).take k := by
    conv_lhs => rw [← hsplit]
    rw [List.filter_append,
        List.filter_eq_self.mpr (fun a ha => by simpa using ha),
        List.filter_eq_nil_iff.mpr (fun a ha => by simpa using hdisj a ha),
        List.append_nil]
  have hcount : ((prunePages k l).map Prod.snd).length = k := by
    rw [hmap, ← (hperm.filter _).length_eq, hfiltersorted, hkeeplen]
  have hmem : ∀ p : PageRec, p ∈ (prunePages k l).map Prod.snd ↔
      p ∈ (sortByScoreDesc (l.map Prod.snd)).take k := by
    intro p
    rw [hmap, List.mem_filter]
    constructor
    · intro h
      simpa using h.2
    · intro h
      exact ⟨hperm.mem_iff.mp (List.mem_of_mem_take h), by simpa using h⟩
  refine ⟨hcount, hmem, ?_, ?_, ?_, ?_⟩
  · rw [hprune]
    exact List.filter_sublist l
  · intro p hp hnot q hq
    have hpk : p ∉ (sortByScoreDesc (l.map Prod.snd)).take k :=
      fun hc => hnot ((hmem p).mpr hc)
    have hpsorted : p ∈ (sortByScoreDesc (l.map Prod.snd)).take k ++
        (sortByScoreDesc (l.map Prod.snd)).drop k := by
      rw [hsplit]
      exact hperm.mem_iff.mpr hp
    have hpdrop : p ∈ (sortByScoreDesc (l.map Prod.snd)).drop k := by
      rcases List.mem_append.mp hpsorted with h | h
      · exact absurd h hpk
      · exact h
    have hqk : q ∈ (sortByScoreDesc (l.map Prod.snd)).take k := (hmem q).mp hq
    have hpw : ((sortByScoreDesc (l.map Prod.snd)).take k ++
        (sortByScoreDesc (l.map Prod.snd)).drop k).Pairwise
          (fun a b => b.page_score ≤ a.page_score) := by
      rw [hsplit]
      exact sortByScoreDesc_sorted _
    exact (List.pairwise_append.mp hpw).2.2 q hqk p hpdrop
  · intro sc
    exact sortByScoreDesc_filter_score _ sc
  · intro l1 l2 l3 p q hsp heq hqs
    have hpagesfilter : (l.map Prod.snd).filter (fun r => r.page_score = p.page_score) =
        (l1.filter (fun r => r.page_score = p.page_score) ++
          p :: l2.filter (fun r => r.page_score = p.page_score)) ++
          q :: l3.filter (fun r => r.page_score = p.page_score) := by
      rw [hsp, List.filter_append, List.filter_append, List.filter_cons, List.filter_cons]
      simp [heq.symm]
    have h1 : List.Sublist [p]
        (l1.filter (fun r => r.page_score = p.page_score) ++
          p :: l2.filter (fun r => r.page_score = p.page_score)) :=
      List.singleton_sublist.mpr (List.mem_append_right _ (List.mem_cons_self _ _))
    have h2 : List.Sublist [q] (q :: l3.filter (fun r => r.page_score = p.page_score)) :=
      List.singleton_sublist.mpr (List.mem_cons_self _ _)
    have h4 : List.Sublist [p, q]
        ((l.map Prod.snd).filter (fun r => r.page_score = p.page_score)) := by
      rw [hpagesfilter]
      exact List.Sublist.append h1 h2
    have h6 : List.Sublist [p, q]
        ((sortByScoreDesc (l.map Prod.snd)).filter
          (fun r => r.page_score = p.page_score)) := by
      rw [sortByScoreDesc_filter_score]
      exact h4
    have h5 : List.Sublist [p, q] (sortByScoreDesc (l.map Prod.snd)) :=
      h6.trans (List.filter_sublist _)
    rcases pair_sublist_split h5 with ⟨A, B, C, hS⟩
    have hnd2 : (A ++ p :: B ++ q :: C).Nodup := by
      rw [← hS]
      exact hsortnd
    have hqt2 : q ∈ (A ++ p :: B ++ q :: C).take k := by
      rw [← hS]
      exact (hmem q).mp hqs
    refine (hmem p).mpr ?_
    rw [hS]
    exact mem_take_of_before hnd2 hqt2

/-- Witness for `C6_prune_top_by_score`: pruning three rows to two keeps
exactly two, and the deleted tied row scores no higher than a survivor. -/
theorem C6_prune_top_by_score_witness :
    ((prunePages 2 pruneRows).map Prod.snd).length = 2 ∧
    pruneRow3.page_score ≤ pruneRow1.page_score :=
  ⟨(C6_prune_top_by_score 2 pruneRows (by decide) (by decide)).1,
   (C6_prune_top_by_score 2 pruneRows (by decide) (by decide)).2.2.2.1 pruneRow3
     (by decide) (by decide) pruneRow1 (by decide)⟩

/-! ## C10: lemmas about the URL parser -/

theorem splitFirst_cons (c a : Char) (l : List Char) :
    splitFirst c (a :: l) =
      if a == c then ([], some l)
      else (a :: (splitFirst c l).1, (splitFirst c l).2) := rfl

theorem splitFirst_not_mem_fst (c : Char) (l : List Char) : c ∉ (splitFirst c l).1 := by
  induction l with
  | nil => simp [splitFirst]
  | cons a as ih =>
    rw [splitFirst_cons]
    by_cases h : a = c
    · simp [h]
    · have hb : (a == c) = false := by simpa using h
      rw [if_neg (by simp [hb])]
      simp only [List.mem_cons]
      intro hc
      rcases hc with hc | hc
      · exact h hc.symm
      · exact ih hc

theorem splitFirst_fst_subset {c x : Char} {l : List Char}
    (h : x ∈ (splitFirst c l).1) : x ∈ l := by
  induction l with
  | nil => simp [splitFirst] at h
  | cons a as ih =>
    rw [splitFirst_cons] at h
    by_cases ha : a = c
    · rw [if_pos (by simpa using ha)] at h
      simp at h
    · rw [if_neg (by simpa using ha)] at h
      simp only [List.mem_cons] at h
      rcases h with h | h
      · exact h ▸ List.mem_cons_self a as
      · exact List.mem_cons_of_mem a (ih h)

theorem splitFirst_snd_subset {c x : Char} {l r : List Char}
    (h2 : (splitFirst c l).2 = some r) (h : x ∈ r) : x ∈ l := by
  induction l generalizing r with
  | nil => simp [splitFirst] at h2
  | cons a as ih =>
    rw [splitFirst_cons] at h2
    by_cases ha : a = c
    · rw [if_pos (by simpa using ha)] at h2
      have : as = r := by simpa using h2
      exact List.mem_cons_of_mem a (this ▸ h)
    · rw [if_neg (by simpa using ha)] at h2
      exact List.mem_cons_of_mem a (ih h2 h)

theorem splitFirst_of_not_mem {c : Char} {l : List Char} (h : c ∉ l) :
    splitFirst c l = (l, none) := by
  induction l with
  | nil => rfl
  | cons a as ih =>
    have ha : a ≠ c := fun hc => h (hc ▸ List.mem_cons_self a as)
    rw [splitFirst_cons, if_neg (by simpa using ha),
        ih (fun hc => h (List.mem_cons_of_mem a hc))]

theorem splitFirst_append_of_mem {c : Char} {l before after : List Char}
    (h : splitFirst c l = (before, some after)) (b : List Char) :
    splitFirst c (l ++ b) = (before, some (after ++ b)) := by
  induction l generalizing before with
  | nil => simp [splitFirst] at h
  | cons a as ih =>
    rw [splitFirst_cons] at h
    show splitFirst c (a :: (as ++ b)) = _
    rw [splitFirst_cons]
    by_cases ha : a = c
    · rw [if_pos (by simpa using ha)] at h ⊢
      rw [Prod.mk.injEq] at h
      rw [← h.1, Prod.mk.injEq]
      refine ⟨rfl, ?_⟩
      have : as = after := by simpa using h.2
      rw [this]
    · rw [if_neg (by simpa using ha)] at h ⊢
      rw [Prod.mk.injEq] at h
      obtain ⟨h1, h2⟩ := h
      have hs : splitFirst c as = ((splitFirst c as).1, some after) := by
        rw [← h2]
      rw [ih hs]
      rw [← h1]

theorem splitFirst_append_of_not_mem {c : Char} {l : List Char} (h : c ∉ l)
    (b : List Char) :
    splitFirst c (l ++ b) = (l ++ (splitFirst c b).1, (splitFirst c b).2) := by
  induction l with
  | nil => simp
  | cons a as ih =>
    have ha : a ≠ c := fun hc => h (hc ▸ List.mem_cons_self a as)
    show splitFirst c (a :: (as ++ b)) = _
    rw [splitFirst_cons, if_neg (by simpa using ha),
        ih (fun hc => h (List.mem_cons_of_mem a hc))]
    simp


theorem ofNat_plus32_ne_hash : ∀ n : Nat, 65 ≤ n → n ≤ 90 → Char.ofNat (n + 32) ≠ '#' := by
  intro n h1 h2
  interval_cases n <;> decide

theorem toLower_eq_hash {c : Char} (h : Char.toLower c = '#') : c = '#' := by
  by_cases hcond : c.toNat ≥ 65 ∧ c.toNat ≤ 90
  · have h2 : Char.toLower c = Char.ofNat (c.toNat + 32) := by
      unfold Char.toLower
      exact if_pos hcond
    rw [h2] at h
    exact absurd h (ofNat_plus32_ne_hash c.toNat hcond.1 hcond.2)
  · have h2 : Char.toLower c = c := by
      unfold Char.toLower
      exact if_neg hcond
    rw [h2] at h
    exact h

theorem lowerChars_not_hash {l : List Char} (h : ∀ c ∈ l, schemeChar c = true) :
    '#' ∉ lowerChars l := by
  intro hc
  rcases List.mem_map.mp hc with ⟨c, hcl, hceq⟩
  have hch := toLower_eq_hash hceq
  subst hch
  exact absurd (h _ hcl) (by decide)

theorem splitScheme_of_none {l before : List Char} (dflt : List Char)
    (h : splitFirst ':' l = (before, none)) : splitScheme dflt l = (dflt, l) := by
  unfold splitScheme
  rw [h]

theorem splitScheme_of_valid {l before after : List Char} (dflt : List Char)
    (h : splitFirst ':' l = (before, some after))
    (hv : before ≠ [] ∧ (before.headD ' ').isAlpha ∧ before.all schemeChar) :
    splitScheme dflt l = (lowerChars before, after) := by
  unfold splitScheme
  rw [h]
  exact if_pos hv

theorem splitScheme_of_invalid {l before after : List Char} (dflt : List Char)
    (h : splitFirst ':' l = (before, some after))
    (hv : ¬(before ≠ [] ∧ (before.headD ' ').isAlpha ∧ before.all schemeChar)) :
    splitScheme dflt l = (dflt, l) := by
  unfold splitScheme
  rw [h]
  exact if_neg hv

theorem splitScheme_fst_not_hash (dflt l : List Char) (hd : '#' ∉ dflt) :
    '#' ∉ (splitScheme dflt l).1 := by
  rcases hs : splitFirst ':' l with ⟨before, rest⟩
  rcases rest with _ | after
  · rw [splitScheme_of_none dflt hs]
    exact hd
  · by_cases hv : before ≠ [] ∧ (before.headD ' ').isAlpha ∧ before.all schemeChar
    · rw [splitScheme_of_valid dflt hs hv]
      exact lowerChars_not_hash (fun c hcl => List.all_eq_true.mp hv.2.2 c hcl)
    · rw [splitScheme_of_invalid dflt hs hv]
      exact hd

theorem splitNetloc_fst_no_delim {x : Char} {l : List Char}
    (h : x ∈ (splitNetloc l).1) : netlocDelim x = false := by
  unfold splitNetloc at h
  split at h
  · have := List.mem_takeWhile_imp h
    simpa using this
  · simp at h

theorem splitNetloc_cases (l : List Char) :
    splitNetloc l = ([], l) ∨
      ∃ rest, l = '/' :: '/' :: rest ∧
        splitNetloc l = (rest.takeWhile (fun c => !netlocDelim c),
                         rest.dropWhile (fun c => !netlocDelim c)) := by
  rcases l with _ | ⟨a, _ | ⟨b, rest⟩⟩
  · exact Or.inl rfl
  · refine Or.inl ?_
    unfold splitNetloc
    split
    · next heq =>
      exfalso
      simp at heq
    · rfl
  · by_cases ha : a = '/'
    · by_cases hb2 : b = '/'
      · subst ha
        subst hb2
        exact Or.inr ⟨rest, rfl, rfl⟩
      · refine Or.inl ?_
        unfold splitNetloc
        split
        · next heq =>
          exfalso
          rw [List.cons.injEq, List.cons.injEq] at heq
          exact hb2 heq.2.1
        · rfl
    · refine Or.inl ?_
      unfold splitNetloc
      split
      · next heq =>
        exfalso
        rw [List.cons.injEq] at heq
        exact ha heq.1
      · rfl

theorem splitFirst_none_not_mem {c : Char} {l : List Char}
    (h : (splitFirst c l).2 = none) : c ∉ l := by
  induction l with
  | nil => simp
  | cons a as ih =>
    rw [splitFirst_cons] at h
    by_cases ha : a = c
    · rw [if_pos (by simpa using ha)] at h
      simp at h
    · rw [if_neg (by simpa using ha)] at h
      simp only [List.mem_cons]
      intro hc
      rcases hc with hc | hc
      · exact ha hc.symm
      · exact ih h hc

theorem splitFragment_of_some {l b a : List Char} (h : splitFirst '#' l = (b, some a)) :
    splitFragment l = (b, a) := by
  unfold splitFragment
  rw [h]

theorem splitFragment_of_none {l b : List Char} (h : splitFirst '#' l = (b, none)) :
    splitFragment l = (l, []) := by
  unfold splitFragment
  rw [h]

theorem splitQuery_of_some {l b a : List Char} (h : splitFirst '?' l = (b, some a)) :
    splitQuery l = (b, a) := by
  unfold splitQuery
  rw [h]

theorem splitQuery_of_none {l b : List Char} (h : splitFirst '?' l = (b, none)) :
    splitQuery l = (l, []) := by
  unfold splitQuery
  rw [h]

theorem splitFragment_fst_no_hash (l : List Char) : '#' ∉ (splitFragment l).1 := by
  rcases hs : splitFirst '#' l with ⟨b, rest⟩
  rcases rest with _ | a
  · rw [splitFragment_of_none hs]
    exact splitFirst_none_not_mem (by rw [hs])
  · rw [splitFragment_of_some hs]
    intro hc
    exact splitFirst_not_mem_fst '#' l (by rw [hs]; exact hc)

theorem splitFragment_fst_subset {x : Char} {l : List Char}
    (h : x ∈ (splitFragment l).1) : x ∈ l := by
  rcases hs : splitFirst '#' l with ⟨b, rest⟩
  rcases rest with _ | a
  · rw [splitFragment_of_none hs] at h
    exact h
  · rw [splitFragment_of_some hs] at h
    exact splitFirst_fst_subset (by rw [hs]; exact h)

theorem splitQuery_fst_no_question (l : List Char) : '?' ∉ (splitQuery l).1 := by
  rcases hs : splitFirst '?' l with ⟨b, rest⟩
  rcases rest with _ | a
  · rw [splitQuery_of_none hs]
    exact splitFirst_none_not_mem (by rw [hs])
  · rw [splitQuery_of_some hs]
    intro hc
    exact splitFirst_not_mem_fst '?' l (by rw [hs]; exact hc)

theorem splitQuery_fst_subset {x : Char} {l : List Char}
    (h : x ∈ (splitQuery l).1) : x ∈ l := by
  rcases hs : splitFirst '?' l with ⟨b, rest⟩
  rcases rest with _ | a
  · rw [splitQuery_of_none hs] at h
    exact h
  · rw [splitQuery_of_some hs] at h
    exact splitFirst_fst_subset (by rw [hs]; exact h)

theorem splitQuery_snd_subset {x : Char} {l : List Char}
    (h : x ∈ (splitQuery l).2) : x ∈ l := by
  rcases hs : splitFirst '?' l with ⟨b, rest⟩
  rcases rest with _ | a
  · rw [splitQuery_of_none hs] at h
    simp at h
  · rw [splitQuery_of_some hs] at h
    exact splitFirst_snd_subset (by rw [hs]) h

theorem splitParams_fst_subset {x : Char} {l : List Char}
    (h : x ∈ (splitParams l).1) : x ∈ l := by
  unfold splitParams at h
  by_cases hc : l.contains '/'
  · rw [if_pos hc] at h
    dsimp only at h
    rcases hs : splitFirst ';' ((l.reverse.takeWhile (· ≠ '/')).reverse) with ⟨b, rest⟩
    rw [hs] at h
    rcases rest with _ | a
    · exact h
    · rcases List.mem_append.mp h with h2 | h2
      · have := (List.dropWhile_sublist (l := l.reverse) (· ≠ '/')).subset
          (by simpa using List.mem_reverse.mp (by simpa using h2))
        exact List.mem_reverse.mp this
      · have h3 := splitFirst_fst_subset (by rw [hs]; exact h2)
        have := (List.takeWhile_sublist (l := l.reverse) (· ≠ '/')).subset
          (List.mem_reverse.mp h3)
        exact List.mem_reverse.mp this
  · rw [if_neg hc] at h
    rcases hs : splitFirst ';' l with ⟨b, rest⟩
    rw [hs] at h
    rcases rest with _ | a
    · exact h
    · exact splitFirst_fst_subset (by rw [hs]; exact h)

theorem splitParams_of_not_mem {l : List Char} (h : ';' ∉ l) :
    splitParams l = (l, []) := by
  unfold splitParams
  by_cases hc : l.contains '/'
  · rw [if_pos hc]
    dsimp only
    have hseg : ';' ∉ (l.reverse.takeWhile (· ≠ '/')).reverse := by
      intro hm
      have h3 := (List.takeWhile_sublist (l := l.reverse) (· ≠ '/')).subset
        (List.mem_reverse.mp hm)
      exact h (List.mem_reverse.mp h3)
    rw [splitFirst_of_not_mem hseg]
  · rw [if_neg hc]
    rw [splitFirst_of_not_mem h]

theorem rstripSlash_subset {x : Char} {l : List Char} (h : x ∈ rstripSlash l) : x ∈ l := by
  unfold rstripSlash at h
  have := (List.dropWhile_sublist (l := l.reverse) (· == '/')).subset
    (List.mem_reverse.mp h)
  exact List.mem_reverse.mp this

theorem dropWhile_idem (p : Char → Bool) (l : List Char) :
    (l.dropWhile p).dropWhile p = l.dropWhile p := by
  rcases hd : l.dropWhile p with _ | ⟨c, t⟩
  · rfl
  · have h3 := List.head?_dropWhile_not p l
    rw [hd] at h3
    simp only [List.head?_cons] at h3
    rw [List.dropWhile_cons_of_neg (by simp [h3])]

theorem rstripSlash_idem (l : List Char) : rstripSlash (rstripSlash l) = rstripSlash l := by
  unfold rstripSlash
  rw [List.reverse_reverse, dropWhile_idem]

theorem rstripSlash_append_slash (l : List Char) :
    rstripSlash (l ++ ['/']) = rstripSlash l := by
  unfold rstripSlash
  rw [List.reverse_append]
  simp

theorem rstripSlash_prefix (l : List Char) :
    ∃ t, l = rstripSlash l ++ t ∧ ∀ x ∈ t, x = '/' := by
  refine ⟨(l.reverse.takeWhile (· == '/')).reverse, ?_, ?_⟩
  · unfold rstripSlash
    rw [← List.reverse_append, List.takeWhile_append_dropWhile, List.reverse_reverse]
  · intro x hx
    have := List.mem_takeWhile_imp (List.mem_reverse.mp hx)
    simpa using this

theorem takeWhile_append_all {p : Char → Bool} (a : List Char) (b : List Char)
    (h : ∀ x ∈ a, p x = true) :
    (a ++ b).takeWhile p = a ++ b.takeWhile p ∧ (a ++ b).dropWhile p = b.dropWhile p := by
  induction a with
  | nil => simp
  | cons x xs ih =>
    have hx : p x = true := h x (List.mem_cons_self x xs)
    have ih2 := ih (fun y hy => h y (List.mem_cons_of_mem x hy))
    rw [List.cons_append, List.takeWhile_cons_of_pos hx, List.dropWhile_cons_of_pos hx]
    exact ⟨by rw [ih2.1, List.cons_append], ih2.2⟩

theorem takeWhile_append_stop {p : Char → Bool} (a : List Char) (b : List Char)
    (h : ∃ x ∈ a, p x = false) :
    (a ++ b).takeWhile p = a.takeWhile p ∧ (a ++ b).dropWhile p = a.dropWhile p ++ b := by
  induction a with
  | nil => simp at h
  | cons x xs ih =>
    by_cases hx : p x = true
    · have hxs : ∃ y ∈ xs, p y = false := by
        rcases h with ⟨y, hy, hyp⟩
        rcases List.mem_cons.mp hy with rfl | hy2
        · rw [hx] at hyp
          cases hyp
        · exact ⟨y, hy2, hyp⟩
      have ih2 := ih hxs
      rw [List.cons_append, List.takeWhile_cons_of_pos hx, List.dropWhile_cons_of_pos hx,
        List.takeWhile_cons_of_pos hx, List.dropWhile_cons_of_pos hx]
      exact ⟨by rw [ih2.1], by rw [ih2.2]⟩
    · have hx2 : p x = false := by
        rcases Bool.eq_false_or_eq_true (p x) with h2 | h2
        · exact absurd h2 hx
        · exact h2
      rw [List.cons_append, List.takeWhile_cons_of_neg (by simp [hx2]),
        List.dropWhile_cons_of_neg (by simp [hx2]),
        List.takeWhile_cons_of_neg (by simp [hx2]),
        List.dropWhile_cons_of_neg (by simp [hx2])]
      simp

theorem urlparseChars_scheme (dflt l : List Char) :
    (urlparseChars dflt l).scheme = (splitScheme dflt l).1 := rfl

theorem urlparseChars_netloc (dflt l : List Char) :
    (urlparseChars dflt l).netloc = (splitNetloc (splitScheme dflt l).2).1 := rfl

theorem urlparseChars_path (dflt l : List Char) :
    (urlparseChars dflt l).path =
      (splitParams (splitQuery
        (splitFragment (splitNetloc (splitScheme dflt l).2).2).1).1).1 := rfl

theorem urlparseChars_query (dflt l : List Char) :
    (urlparseChars dflt l).query =
      (splitQuery (splitFragment (splitNetloc (splitScheme dflt l).2).2).1).2 := rfl

/-- No component of `urlparse` that `normalize_url` reassembles contains a
`#`: the fragment split happens before the path and query are read. -/
theorem urlparse_no_hash (dflt l : List Char) (hd : '#' ∉ dflt) :
    '#' ∉ (urlparseChars dflt l).scheme ∧ '#' ∉ (urlparseChars dflt l).netloc ∧
    '#' ∉ (urlparseChars dflt l).path ∧ '#' ∉ (urlparseChars dflt l).query := by
  refine ⟨?_, ?_, ?_, ?_⟩
  · rw [urlparseChars_scheme]
    exact splitScheme_fst_not_hash dflt l hd
  · rw [urlparseChars_netloc]
    intro hc
    have := splitNetloc_fst_no_delim hc
    simp [netlocDelim] at this
  · rw [urlparseChars_path]
    intro hc
    exact splitFragment_fst_no_hash _
      (splitQuery_fst_subset (splitParams_fst_subset hc))
  · rw [urlparseChars_query]
    intro hc
    exact splitFragment_fst_no_hash _ (splitQuery_snd_subset hc)

/-- The output of `normalize_url` never contains a `#` character; in
particular it carries no fragment. -/
theorem normalize_url_no_hash (u : String) : '#' ∉ (normalize_url u).data := by
  unfold normalize_url
  have h := urlparse_no_hash [] u.toList (by simp)
  intro hc
  dsimp only [String.toList] at hc
  simp only [String.toList] at h
  by_cases hq : (urlparseChars [] u.data).query ≠ []
  · rw [if_pos hq] at hc
    rcases List.mem_append.mp hc with h2 | h2
    · rcases List.mem_append.mp h2 with h3 | h3
      · exact h.1 h3
      · rcases List.mem_cons.mp h3 with h4 | h4
        · cases h4
        · rcases List.mem_cons.mp h4 with h5 | h5
          · cases h5
          · rcases List.mem_cons.mp h5 with h6 | h6
            · cases h6
            · rcases List.mem_append.mp h6 with h7 | h7
              · exact h.2.1 h7
              · by_cases hr : rstripSlash (urlparseChars [] u.data).path = []
                · rw [if_pos hr] at h7
                  simp at h7
                · rw [if_neg hr] at h7
                  exact h.2.2.1 (rstripSlash_subset h7)
    · rcases List.mem_cons.mp h2 with h4 | h4
      · cases h4
      · exact h.2.2.2 h4
  · rw [if_neg hq] at hc
    rcases List.mem_append.mp hc with h3 | h3
    · exact h.1 h3
    · rcases List.mem_cons.mp h3 with h4 | h4
      · cases h4
      · rcases List.mem_cons.mp h4 with h5 | h5
        · cases h5
        · rcases List.mem_cons.mp h5 with h6 | h6
          · cases h6
          · rcases List.mem_append.mp h6 with h7 | h7
            · exact h.2.1 h7
            · by_cases hr : rstripSlash (urlparseChars [] u.data).path = []
              · rw [if_pos hr] at h7
                simp at h7
              · rw [if_neg hr] at h7
                exact h.2.2.1 (rstripSlash_subset h7)

theorem urlparseChars_eq (dflt l : List Char) :
    urlparseChars dflt l =
      { scheme := (splitScheme dflt l).1,
        netloc := (splitNetloc (splitScheme dflt l).2).1,
        path := (splitParams (splitQuery
          (splitFragment (splitNetloc (splitScheme dflt l).2).2).1).1).1,
        params := (splitParams (splitQuery
          (splitFragment (splitNetloc (splitScheme dflt l).2).2).1).1).2,
        query := (splitQuery (splitFragment (splitNetloc (splitScheme dflt l).2).2).1).2,
        fragment := (splitFragment (splitNetloc (splitScheme dflt l).2).2).2 } := rfl

/-- Re-parsing a URL rebuilt from a validated scheme, a delimiter-free
netloc, a slash-led path free of `#`, `?` and `;`, and an optional query
recovers exactly those components. -/
theorem urlparse_rebuilt (scheme netloc pathr qpart query : List Char)
    (hval : scheme ≠ [] ∧ (scheme.headD ' ').isAlpha = true ∧
      scheme.all schemeChar = true)
    (hlow : lowerChars scheme = scheme)
    (hcolon : ':' ∉ scheme)
    (hnd : ∀ x ∈ netloc, netlocDelim x = false)
    (hpsh : ∃ t, pathr = '/' :: t)
    (hph : '#' ∉ pathr) (hpq : '?' ∉ pathr) (hpsemi : ';' ∉ pathr)
    (hqh : '#' ∉ query)
    (hqp : (qpart = [] ∧ query = []) ∨ qpart = '?' :: query) :
    urlparseChars [] (scheme ++ ':' :: '/' :: '/' :: (netloc ++ (pathr ++ qpart))) =
      { scheme := scheme, netloc := netloc, path := pathr, params := [],
        query := query, fragment := [] } := by
  obtain ⟨pt, hpt⟩ := hpsh
  have h1 : splitFirst ':' (scheme ++ ':' :: '/' :: '/' :: (netloc ++ (pathr ++ qpart))) =
      (scheme, some ('/' :: '/' :: (netloc ++ (pathr ++ qpart)))) := by
    rw [splitFirst_append_of_not_mem hcolon, splitFirst_cons]
    simp
  have h2 : splitScheme [] (scheme ++ ':' :: '/' :: '/' :: (netloc ++ (pathr ++ qpart))) =
      (scheme, '/' :: '/' :: (netloc ++ (pathr ++ qpart))) := by
    rw [splitScheme_of_valid [] h1 hval, hlow]
  have hbody := takeWhile_append_all (p := fun c => !netlocDelim c) netloc (pathr ++ qpart)
    (fun x hx => by simp [hnd x hx])
  have hpw : (pathr ++ qpart).takeWhile (fun c => !netlocDelim c) = [] := by
    rw [hpt, List.cons_append, List.takeWhile_cons_of_neg (by simp [netlocDelim])]
  have hdw : (pathr ++ qpart).dropWhile (fun c => !netlocDelim c) = pathr ++ qpart := by
    rw [hpt, List.cons_append, List.dropWhile_cons_of_neg (by simp [netlocDelim])]
  have h3 : splitNetloc ('/' :: '/' :: (netloc ++ (pathr ++ qpart))) =
      (netloc, pathr ++ qpart) := by
    show (((netloc ++ (pathr ++ qpart)).takeWhile (fun c => !netlocDelim c)),
          ((netloc ++ (pathr ++ qpart)).dropWhile (fun c => !netlocDelim c))) = _
    rw [hbody.1, hbody.2, hpw, hdw, List.append_nil]
  have hqpart_hash : '#' ∉ qpart := by
    rcases hqp with ⟨rfl, _⟩ | rfl
    · simp
    · simp only [List.mem_cons]
      intro hc
      rcases hc with hc | hc
      · cases hc
      · exact hqh hc
  have h4 : splitFragment (pathr ++ qpart) = (pathr ++ qpart, []) :=
    splitFragment_of_none (splitFirst_of_not_mem (by
      intro hc
      rcases List.mem_append.mp hc with hc | hc
      · exact hph hc
      · exact hqpart_hash hc))
  have h5 : splitQuery (pathr ++ qpart) = (pathr, query) := by
    rcases hqp with ⟨rfl, rfl⟩ | rfl
    · rw [List.append_nil]
      exact splitQuery_of_none (splitFirst_of_not_mem hpq)
    · refine splitQuery_of_some ?_
      rw [splitFirst_append_of_not_mem hpq, splitFirst_cons]
      simp
  have h6 : splitParams pathr = (pathr, []) := splitParams_of_not_mem hpsemi
  rw [urlparseChars_eq, h2]
  simp only [h3, h4, h5, h6]

theorem takeWhile_all_eq {p : Char → Bool} {l : List Char}
    (h : ∀ x ∈ l, p x = true) : l.takeWhile p = l ∧ l.dropWhile p = [] := by
  induction l with
  | nil => exact ⟨rfl, rfl⟩
  | cons a as ih =>
    have ha := h a (List.mem_cons_self a as)
    have ih2 := ih (fun x hx => h x (List.mem_cons_of_mem a hx))
    rw [List.takeWhile_cons_of_pos ha, List.dropWhile_cons_of_pos ha, ih2.1, ih2.2]
    exact ⟨rfl, rfl⟩

theorem dropWhile_head_neg {p : Char → Bool} {l : List Char} {c : Char} {t : List Char}
    (h : l.dropWhile p = c :: t) : p c = false := by
  induction l with
  | nil => simp at h
  | cons a as ih =>
    by_cases ha : p a = true
    · rw [List.dropWhile_cons_of_pos ha] at h
      exact ih h
    · rw [List.dropWhile_cons_of_neg ha] at h
      rw [List.cons.injEq] at h
      rw [← h.1]
      rcases Bool.eq_false_or_eq_true (p a) with h2 | h2
      · exact absurd h2 ha
      · exact h2

theorem dropWhile_eq_nil_all {p : Char → Bool} {l : List Char}
    (h : l.dropWhile p = []) : ∀ x ∈ l, p x = true := by
  induction l with
  | nil =>
    intro x hx
    simp at hx
  | cons a as ih =>
    by_cases ha : p a = true
    · rw [List.dropWhile_cons_of_pos ha] at h
      intro x hx
      rcases List.mem_cons.mp hx with rfl | hx2
      · exact ha
      · exact ih h x hx2
    · rw [List.dropWhile_cons_of_neg ha] at h
      simp at h

theorem contains_eq_true_mem {c : Char} {l : List Char}
    (h : l.contains c = true) : c ∈ l := by
  simpa using h

theorem splitFirst_fst_shape (c a : Char) (t : List Char) :
    (splitFirst c (a :: t)).1 = [] ∨ ∃ r, (splitFirst c (a :: t)).1 = a :: r := by
  rw [splitFirst_cons]
  by_cases ha : a = c
  · rw [if_pos (by simpa using ha)]
    exact Or.inl rfl
  · rw [if_neg (by simpa using ha)]
    exact Or.inr ⟨(splitFirst c t).1, rfl⟩

theorem splitFragment_fst_shape (a : Char) (t : List Char) :
    (splitFragment (a :: t)).1 = [] ∨ ∃ r, (splitFragment (a :: t)).1 = a :: r := by
  rcases hs : splitFirst '#' (a :: t) with ⟨b, _ | af⟩
  · rw [splitFragment_of_none hs]
    exact Or.inr ⟨t, rfl⟩
  · rw [splitFragment_of_some hs]
    have h2 := splitFirst_fst_shape '#' a t
    rw [hs] at h2
    exact h2

theorem splitQuery_fst_shape (a : Char) (t : List Char) :
    (splitQuery (a :: t)).1 = [] ∨ ∃ r, (splitQuery (a :: t)).1 = a :: r := by
  rcases hs : splitFirst '?' (a :: t) with ⟨b, _ | af⟩
  · rw [splitQuery_of_none hs]
    exact Or.inr ⟨t, rfl⟩
  · rw [splitQuery_of_some hs]
    have h2 := splitFirst_fst_shape '?' a t
    rw [hs] at h2
    exact h2

theorem splitParams_contains {l : List Char} (hc : l.contains '/' = true) :
    splitParams l =
      (match splitFirst ';' ((l.reverse.takeWhile (· ≠ '/')).reverse) with
        | (before, some after) =>
          (((l.reverse.dropWhile (· ≠ '/')).reverse) ++ before, after)
        | (_, none) => (l, [])) := by
  unfold splitParams
  rw [if_pos hc]

theorem splitParams_not_contains {l : List Char} (hc : ¬ l.contains '/' = true) :
    splitParams l =
      (match splitFirst ';' l with
        | (before, some after) => (before, after)
        | (_, none) => (l, [])) := by
  unfold splitParams
  rw [if_neg hc]

theorem splitParams_fst_shape (a : Char) (t : List Char) :
    (splitParams (a :: t)).1 = [] ∨ ∃ r, (splitParams (a :: t)).1 = a :: r := by
  by_cases hc : (a :: t).contains '/' = true
  · rw [splitParams_contains hc]
    rcases hs : splitFirst ';' (((a :: t).reverse.takeWhile (· ≠ '/')).reverse)
      with ⟨b, _ | af⟩
    · exact Or.inr ⟨t, rfl⟩
    · have hsplit : ((a :: t).reverse.dropWhile (· ≠ '/')).reverse ++
          ((a :: t).reverse.takeWhile (· ≠ '/')).reverse = a :: t := by
        rw [← List.reverse_append, List.takeWhile_append_dropWhile, List.reverse_reverse]
      rcases hpe : ((a :: t).reverse.dropWhile (· ≠ '/')).reverse with _ | ⟨p0, pr⟩
      · exfalso
        have hall := dropWhile_eq_nil_all (List.reverse_eq_nil_iff.mp hpe)
        have hmem : '/' ∈ (a :: t).reverse :=
          List.mem_reverse.mpr (contains_eq_true_mem hc)
        have := hall '/' hmem
        simp at this
      · rw [hpe] at hsplit
        rw [List.cons_append, List.cons.injEq] at hsplit
        refine Or.inr ⟨pr ++ b, ?_⟩
        show (p0 :: pr) ++ b = a :: (pr ++ b)
        rw [List.cons_append, hsplit.1]
  · rw [splitParams_not_contains hc]
    rcases hs : splitFirst ';' (a :: t) with ⟨b, _ | af⟩
    · exact Or.inr ⟨t, rfl⟩
    · have h2 := splitFirst_fst_shape ';' a t
      rw [hs] at h2
      exact h2

theorem urlparseChars_path_shape (dflt l : List Char)
    (hn : (urlparseChars dflt l).netloc ≠ []) :
    (urlparseChars dflt l).path = [] ∨
      ∃ t, (urlparseChars dflt l).path = '/' :: t := by
  rw [urlparseChars_netloc] at hn
  rcases splitNetloc_cases (splitScheme dflt l).2 with hcase | ⟨rest, hrest, hcase⟩
  · rw [hcase] at hn
    exact absurd rfl hn
  · rw [urlparseChars_path, hcase]
    rcases hd : rest.dropWhile (fun c => !netlocDelim c) with _ | ⟨c, dt⟩
    · exact Or.inl rfl
    · have hdelim : netlocDelim c = true := by
        have h2 := dropWhile_head_neg hd
        simpa using h2
      rcases splitFragment_fst_shape c dt with hf | ⟨r1, hf⟩
      · rw [hf]
        exact Or.inl rfl
      · rw [hf]
        rcases splitQuery_fst_shape c r1 with hq | ⟨r2, hq⟩
        · rw [hq]
          exact Or.inl rfl
        · rw [hq]
          have hc1 : c ≠ '#' := by
            intro h0
            exact splitFragment_fst_no_hash (c :: dt)
              (by rw [hf, h0]; exact List.mem_cons_self _ _)
          have hc2 : c ≠ '?' := by
            intro h0
            exact splitQuery_fst_no_question (c :: r1)
              (by rw [hq, h0]; exact List.mem_cons_self _ _)
          have hc3 : c = '/' := by
            simp [netlocDelim] at hdelim
            rcases hdelim with (h0 | h0) | h0
            · exact h0
            · exact absurd h0 hc2
            · exact absurd h0 hc1
          subst hc3
          rcases splitParams_fst_shape '/' r2 with hp | ⟨r3, hp⟩
          · rw [hp]
            exact Or.inl rfl
          · rw [hp]
            exact Or.inr ⟨r3, rfl⟩

theorem normalize_url_eq (u : String) :
    normalize_url u = String.mk
      (if (urlparseChars [] u.toList).query ≠ [] then
        ((urlparseChars [] u.toList).scheme ++ ':' :: '/' :: '/' ::
          ((urlparseChars [] u.toList).netloc ++
            (if rstripSlash (urlparseChars [] u.toList).path = [] then ['/']
             else rstripSlash (urlparseChars [] u.toList).path))) ++
          '?' :: (urlparseChars [] u.toList).query
       else
        (urlparseChars [] u.toList).scheme ++ ':' :: '/' :: '/' ::
          ((urlparseChars [] u.toList).netloc ++
            (if rstripSlash (urlparseChars [] u.toList).path = [] then ['/']
             else rstripSlash (urlparseChars [] u.toList).path))) := rfl

/-- `normalize_url` is the identity on a URL already assembled from a
validated lowercase scheme, delimiter-free netloc, fixed slash-led path and
optional query. -/
theorem normalize_url_build (scheme netloc pathr query : List Char)
    (hval : scheme ≠ [] ∧ (scheme.headD ' ').isAlpha = true ∧
      scheme.all schemeChar = true)
    (hlow : lowerChars scheme = scheme)
    (hcolon : ':' ∉ scheme)
    (hnd : ∀ x ∈ netloc, netlocDelim x = false)
    (hpsh : ∃ t, pathr = '/' :: t)
    (hph : '#' ∉ pathr) (hpq : '?' ∉ pathr) (hpsemi : ';' ∉ pathr)
    (hqh : '#' ∉ query)
    (hfix : (if rstripSlash pathr = [] then ['/'] else rstripSlash pathr) = pathr) :
    normalize_url (String.mk (if query ≠ [] then
        (scheme ++ ':' :: '/' :: '/' :: (netloc ++ pathr)) ++ '?' :: query
      else scheme ++ ':' :: '/' :: '/' :: (netloc ++ pathr))) =
      String.mk (if query ≠ [] then
        (scheme ++ ':' :: '/' :: '/' :: (netloc ++ pathr)) ++ '?' :: query
      else scheme ++ ':' :: '/' :: '/' :: (netloc ++ pathr)) := by
  by_cases hq : query = []
  · subst hq
    rw [if_neg (by simp)]
    have hparse := urlparse_rebuilt scheme netloc pathr [] [] hval hlow hcolon hnd
      hpsh hph hpq hpsemi (by simp) (Or.inl ⟨rfl, rfl⟩)
    rw [List.append_nil] at hparse
    have hlist : (String.mk (scheme ++ ':' :: '/' :: '/' :: (netloc ++ pathr))).toList
        = scheme ++ ':' :: '/' :: '/' :: (netloc ++ pathr) := rfl
    rw [normalize_url_eq, hlist, hparse]
    dsimp only
    rw [if_neg (by simp), hfix]
  · have hassoc : (scheme ++ ':' :: '/' :: '/' :: (netloc ++ pathr)) ++ '?' :: query
        = scheme ++ ':' :: '/' :: '/' :: (netloc ++ (pathr ++ '?' :: query)) := by
      simp
    have hparse := urlparse_rebuilt scheme netloc pathr ('?' :: query) query hval hlow
      hcolon hnd hpsh hph hpq hpsemi hqh (Or.inr rfl)
    rw [if_pos hq]
    rw [normalize_url_eq]
    have hlist : (String.mk ((scheme ++ ':' :: '/' :: '/' ::
        (netloc ++ pathr)) ++ '?' :: query)).toList
        = scheme ++ ':' :: '/' :: '/' :: (netloc ++ (pathr ++ '?' :: query)) := hassoc
    rw [hlist, hparse]
    dsimp only
    rw [if_pos hq, hfix]

/-- `normalize_url` is idempotent on URLs whose parse has an `http` or
`https` scheme, a nonempty netloc, and a semicolon-free path. -/
theorem normalize_url_idem (u : String)
    (hs : (urlparseChars [] u.toList).scheme = "http".toList ∨
          (urlparseChars [] u.toList).scheme = "https".toList)
    (hn : (urlparseChars [] u.toList).netloc ≠ [])
    (hsemi : ';' ∉ (urlparseChars [] u.toList).path) :
    normalize_url (normalize_url u) = normalize_url u := by
  have hnohash := urlparse_no_hash [] u.toList (by simp)
  have hval : (urlparseChars [] u.toList).scheme ≠ [] ∧
      ((urlparseChars [] u.toList).scheme.headD ' ').isAlpha = true ∧
      (urlparseChars [] u.toList).scheme.all schemeChar = true := by
    rcases hs with h | h <;> rw [h] <;> exact ⟨by decide, by decide, by decide⟩
  have hlow : lowerChars (urlparseChars [] u.toList).scheme =
      (urlparseChars [] u.toList).scheme := by
    rcases hs with h | h <;> rw [h] <;> decide
  have hcolon : ':' ∉ (urlparseChars [] u.toList).scheme := by
    rcases hs with h | h <;> rw [h] <;> decide
  have hnd : ∀ x ∈ (urlparseChars [] u.toList).netloc, netlocDelim x = false := by
    intro x hx
    rw [urlparseChars_netloc] at hx
    exact splitNetloc_fst_no_delim hx
  have hpshape := urlparseChars_path_shape [] u.toList hn
  have hpq : '?' ∉ (urlparseChars [] u.toList).path := by
    rw [urlparseChars_path]
    intro hc
    exact splitQuery_fst_no_question _ (splitParams_fst_subset hc)
  have hph : '#' ∉ (urlparseChars [] u.toList).path := hnohash.2.2.1
  have hqh : '#' ∉ (urlparseChars [] u.toList).query := hnohash.2.2.2
  by_cases hr : rstripSlash (urlparseChars [] u.toList).path = []
  · have hbuild := normalize_url_build (urlparseChars [] u.toList).scheme
      (urlparseChars [] u.toList).netloc ['/'] (urlparseChars [] u.toList).query
      hval hlow hcolon hnd ⟨[], rfl⟩ (by decide) (by decide) (by decide) hqh (by decide)
    have hnu : normalize_url u = String.mk
        (if (urlparseChars [] u.toList).query ≠ [] then
          ((urlparseChars [] u.toList).scheme ++ ':' :: '/' :: '/' ::
            ((urlparseChars [] u.toList).netloc ++ ['/'])) ++
            '?' :: (urlparseChars [] u.toList).query
         else (urlparseChars [] u.toList).scheme ++ ':' :: '/' :: '/' ::
            ((urlparseChars [] u.toList).netloc ++ ['/'])) := by
      rw [normalize_url_eq, if_pos hr]
    rw [hnu]
    exact hbuild
  · rcases hpshape with hp0 | ⟨t, hpt⟩
    · rw [hp0] at hr
      exact absurd rfl hr
    · obtain ⟨tail, htail, _⟩ := rstripSlash_prefix (urlparseChars [] u.toList).path
      have hshape : ∃ t2, rstripSlash (urlparseChars [] u.toList).path = '/' :: t2 := by
        rcases he : rstripSlash (urlparseChars [] u.toList).path with _ | ⟨c0, r0⟩
        · exact absurd he hr
        · refine ⟨r0, ?_⟩
          rw [he, hpt, List.cons_append, List.cons.injEq] at htail
          rw [← htail.1]
      obtain ⟨t2, ht2⟩ := hshape
      have hsub : ∀ x ∈ rstripSlash (urlparseChars [] u.toList).path,
          x ∈ (urlparseChars [] u.toList).path := fun x hx => rstripSlash_subset hx
      have hfix : (if rstripSlash (rstripSlash (urlparseChars [] u.toList).path) = []
          then ['/'] else rstripSlash (rstripSlash (urlparseChars [] u.toList).path))
          = rstripSlash (urlparseChars [] u.toList).path := by
        rw [rstripSlash_idem, if_neg hr]
      have hbuild := normalize_url_build (urlparseChars [] u.toList).scheme
        (urlparseChars [] u.toList).netloc (rstripSlash (urlparseChars [] u.toList).path)
        (urlparseChars [] u.toList).query hval hlow hcolon hnd ⟨t2, ht2⟩
        (fun hc => hph (hsub _ hc)) (fun hc => hpq (hsub _ hc))
        (fun hc => hsemi (hsub _ hc)) hqh hfix
      have hnu : normalize_url u = String.mk
          (if (urlparseChars [] u.toList).query ≠ [] then
            ((urlparseChars [] u.toList).scheme ++ ':' :: '/' :: '/' ::
              ((urlparseChars [] u.toList).netloc ++
                rstripSlash (urlparseChars [] u.toList).path)) ++
              '?' :: (urlparseChars [] u.toList).query
           else (urlparseChars [] u.toList).scheme ++ ':' :: '/' :: '/' ::
              ((urlparseChars [] u.toList).netloc ++
                rstripSlash (urlparseChars [] u.toList).path)) := by
        rw [normalize_url_eq, if_neg hr]
      rw [hnu]
      exact hbuild

theorem splitNetloc_fallback {l : List Char}
    (h : ∀ rest, l ≠ '/' :: '/' :: rest) : splitNetloc l = ([], l) := by
  unfold splitNetloc
  split
  · rename_i rest
    exact absurd rfl (h rest)
  · rfl

theorem takeWhile_append_break {p : Char → Bool} (a : List Char) (c : Char)
    (xs : List Char) (hc : p c = false) :
    (a ++ c :: xs).takeWhile p = a.takeWhile p ∧
    (a ++ c :: xs).dropWhile p = a.dropWhile p ++ c :: xs := by
  by_cases h : ∃ x ∈ a, p x = false
  · exact takeWhile_append_stop a (c :: xs) h
  · have hall : ∀ x ∈ a, p x = true := by
      intro x hx
      rcases Bool.eq_false_or_eq_true (p x) with h2 | h2
      · exact h2
      · exact absurd ⟨x, hx, h2⟩ h
    have h2 := takeWhile_append_all a (c :: xs) hall
    have h3 := takeWhile_all_eq hall
    refine ⟨?_, ?_⟩
    · rw [h2.1, List.takeWhile_cons_of_neg (by simp [hc]), List.append_nil, h3.1]
    · rw [h2.2, List.dropWhile_cons_of_neg (by simp [hc]), h3.2]
      rfl

theorem splitScheme_append (l x : List Char)
    (hx : (':' ∉ x) ∨ ∃ g, x = '#' :: g) :
    splitScheme [] (l ++ x) = ((splitScheme [] l).1, (splitScheme [] l).2 ++ x) := by
  rcases hc : splitFirst ':' l with ⟨b, _ | a⟩
  · have hcol : ':' ∉ l := splitFirst_none_not_mem (by rw [hc])
    have happ := splitFirst_append_of_not_mem hcol x
    rcases hx with hx | ⟨g, rfl⟩
    · have hnm : ':' ∉ l ++ x := by
        intro hm
        rcases List.mem_append.mp hm with hm | hm
        · exact hcol hm
        · exact hx hm
      rw [splitScheme_of_none [] (splitFirst_of_not_mem hnm), splitScheme_of_none [] hc]
    · rcases hg : splitFirst ':' g with ⟨gb, _ | ga⟩
      · have hgn : ':' ∉ g := splitFirst_none_not_mem (by rw [hg])
        have hnm : ':' ∉ l ++ '#' :: g := by
          intro hm
          rcases List.mem_append.mp hm with hm | hm
          · exact hcol hm
          · rcases List.mem_cons.mp hm with hm | hm
            · exact absurd hm (by decide)
            · exact hgn hm
        rw [splitScheme_of_none [] (splitFirst_of_not_mem hnm), splitScheme_of_none [] hc]
      · have hsf : splitFirst ':' ('#' :: g) = ('#' :: gb, some ga) := by
          rw [splitFirst_cons, if_neg (by decide), hg]
        have hfull : splitFirst ':' (l ++ '#' :: g) = (l ++ '#' :: gb, some ga) := by
          rw [happ, hsf]
        have hinv : ¬(l ++ '#' :: gb ≠ [] ∧ ((l ++ '#' :: gb).headD ' ').isAlpha ∧
            (l ++ '#' :: gb).all schemeChar) := by
          intro hcond
          have hmem : '#' ∈ l ++ '#' :: gb :=
            List.mem_append.mpr (Or.inr (List.mem_cons_self _ _))
          have := List.all_eq_true.mp hcond.2.2 '#' hmem
          simp [schemeChar] at this
        rw [splitScheme_of_invalid [] hfull hinv, splitScheme_of_none [] hc]
  · have happ := splitFirst_append_of_mem hc x
    by_cases hvb : b ≠ [] ∧ (b.headD ' ').isAlpha ∧ b.all schemeChar
    · rw [splitScheme_of_valid [] happ hvb, splitScheme_of_valid [] hc hvb]
    · rw [splitScheme_of_invalid [] happ hvb, splitScheme_of_invalid [] hc hvb]

theorem splitNetloc_append_hash (s2 f : List Char) :
    splitNetloc (s2 ++ '#' :: f) = ((splitNetloc s2).1, (splitNetloc s2).2 ++ '#' :: f) := by
  rcases s2 with _ | ⟨a, _ | ⟨b, r⟩⟩
  · show splitNetloc ('#' :: f) = ((splitNetloc []).1, (splitNetloc []).2 ++ '#' :: f)
    rw [splitNetloc_fallback (l := '#' :: f) (fun rest h => by
      rw [List.cons.injEq] at h
      exact absurd h.1 (by decide))]
    rfl
  · show splitNetloc (a :: '#' :: f) = ((splitNetloc [a]).1, (splitNetloc [a]).2 ++ '#' :: f)
    rw [splitNetloc_fallback (l := a :: '#' :: f) (fun rest h => by
      rw [List.cons.injEq, List.cons.injEq] at h
      exact absurd h.2.1 (by decide))]
    rw [splitNetloc_fallback (l := [a]) (fun rest h => by simp at h)]
    rfl
  · by_cases hab : a = '/' ∧ b = '/'
    · obtain ⟨rfl, rfl⟩ := hab
      show splitNetloc ('/' :: '/' :: (r ++ '#' :: f)) = _
      have hbr := takeWhile_append_break (p := fun c => !netlocDelim c) r '#' f
        (by simp [netlocDelim])
      rw [show splitNetloc ('/' :: '/' :: (r ++ '#' :: f)) =
        ((r ++ '#' :: f).takeWhile (fun c => !netlocDelim c),
         (r ++ '#' :: f).dropWhile (fun c => !netlocDelim c)) from rfl]
      rw [show splitNetloc ('/' :: '/' :: r) =
        (r.takeWhile (fun c => !netlocDelim c),
         r.dropWhile (fun c => !netlocDelim c)) from rfl]
      rw [hbr.1, hbr.2]
    · show splitNetloc (a :: b :: (r ++ '#' :: f)) =
        ((splitNetloc (a :: b :: r)).1, (splitNetloc (a :: b :: r)).2 ++ '#' :: f)
      have hne : ∀ rest, (a :: b :: r ≠ '/' :: '/' :: rest) := by
        intro rest h
        rw [List.cons.injEq, List.cons.injEq] at h
        exact hab ⟨h.1, h.2.1⟩
      have hne2 : ∀ rest, (a :: b :: (r ++ '#' :: f) ≠ '/' :: '/' :: rest) := by
        intro rest h
        rw [List.cons.injEq, List.cons.injEq] at h
        exact hab ⟨h.1, h.2.1⟩
      rw [splitNetloc_fallback hne2, splitNetloc_fallback hne]
      rfl

theorem splitFragment_append_hash (snd f : List Char) :
    (splitFragment (snd ++ '#' :: f)).1 = (splitFragment snd).1 := by
  rcases hsf : splitFirst '#' snd with ⟨b, _ | a⟩
  · have hns : '#' ∉ snd := splitFirst_none_not_mem (by rw [hsf])
    have h2 : splitFirst '#' (snd ++ '#' :: f) = (snd, some f) := by
      rw [splitFirst_append_of_not_mem hns, splitFirst_cons, if_pos (by decide)]
      simp
    rw [splitFragment_of_some h2, splitFragment_of_none hsf]
  · have h2 := splitFirst_append_of_mem hsf ('#' :: f)
    rw [splitFragment_of_some h2, splitFragment_of_some hsf]

/-- Appending `#fragment` to any URL changes neither the scheme, netloc,
path nor query that `urlparse` reports. -/
theorem urlparse_append_hash (l f : List Char) :
    (urlparseChars [] (l ++ '#' :: f)).scheme = (urlparseChars [] l).scheme ∧
    (urlparseChars [] (l ++ '#' :: f)).netloc = (urlparseChars [] l).netloc ∧
    (urlparseChars [] (l ++ '#' :: f)).path = (urlparseChars [] l).path ∧
    (urlparseChars [] (l ++ '#' :: f)).query = (urlparseChars [] l).query := by
  have hsch := splitScheme_append l ('#' :: f) (Or.inr ⟨f, rfl⟩)
  have hnet := splitNetloc_append_hash (splitScheme [] l).2 f
  have hfrag := splitFragment_append_hash (splitNetloc (splitScheme [] l).2).2 f
  refine ⟨?_, ?_, ?_, ?_⟩
  · rw [urlparseChars_scheme, urlparseChars_scheme]
    simp only [hsch]
  · rw [urlparseChars_netloc, urlparseChars_netloc]
    simp only [hsch, hnet]
  · rw [urlparseChars_path, urlparseChars_path]
    simp only [hsch, hnet, hfrag]
  · rw [urlparseChars_query, urlparseChars_query]
    simp only [hsch, hnet, hfrag]

/-- Appending a fragment never changes the `normalize_url` key. -/
theorem normalize_url_fragment (u f : String) :
    normalize_url (u ++ "#" ++ f) = normalize_url u := by
  have hlist : (u ++ "#" ++ f).toList = u.toList ++ '#' :: f.toList := by
    show (u.toList ++ '#' :: List.nil) ++ f.toList = u.toList ++ '#' :: f.toList
    rw [List.append_assoc]
    rfl
  have hcomp := urlparse_append_hash u.toList f.toList
  rw [normalize_url_eq, normalize_url_eq, hlist]
  rw [hcomp.1, hcomp.2.1, hcomp.2.2.1, hcomp.2.2.2]

theorem splitScheme_snd_subset {x : Char} {dflt l : List Char}
    (h : x ∈ (splitScheme dflt l).2) : x ∈ l := by
  rcases hs : splitFirst ':' l with ⟨b, _ | a⟩
  · rw [splitScheme_of_none dflt hs] at h
    exact h
  · by_cases hv : b ≠ [] ∧ (b.headD ' ').isAlpha ∧ b.all schemeChar
    · rw [splitScheme_of_valid dflt hs hv] at h
      exact splitFirst_snd_subset (by rw [hs]) h
    · rw [splitScheme_of_invalid dflt hs hv] at h
      exact h

theorem splitNetloc_snd_subset {x : Char} {l : List Char}
    (h : x ∈ (splitNetloc l).2) : x ∈ l := by
  rcases splitNetloc_cases l with h1 | ⟨rest, hrest, h1⟩
  · rw [h1] at h
    exact h
  · rw [h1] at h
    have h2 := (List.dropWhile_sublist (l := rest) (fun c => !netlocDelim c)).subset h
    rw [hrest]
    exact List.mem_cons_of_mem _ (List.mem_cons_of_mem _ h2)

/-- Appending a single `/` to a URL with no `?` and no `;` and a nonempty
netloc preserves the scheme, netloc, stripped path and query of `urlparse`. -/
theorem urlparse_append_slash (l : List Char)
    (hq : '?' ∉ l) (hsemi : ';' ∉ l)
    (hn : (urlparseChars [] l).netloc ≠ []) :
    (urlparseChars [] (l ++ ['/'])).scheme = (urlparseChars [] l).scheme ∧
    (urlparseChars [] (l ++ ['/'])).netloc = (urlparseChars [] l).netloc ∧
    rstripSlash (urlparseChars [] (l ++ ['/'])).path =
      rstripSlash (urlparseChars [] l).path ∧
    (urlparseChars [] (l ++ ['/'])).query = (urlparseChars [] l).query := by
  have hsch := splitScheme_append l ['/'] (Or.inl (by decide))
  rw [urlparseChars_netloc] at hn
  rcases splitNetloc_cases (splitScheme [] l).2 with h1 | ⟨rest, hrest, h1⟩
  · rw [h1] at hn
    exact absurd rfl hn
  · have hnet : splitNetloc ((splitScheme [] l).2 ++ ['/']) =
        ((splitNetloc (splitScheme [] l).2).1,
         (splitNetloc (splitScheme [] l).2).2 ++ ['/']) := by
      rw [hrest]
      show splitNetloc ('/' :: '/' :: (rest ++ ['/'])) = _
      have hbr := takeWhile_append_break (p := fun c => !netlocDelim c) rest '/' []
        (by simp [netlocDelim])
      rw [show splitNetloc ('/' :: '/' :: (rest ++ ['/'])) =
        ((rest ++ ['/']).takeWhile (fun c => !netlocDelim c),
         (rest ++ ['/']).dropWhile (fun c => !netlocDelim c)) from rfl]
      rw [show splitNetloc ('/' :: '/' :: rest) =
        (rest.takeWhile (fun c => !netlocDelim c),
         rest.dropWhile (fun c => !netlocDelim c)) from rfl]
      rw [hbr.1, hbr.2]
    rcases hsf : splitFirst '#' (splitNetloc (splitScheme [] l).2).2 with ⟨b, _ | a⟩
    · have hns : '#' ∉ (splitNetloc (splitScheme [] l).2).2 :=
        splitFirst_none_not_mem (by rw [hsf])
      have hfrag : splitFragment ((splitNetloc (splitScheme [] l).2).2 ++ ['/']) =
          ((splitNetloc (splitScheme [] l).2).2 ++ ['/'], []) :=
        splitFragment_of_none (splitFirst_of_not_mem (by
          intro hm
          rcases List.mem_append.mp hm with hm | hm
          · exact hns hm
          · rcases List.mem_cons.mp hm with hm | hm
            · exact absurd hm (by decide)
            · simp at hm))
      have hfrag0 : splitFragment ((splitNetloc (splitScheme [] l).2).2) =
          ((splitNetloc (splitScheme [] l).2).2, []) :=
        splitFragment_of_none hsf
      have hq2 : '?' ∉ (splitNetloc (splitScheme [] l).2).2 := by
        intro hm
        exact hq (splitScheme_snd_subset (splitNetloc_snd_subset hm))
      have hquery : splitQuery ((splitNetloc (splitScheme [] l).2).2 ++ ['/']) =
          ((splitNetloc (splitScheme [] l).2).2 ++ ['/'], []) :=
        splitQuery_of_none (splitFirst_of_not_mem (by
          intro hm
          rcases List.mem_append.mp hm with hm | hm
          · exact hq2 hm
          · rcases List.mem_cons.mp hm with hm | hm
            · exact absurd hm (by decide)
            · simp at hm))
      have hquery0 : splitQuery ((splitNetloc (splitScheme [] l).2).2) =
          ((splitNetloc (splitScheme [] l).2).2, []) :=
        splitQuery_of_none (splitFirst_of_not_mem hq2)
      have hs2 : ';' ∉ (splitNetloc (splitScheme [] l).2).2 := by
        intro hm
        exact hsemi (splitScheme_snd_subset (splitNetloc_snd_subset hm))
      have hparams : splitParams ((splitNetloc (splitScheme [] l).2).2 ++ ['/']) =
          ((splitNetloc (splitScheme [] l).2).2 ++ ['/'], []) :=
        splitParams_of_not_mem (by
          intro hm
          rcases List.mem_append.mp hm with hm | hm
          · exact hs2 hm
          · rcases List.mem_cons.mp hm with hm | hm
            · exact absurd hm (by decide)
            · simp at hm)
      have hparams0 : splitParams ((splitNetloc (splitScheme [] l).2).2) =
          ((splitNetloc (splitScheme [] l).2).2, []) := splitParams_of_not_mem hs2
      refine ⟨?_, ?_, ?_, ?_⟩
      · rw [urlparseChars_scheme, urlparseChars_scheme]
        simp only [hsch]
      · rw [urlparseChars_netloc, urlparseChars_netloc]
        simp only [hsch, hnet]
      · rw [urlparseChars_path, urlparseChars_path]
        simp only [hsch, hnet, hfrag, hfrag0, hquery, hquery0, hparams, hparams0]
        exact rstripSlash_append_slash _
      · rw [urlparseChars_query, urlparseChars_query]
        simp only [hsch, hnet, hfrag, hfrag0, hquery, hquery0]
    · have h2 := splitFirst_append_of_mem hsf ['/']
      have hfrag : splitFragment ((splitNetloc (splitScheme [] l).2).2 ++ ['/']) =
          (b, a ++ ['/']) := splitFragment_of_some h2
      have hfrag0 : splitFragment ((splitNetloc (splitScheme [] l).2).2) = (b, a) :=
        splitFragment_of_some hsf
      refine ⟨?_, ?_, ?_, ?_⟩
      · rw [urlparseChars_scheme, urlparseChars_scheme]
        simp only [hsch]
      · rw [urlparseChars_netloc, urlparseChars_netloc]
        simp only [hsch, hnet]
      · rw [urlparseChars_path, urlparseChars_path]
        simp only [hsch, hnet, hfrag, hfrag0]
      · rw [urlparseChars_query, urlparseChars_query]
        simp only [hsch, hnet, hfrag, hfrag0]

/-- Appending a trailing slash to a query-free, semicolon-free URL with a
nonempty netloc never changes the `normalize_url` key. -/
theorem normalize_url_trailing_slash (u : String)
    (hq : '?' ∉ u.toList) (hsemi : ';' ∉ u.toList)
    (hn : (urlparseChars [] u.toList).netloc ≠ []) :
    normalize_url (u ++ "/") = normalize_url u := by
  have hlist : (u ++ "/").toList = u.toList ++ ['/'] := rfl
  have hcomp := urlparse_append_slash u.toList hq hsemi hn
  rw [normalize_url_eq, normalize_url_eq, hlist]
  rw [hcomp.1, hcomp.2.1, hcomp.2.2.1, hcomp.2.2.2]

/-- C10 (amended): the output of `normalize_url` never contains a `#` (so
no fragment survives); `normalize_url` is idempotent on every URL whose
parse has an `http` or `https` scheme, a nonempty netloc and a
semicolon-free path (it is not idempotent on scheme-less inputs such as
"a"); appending a fragment to any URL never changes the key; and appending
a trailing slash keeps the key for any query-free, semicolon-free URL with
a nonempty netloc. -/
theorem C10_normalize_url_canonical_key :
    (∀ u : String, '#' ∉ (normalize_url u).data) ∧
    (∀ u : String,
      ((urlparseChars [] u.toList).scheme = "http".toList ∨
       (urlparseChars [] u.toList).scheme = "https".toList) →
      (urlparseChars [] u.toList).netloc ≠ [] →
      ';' ∉ (urlparseChars [] u.toList).path →
      normalize_url (normalize_url u) = normalize_url u) ∧
    (∀ u f : String, normalize_url (u ++ "#" ++ f) = normalize_url u) ∧
    (∀ u : String, '?' ∉ u.toList → ';' ∉ u.toList →
      (urlparseChars [] u.toList).netloc ≠ [] →
      normalize_url (u ++ "/") = normalize_url u) :=
  ⟨normalize_url_no_hash, normalize_url_idem, normalize_url_fragment,
    normalize_url_trailing_slash⟩

/-- Witness: the amended C10 statement applied to concrete URLs. -/
theorem C10_normalize_url_canonical_key_witness :
    normalize_url (normalize_url "http://site.com/docs/") =
      normalize_url "http://site.com/docs/" ∧
    normalize_url ("http://site.com/docs" ++ "#" ++ "intro") =
      normalize_url "http://site.com/docs" ∧
    normalize_url ("http://site.com/docs" ++ "/") =
      normalize_url "http://site.com/docs" :=
  ⟨C10_normalize_url_canonical_key.2.1 "http://site.com/docs/"
      (Or.inl (by decide)) (by decide) (by decide),
    C10_normalize_url_canonical_key.2.2.1 "http://site.com/docs" "intro",
    C10_normalize_url_canonical_key.2.2.2 "http://site.com/docs"
      (by decide) (by decide) (by decide)⟩

theorem lookupPage_eq_none_iff {k : String} {l : List (String × PageRec)} :
    lookupPage k l = none ↔ ∀ e ∈ l, e.1 ≠ k := by
  induction l with
  | nil => simp [lookupPage]
  | cons e tl ih =>
    rw [lookupPage_cons]
    by_cases he : e.1 = k
    · simp [he]
    · simp [he, ih]

theorem lookupPage_isSome_iff {k : String} {l : List (String × PageRec)} :
    (lookupPage k l).isSome ↔ ∃ e ∈ l, e.1 = k := by
  induction l with
  | nil => simp [lookupPage]
  | cons e tl ih =>
    rw [lookupPage_cons]
    by_cases he : e.1 = k
    · simp [he]
    · simp [he, ih]

theorem updatePage_map_fst (k : String) (r : PageRec) (l : List (String × PageRec)) :
    (updatePage k r l).map Prod.fst = l.map Prod.fst := by
  induction l with
  | nil => rfl
  | cons e tl ih =>
    rw [updatePage_cons]
    by_cases he : e.1 = k
    · simp only [if_pos he, List.map_cons, ih]
      rw [he]
    · simp only [if_neg he, List.map_cons, ih]

theorem updatePage_not_mem {n : String} (r : PageRec) {l : List (String × PageRec)}
    (h : ∀ e ∈ l, e.1 ≠ n) : updatePage n r l = l := by
  induction l with
  | nil => rfl
  | cons e tl ih =>
    rw [updatePage_cons, if_neg (h e (List.mem_cons_self e tl)),
      ih (fun x hx => h x (List.mem_cons_of_mem e hx))]

theorem touchAll_cons (now2 : Nat) (vs : List String) (e : String × PageRec)
    (tl : List (String × PageRec)) :
    touchAll now2 vs (e :: tl) =
      (if e.1 ∈ vs then
        (e.1, { e.2 with last_seen := now2, not_seen_count := 0 }) else e)
        :: touchAll now2 vs tl := rfl

theorem touchAll_map_fst (now2 : Nat) (vs : List String)
    (l : List (String × PageRec)) :
    (touchAll now2 vs l).map Prod.fst = l.map Prod.fst := by
  induction l with
  | nil => rfl
  | cons e tl ih =>
    rw [touchAll_cons]
    by_cases hv : e.1 ∈ vs
    · simp only [if_pos hv, List.map_cons, ih]
    · simp only [if_neg hv, List.map_cons, ih]

theorem touchAll_nil_vs (now2 : Nat) (l : List (String × PageRec)) :
    touchAll now2 [] l = l := by
  induction l with
  | nil => rfl
  | cons e tl ih =>
    rw [touchAll_cons, if_neg (by simp), ih]

theorem touchAll_cons_not_key {n : String} (now2 : Nat) (vs : List String)
    {l : List (String × PageRec)} (h : ∀ e ∈ l, e.1 ≠ n) :
    touchAll now2 (n :: vs) l = touchAll now2 vs l := by
  induction l with
  | nil => rfl
  | cons e tl ih =>
    rw [touchAll_cons, touchAll_cons, ih (fun x hx => h x (List.mem_cons_of_mem e hx))]
    have hne := h e (List.mem_cons_self e tl)
    by_cases hv : e.1 ∈ vs
    · rw [if_pos hv, if_pos (List.mem_cons_of_mem n hv)]
    · rw [if_neg hv, if_neg (by simp [hne, hv])]

theorem lookupPage_touchAll (k : String) (now2 : Nat) (vs : List String)
    (l : List (String × PageRec)) :
    lookupPage k (touchAll now2 vs l) =
      (lookupPage k l).map (fun r =>
        if k ∈ vs then { r with last_seen := now2, not_seen_count := 0 } else r) := by
  induction l with
  | nil => simp [lookupPage, touchAll]
  | cons e tl ih =>
    rw [touchAll_cons]
    by_cases hv : e.1 ∈ vs <;> by_cases he : e.1 = k <;>
      simp [lookupPage_cons, hv, he, ih] <;> subst he <;> simp [hv]

theorem touchAll_full (now2 : Nat) (vs : List String)
    {l : List (String × PageRec)} (h : ∀ e ∈ l, e.1 ∈ vs) :
    touchAll now2 vs l =
      l.map (fun e => (e.1, { e.2 with last_seen := now2, not_seen_count := 0 })) := by
  induction l with
  | nil => rfl
  | cons e tl ih =>
    rw [touchAll_cons, if_pos (h e (List.mem_cons_self e tl)), List.map_cons,
      ih (fun x hx => h x (List.mem_cons_of_mem e hx))]

theorem updatePage_touchAll {n : String} {r : PageRec} (now2 : Nat) (vs : List String)
    {l : List (String × PageRec)}
    (hnd : (l.map Prod.fst).Nodup)
    (hl : lookupPage n l = some r) (hn : n ∉ vs) :
    updatePage n { r with last_seen := now2, not_seen_count := 0 } (touchAll now2 vs l) =
      touchAll now2 (n :: vs) l := by
  induction l with
  | nil => simp [lookupPage] at hl
  | cons e tl ih =>
    rw [List.map_cons, List.nodup_cons] at hnd
    rw [lookupPage_cons] at hl
    rw [touchAll_cons, touchAll_cons, updatePage_cons]
    by_cases he : e.1 = n
    · rw [if_pos he] at hl
      have hr : e.2 = r := by
        injection hl
      have htl : ∀ x ∈ tl, x.1 ≠ n := by
        intro x hx hc
        refine hnd.1 ?_
        have h2 : x.1 ∈ List.map Prod.fst tl := List.mem_map_of_mem Prod.fst hx
        rw [hc, ← he] at h2
        exact h2
      have htl2 : ∀ x ∈ touchAll now2 vs tl, x.1 ≠ n := by
        intro x hx hc
        have h2 : x.1 ∈ (touchAll now2 vs tl).map Prod.fst :=
          List.mem_map_of_mem Prod.fst hx
        rw [touchAll_map_fst] at h2
        rcases List.mem_map.mp h2 with ⟨z, hz, hzx⟩
        exact htl z hz (by rw [hzx, hc])
      rw [if_neg (fun hc : e.1 ∈ vs => hn (he ▸ hc)),
        if_pos he, if_pos (show e.1 ∈ n :: vs from he ▸ List.mem_cons_self n vs),
        updatePage_not_mem _ htl2,
        touchAll_cons_not_key now2 vs htl, he, hr]
    · rw [if_neg he] at hl
      have hhead : (if e.1 ∈ vs then
          (e.1, { e.2 with last_seen := now2, not_seen_count := 0 }) else e).1 = e.1 := by
        by_cases hv : e.1 ∈ vs
        · rw [if_pos hv]
        · rw [if_neg hv]
      have hcond : ¬ ((if e.1 ∈ vs then
          (e.1, { e.2 with last_seen := now2, not_seen_count := 0 }) else e).1 = n) := by
        rw [hhead]
        exact he
      rw [if_neg hcond, ih hnd.2 hl]
      by_cases hv : e.1 ∈ vs
      · rw [if_pos hv, if_pos (List.mem_cons_of_mem n hv)]
      · rw [if_neg hv, if_neg (by simp [he, hv])]

theorem RunInv_step (st : Settings) (site : Site) (hashFn : String → String)
    (now : Nat) (s : CrawlState) (h : RunInv site s) :
    RunInv site (crawlStep st site hashFn now s) := by
  obtain ⟨h1, h2, h3, h4, h5, h6⟩ := h
  rcases crawlStep_characterization st site hashFn now s with ⟨_, hs⟩ |
    ⟨u, d, rest, hq, ⟨_, hs⟩ | ⟨hnv, hd,
      ⟨page, hl, h304, hs⟩ | ⟨page, hl, h304d, hval, hs⟩ |
      ⟨hor, hf, hs⟩ | ⟨page, pd, hl, h304d, hval, hf, hs⟩ | ⟨pd, hl, hf, hs⟩⟩⟩
  · rw [hs]
    exact ⟨h1, h2, h3, h4, h5, h6⟩
  · rw [hs]
    exact ⟨h1, h2, h3, h4, h5, h6⟩
  · rw [hs]
    refine ⟨?_, ?_, ?_, ?_, ?_, ?_⟩
    · intro k hk
      by_cases hkn : k = normalize_url u
      · exact hkn ▸ List.mem_cons_self _ _
      · rw [lookupPage_updatePage_ne _ hkn] at hk
        exact List.mem_cons_of_mem _ (h1 k hk)
    · intro e he
      rcases updatePage_mem he with he2 | ⟨hek, her⟩
      · exact h2 e he2
      · have hpm := h2 (normalize_url u, page) (lookupPage_mem hl)
        refine ⟨?_, ?_, ?_⟩
        · rcases hpm.1 with ⟨pd0, hpd0, hlinks⟩
          exact ⟨pd0, by rw [hek]; exact hpd0, by rw [her]; exact hlinks⟩
        · rw [her]
        · rw [her, hek]
          exact hpm.2.2
    · show ((updatePage _ _ s.existing).map Prod.fst).Nodup
      rw [updatePage_map_fst]
      exact h3
    · show normalize_url u :: s.seen = normalize_url u :: s.visited
      rw [h4]
    · show (updatePage _ _ s.existing).length ≤ s.pagesFetched
      unfold updatePage
      rw [List.length_map]
      exact h5
    · intro k hk hf2
      rcases List.mem_cons.mp hk with rfl | hk2
      · exact lookupPage_updatePage_isSome (by rw [hl]; rfl)
      · exact lookupPage_updatePage_isSome (h6 k hk2 hf2)
  · rw [hs]
    refine ⟨?_, h2, h3, ?_, h5, ?_⟩
    · intro k hk
      exact List.mem_cons_of_mem _ (h1 k hk)
    · show normalize_url u :: s.seen = normalize_url u :: s.visited
      rw [h4]
    · intro k hk hf2
      rcases List.mem_cons.mp hk with rfl | hk2
      · rw [hl]
        rfl
      · exact h6 k hk2 hf2
  · rw [hs]
    refine ⟨?_, h2, h3, ?_, h5, ?_⟩
    · intro k hk
      exact List.mem_cons_of_mem _ (h1 k hk)
    · show normalize_url u :: s.seen = normalize_url u :: s.visited
      rw [h4]
    · intro k hk hf2
      rcases List.mem_cons.mp hk with rfl | hk2
      · exact absurd hf hf2
      · exact h6 k hk2 hf2
  · rw [hs]
    refine ⟨?_, ?_, ?_, ?_, ?_, ?_⟩
    · intro k hk
      by_cases hkn : k = normalize_url u
      · exact hkn ▸ List.mem_cons_self _ _
      · rw [lookupPage_updatePage_ne _ hkn] at hk
        exact List.mem_cons_of_mem _ (h1 k hk)
    · intro e he
      rcases updatePage_mem he with he2 | ⟨hek, her⟩
      · exact h2 e he2
      · refine ⟨⟨pd, by rw [hek]; exact hf, by rw [her]; rfl⟩, by rw [her]; rfl, ?_⟩
        rw [her, hek]
        exact (h2 (normalize_url u, page) (lookupPage_mem hl)).2.2
    · show ((updatePage _ _ s.existing).map Prod.fst).Nodup
      rw [updatePage_map_fst]
      exact h3
    · show normalize_url u :: s.seen = normalize_url u :: s.visited
      rw [h4]
    · show (updatePage _ _ s.existing).length ≤ s.pagesFetched + 1
      unfold updatePage
      rw [List.length_map]
      exact Nat.le_succ_of_le h5
    · intro k hk hf2
      rcases List.mem_cons.mp hk with rfl | hk2
      · exact lookupPage_updatePage_isSome (by rw [hl]; rfl)
      · exact lookupPage_updatePage_isSome (h6 k hk2 hf2)
  · rw [hs]
    refine ⟨?_, ?_, ?_, ?_, ?_, ?_⟩
    · intro k hk
      by_cases hkn : k = normalize_url u
      · exact hkn ▸ List.mem_cons_self _ _
      · rcases hlk : lookupPage k s.existing with _ | p
        · rw [lookupPage_append_right _ hlk] at hk
          rw [lookupPage_cons] at hk
          rw [if_neg (fun hc : (normalize_url u) = k => hkn hc.symm)] at hk
          simp [lookupPage] at hk
        · exact List.mem_cons_of_mem _ (h1 k (by rw [hlk]; rfl))
    · intro e he
      rcases List.mem_append.mp he with he2 | he2
      · exact h2 e he2
      · have he3 : e = (normalize_url u, newRecord (normalize_url u) d hashFn pd now) := by
          simpa using he2
        rw [he3]
        exact ⟨⟨pd, hf, rfl⟩, rfl, rfl⟩
    · show ((s.existing ++ _).map Prod.fst).Nodup
      rw [List.map_append]
      refine List.Nodup.append h3 (by simp) ?_
      intro x hx hxn
      have hxn2 : x = normalize_url u := by
        simpa using hxn
      subst hxn2
      rcases List.mem_map.mp hx with ⟨e, he, hef⟩
      have : (lookupPage (normalize_url u) s.existing).isSome :=
        lookupPage_isSome_iff.mpr ⟨e, he, hef⟩
      rw [hl] at this
      simp at this
    · show normalize_url u :: s.seen = normalize_url u :: s.visited
      rw [h4]
    · show (s.existing ++ _).length ≤ s.pagesFetched + 1
      rw [List.length_append]
      exact Nat.add_le_add_right h5 1
    · intro k hk hf2
      rcases List.mem_cons.mp hk with rfl | hk2
      · rw [lookupPage_append_right _ hl]
        simp [lookupPage_cons]
      · exact lookupPage_append_isSome (h6 k hk2 hf2)

theorem RunInv_loop (st : Settings) (site : Site) (hashFn : String → String)
    (now : Nat) : ∀ (fuel : Nat) (s : CrawlState), RunInv site s →
    RunInv site (crawlLoop st site hashFn now fuel s) := by
  intro fuel
  induction fuel with
  | zero =>
    intro s h
    exact h
  | succ f ih =>
    intro s h
    by_cases hstop : s.queue = [] ∨ st.MAX_PAGES ≤ s.pagesFetched
    · rw [crawlLoop_done st site hashFn now (f + 1) s hstop]
      exact h
    · rw [crawlLoop_succ st site hashFn now f s hstop]
      exact ih _ (RunInv_step st site hashFn now s h)

theorem crawlLoop_visited_mono (st : Settings) (site : Site) (hashFn : String → String)
    (now : Nat) : ∀ (fuel : Nat) (s : CrawlState) (x : String), x ∈ s.visited →
    x ∈ (crawlLoop st site hashFn now fuel s).visited := by
  intro fuel
  induction fuel with
  | zero =>
    intro s x h
    exact h
  | succ f ih =>
    intro s x h
    by_cases hstop : s.queue = [] ∨ st.MAX_PAGES ≤ s.pagesFetched
    · rw [crawlLoop_done st site hashFn now (f + 1) s hstop]
      exact h
    · rw [crawlLoop_succ st site hashFn now f s hstop]
      exact ih _ x (crawlStep_visited_sub st site hashFn now s x h)

theorem crawlLoop_budget_le (st : Settings) (site : Site) (hashFn : String → String)
    (now : Nat) : ∀ (fuel : Nat) (s : CrawlState),
    s.pagesFetched ≤ st.MAX_PAGES →
    (crawlLoop st site hashFn now fuel s).pagesFetched ≤ st.MAX_PAGES := by
  intro fuel
  induction fuel with
  | zero =>
    intro s h
    exact h
  | succ f ih =>
    intro s h
    by_cases hstop : s.queue = [] ∨ st.MAX_PAGES ≤ s.pagesFetched
    · rw [crawlLoop_done st site hashFn now (f + 1) s hstop]
      exact h
    · rw [crawlLoop_succ st site hashFn now f s hstop]
      have hlt : s.pagesFetched < st.MAX_PAGES := by
        rcases Nat.lt_or_ge s.pagesFetched st.MAX_PAGES with h2 | h2
        · exact h2
        · exact absurd (Or.inr h2) hstop
      exact ih _ (Nat.le_trans (crawlStep_budget st site hashFn now s).2 hlt)

theorem mirrorState_queue (now2 : Nat) (DB1 : List (String × PageRec))
    (tr : List String) (s : CrawlState) :
    (mirrorState now2 DB1 tr s).queue = s.queue := rfl

theorem mirrorState_visited (now2 : Nat) (DB1 : List (String × PageRec))
    (tr : List String) (s : CrawlState) :
    (mirrorState now2 DB1 tr s).visited = s.visited := rfl

theorem mirrorState_seen (now2 : Nat) (DB1 : List (String × PageRec))
    (tr : List String) (s : CrawlState) :
    (mirrorState now2 DB1 tr s).seen = s.seen := rfl

theorem mirrorState_existing (now2 : Nat) (DB1 : List (String × PageRec))
    (tr : List String) (s : CrawlState) :
    (mirrorState now2 DB1 tr s).existing = touchAll now2 s.visited DB1 := rfl

theorem mirrorState_pagesFetched (now2 : Nat) (DB1 : List (String × PageRec))
    (tr : List String) (s : CrawlState) :
    (mirrorState now2 DB1 tr s).pagesFetched = 0 := rfl

theorem mirrorState_fetchTrace (now2 : Nat) (DB1 : List (String × PageRec))
    (tr : List String) (s : CrawlState) :
    (mirrorState now2 DB1 tr s).fetchTrace = tr := rfl

/-- One mirrored iteration: with every HEAD probe answering 304, a run-two
step over the final run-one database mirrors the corresponding run-one step
exactly (same frontier, visited and seen evolution, no fetch counted, and
the touched database). -/
theorem crawlStep_mirror (st : Settings) (site : Site) (hashFn : String → String)
    (now1 now2 : Nat) (DB1 : List (String × PageRec)) (VF : List String)
    (tr : List String) (s1 : CrawlState)
    (H304 : ∀ u e lm, (check_url_with_head site u e lm).status = HeadStatus.notModified)
    (HA1 : ∀ k r, lookupPage k DB1 = some r →
      ∃ pd, site.fetch k = some pd ∧ r.links = pd.links)
    (HDB : ∀ k, k ∈ VF → site.fetch k ≠ none → (lookupPage k DB1).isSome)
    (HND : (DB1.map Prod.fst).Nodup)
    (HI2 : ∀ k, (lookupPage k s1.existing).isSome → k ∈ s1.visited)
    (HVn : ∀ k, k ∈ (crawlStep st site hashFn now1 s1).visited → k ∈ VF) :
    ∃ tr2, crawlStep st site hashFn now2 (mirrorState now2 DB1 tr s1) =
      mirrorState now2 DB1 tr2 (crawlStep st site hashFn now1 s1) := by
  rcases crawlStep_characterization st site hashFn now1 s1 with ⟨hq0, hs⟩ |
    ⟨u, d, rest, hq, ⟨hskip, hs⟩ | ⟨hnv, hd,
      ⟨page, hl, h304, hs⟩ | ⟨page, hl, h304d, hval, hs⟩ |
      ⟨hor, hf, hs⟩ | ⟨page, pd, hl, h304d, hval, hf, hs⟩ | ⟨pd, hl, hf, hs⟩⟩⟩
  · refine ⟨tr, ?_⟩
    rw [hs]
    unfold crawlStep
    rw [mirrorState_queue, hq0]
  · refine ⟨tr, ?_⟩
    rw [hs]
    unfold crawlStep
    simp only [mirrorState_queue, mirrorState_visited, hq, if_pos hskip]
    rfl
  · exact absurd (HI2 _ (by rw [hl]; rfl)) hnv
  · exact absurd (HI2 _ (by rw [hl]; rfl)) hnv
  · rcases hor with hl | ⟨page, hl, _, _⟩
    · have hskipneg : ¬(normalize_url u ∈ s1.visited ∨ st.MAX_DEPTH < d) := by
        intro hc
        rcases hc with hc | hc
        · exact hnv hc
        · exact (Nat.not_le.mpr hc) hd
      have hnone : lookupPage (normalize_url u) DB1 = none := by
        rcases hlk : lookupPage (normalize_url u) DB1 with _ | r
        · rfl
        · rcases HA1 _ r hlk with ⟨pd0, hpd0, _⟩
          rw [hf] at hpd0
          cases hpd0
      have hml : lookupPage (normalize_url u) (touchAll now2 s1.visited DB1) = none := by
        rw [lookupPage_touchAll, hnone]
        rfl
      have hnk : touchAll now2 (normalize_url u :: s1.visited) DB1 =
          touchAll now2 s1.visited DB1 :=
        touchAll_cons_not_key now2 _ (lookupPage_eq_none_iff.mp hnone)
      refine ⟨tr ++ [normalize_url u], ?_⟩
      rw [hs]
      unfold crawlStep fetchPhase
      simp only [mirrorState_queue, mirrorState_visited, mirrorState_existing,
        mirrorState_seen, mirrorState_fetchTrace, hq, if_neg hskipneg, hml, hf]
      simp only [mirrorState, hnk]
    · exact absurd (HI2 _ (by rw [hl]; rfl)) hnv
  · exact absurd (HI2 _ (by rw [hl]; rfl)) hnv
  · have hskipneg : ¬(normalize_url u ∈ s1.visited ∨ st.MAX_DEPTH < d) := by
      intro hc
      rcases hc with hc | hc
      · exact hnv hc
      · exact (Nat.not_le.mpr hc) hd
    have hVF : normalize_url u ∈ VF :=
      HVn _ (by rw [hs]; exact List.mem_cons_self _ _)
    have hsome : (lookupPage (normalize_url u) DB1).isSome :=
      HDB _ hVF (by rw [hf]; exact fun hc => Option.noConfusion hc)
    obtain ⟨r, hr⟩ : ∃ r, lookupPage (normalize_url u) DB1 = some r := by
      rcases hlk : lookupPage (normalize_url u) DB1 with _ | r
      · rw [hlk] at hsome
        simp at hsome
      · exact ⟨r, rfl⟩
    rcases HA1 _ r hr with ⟨pd0, hpd0, hlinks⟩
    rw [hf] at hpd0
    injection hpd0 with hpd
    have hml : lookupPage (normalize_url u) (touchAll now2 s1.visited DB1) = some r := by
      rw [lookupPage_touchAll, hr]
      simp [hnv]
    have hhc := H304 (normalize_url u) r.etag r.last_modified
    have hupd := updatePage_touchAll now2 s1.visited HND hr hnv
    refine ⟨tr, ?_⟩
    rw [hs]
    unfold crawlStep
    simp only [mirrorState_queue, mirrorState_visited, mirrorState_existing,
      mirrorState_seen, mirrorState_fetchTrace, hq, if_neg hskipneg, hml,
      if_pos hhc, enqueueLinks_eq]
    simp only [mirrorState]
    rw [hupd]
    simp only [hlinks, ← hpd]

/-- The mirrored loop: a full run-two pass over the final run-one database,
with all probes answering 304, replays the run-one traversal exactly. -/
theorem crawlLoop_mirror (st : Settings) (site : Site) (hashFn : String → String)
    (now1 now2 : Nat) (DB1 : List (String × PageRec)) (VF : List String)
    (H304 : ∀ u e lm, (check_url_with_head site u e lm).status = HeadStatus.notModified)
    (HA1 : ∀ k r, lookupPage k DB1 = some r →
      ∃ pd, site.fetch k = some pd ∧ r.links = pd.links)
    (HDB : ∀ k, k ∈ VF → site.fetch k ≠ none → (lookupPage k DB1).isSome)
    (HND : (DB1.map Prod.fst).Nodup) :
    ∀ (fuel : Nat) (s1 : CrawlState) (tr : List String),
    RunInv site s1 →
    (∀ k, k ∈ (crawlLoop st site hashFn now1 fuel s1).visited → k ∈ VF) →
    (crawlLoop st site hashFn now1 fuel s1).queue = [] →
    ∃ tr2, crawlLoop st site hashFn now2 fuel (mirrorState now2 DB1 tr s1) =
      mirrorState now2 DB1 tr2 (crawlLoop st site hashFn now1 fuel s1) := by
  intro fuel
  induction fuel with
  | zero =>
    intro s1 tr _ _ _
    exact ⟨tr, rfl⟩
  | succ f ih =>
    intro s1 tr hInv hVF hqf
    by_cases hq0 : s1.queue = []
    · rw [crawlLoop_done _ _ _ _ _ _ (Or.inl hq0)]
      rw [crawlLoop_done _ _ _ _ _ _ (Or.inl (by rw [mirrorState_queue]; exact hq0))]
      exact ⟨tr, rfl⟩
    · by_cases hb : st.MAX_PAGES ≤ s1.pagesFetched
      · rw [crawlLoop_done _ _ _ _ _ _ (Or.inr hb)] at hqf
        exact absurd hqf hq0
      · have hstop1 : ¬(s1.queue = [] ∨ st.MAX_PAGES ≤ s1.pagesFetched) := by
          intro hc
          rcases hc with hc | hc
          · exact hq0 hc
          · exact hb hc
        have hstop2 : ¬((mirrorState now2 DB1 tr s1).queue = [] ∨
            st.MAX_PAGES ≤ (mirrorState now2 DB1 tr s1).pagesFetched) := by
          intro hc
          rcases hc with hc | hc
          · rw [mirrorState_queue] at hc
            exact hq0 hc
          · rw [mirrorState_pagesFetched] at hc
            exact hb (Nat.le_trans hc (Nat.zero_le _))
        rw [crawlLoop_succ _ _ _ _ _ _ hstop1] at hqf hVF ⊢
        rw [crawlLoop_succ _ _ _ _ _ _ hstop2]
        obtain ⟨trm, hstep⟩ := crawlStep_mirror st site hashFn now1 now2 DB1 VF tr s1
          H304 HA1 HDB HND hInv.1 (fun k hk =>
            hVF k (crawlLoop_visited_mono st site hashFn now1 f _ k hk))
        rw [hstep]
        exact ih (crawlStep st site hashFn now1 s1) trm
          (RunInv_step st site hashFn now1 s1 hInv) hVF hqf

theorem incrementNotSeen_id {seen : List String} {l : List (String × PageRec)}
    (h : ∀ e ∈ l, e.1 ∈ seen) : incrementNotSeen seen l = l := by
  induction l with
  | nil => rfl
  | cons e tl ih =>
    show (if e.1 ∈ seen then e else _) :: incrementNotSeen seen tl = e :: tl
    rw [if_pos (h e (List.mem_cons_self e tl)),
      ih (fun x hx => h x (List.mem_cons_of_mem e hx))]

theorem evictExpired_id {grace : Nat} {l : List (String × PageRec)}
    (h : ∀ e ∈ l, e.2.not_seen_count < grace) : evictExpired grace l = l := by
  unfold evictExpired
  exact List.filter_eq_self.mpr (fun e he => by simpa using h e he)

theorem prunePages_id {maxPages : Nat} {l : List (String × PageRec)}
    (h : l.length ≤ maxPages) : prunePages maxPages l = l := by
  unfold prunePages
  rw [if_pos h]

theorem joinLines_cons_ne (a : String) (l : List String) (ha : a.data ≠ []) :
    joinLines (a :: l) ≠ "" := by
  cases l with
  | nil =>
    show a ≠ ""
    intro hc
    exact ha (congrArg String.data hc)
  | cons b bs =>
    show a ++ "\n" ++ joinLines (b :: bs) ≠ ""
    intro hc
    have h2 := congrArg String.data hc
    rw [show (a ++ "\n" ++ joinLines (b :: bs)).data
        = (a.data ++ '\n' :: []) ++ (joinLines (b :: bs)).data from rfl,
      show ("" : String).data = [] from rfl] at h2
    rcases List.append_eq_nil.mp h2 with ⟨h3, _⟩
    rcases List.append_eq_nil.mp h3 with ⟨h4, _⟩
    exact ha h4

theorem generate_llms_txt_ne_empty (root : PageRec) (rest : List PageRec)
    (root_url : String) : generate_llms_txt (root :: rest) root_url ≠ "" := by
  have heq : generate_llms_txt (root :: rest) root_url =
      joinLines (("# " ++ (if root.page_title = "" then root_url else root.page_title)
          ++ "\n") ::
        ((if root.page_description ≠ "" then ["> " ++ root.page_description ++ "\n"]
          else []) ++ sectionLines rest)) := rfl
  rw [heq]
  refine joinLines_cons_ne _ _ ?_
  simp

theorem dictEq_of_perm {a b : List (String × String)} (h : List.Perm a b) :
    dictEq a b = true := by
  unfold dictEq
  rw [Bool.and_eq_true, List.all_eq_true, List.all_eq_true]
  constructor
  · intro e he
    simpa using h.subset he
  · intro e he
    simpa using h.symm.subset he

theorem touched_record_eq {r : PageRec} (h : r.not_seen_count = 0) (n : Nat) :
    ({ r with last_seen := n, not_seen_count := 0 } : PageRec) =
      { r with last_seen := n } := by
  cases r
  dsimp at h
  subst h
  rfl

theorem rekey_map_id {l : List (String × PageRec)}
    (h : ∀ e ∈ l, normalize_url e.2.url = e.1) :
    (l.map Prod.snd).map (fun p => (normalize_url p.url, p)) = l := by
  induction l with
  | nil => rfl
  | cons e tl ih =>
    show (normalize_url e.2.url, e.2) :: _ = e :: tl
    rw [h e (List.mem_cons_self e tl), ih (fun x hx => h x (List.mem_cons_of_mem e hx))]

theorem crawl_url_job_spec (st : Settings) (site : Site) (hashFn : String → String)
    (now fuel : Nat) (job : JobState) (rootUrl : String) (pages0 : List PageRec)
    (s : CrawlState) (survivors : List (String × PageRec)) (finalPages : List PageRec)
    (hs : s = crawlLoop st site hashFn now fuel
      { existing := pages0.map (fun p => (normalize_url p.url, p)), seen := [],
        visited := [], queue := [(normalize_url rootUrl, 0)], pagesFetched := 0,
        fetchTrace := [] })
    (hsv : survivors = prunePages st.MAX_PAGES (evictExpired st.GRACE_PERIOD_CRAWLS
      (incrementNotSeen s.seen s.existing)))
    (hfp : finalPages = sortByScoreDesc (survivors.map Prod.snd)) :
    crawl_url_job st site hashFn now fuel job rootUrl pages0 =
      (if finalPages.isEmpty then
        { job := { job with status := "error" }, pages := survivors,
          finalPages := finalPages, regenerated := false, loopState := s }
      else
        if (if job.last_monitored then
              !dictEq ((pages0.map (fun p => (normalize_url p.url, p))).map
                  (fun e => (e.1, e.2.content_hash)))
                (finalPages.map (fun p => (normalize_url p.url, p.content_hash)))
            else true) ||
            (match job.llm_text_content with | none => true | some t => t = "") then
          { job :=
              { job with
                llm_text_content := some (generate_llms_txt finalPages rootUrl),
                content_hash := some (hashFn (generate_llms_txt finalPages rootUrl)),
                status := "completed" },
            pages := survivors, finalPages := finalPages, regenerated := true,
            loopState := s }
        else
          { job := { job with status := "completed" }, pages := survivors,
            finalPages := finalPages, regenerated := false, loopState := s }) := by
  subst hs
  subst hsv
  subst hfp
  rfl

theorem llmFalsy_iff (o : Option String) :
    ((match o with | none => true | some t => t = "" : Bool) = true) ↔
      o.getD "" = "" := by
  cases o
  · simp
  · simp

theorem initStates_map (pages0 : List PageRec) :
    (pages0.map (fun p => (normalize_url p.url, p))).map
        (fun e => (e.1, e.2.content_hash)) =
      pages0.map (fun p => (normalize_url p.url, p.content_hash)) := by
  rw [List.map_map]
  rfl

/-- The exact regeneration condition of `crawl_url_job`: the manifest is
rebuilt iff some page survived and (`last_monitored` is unset, or the
initial and final digest dictionaries differ, or the stored manifest text is
falsy). -/
theorem crawl_url_job_regen_iff (st : Settings) (site : Site) (hashFn : String → String)
    (now fuel : Nat) (job : JobState) (rootUrl : String) (pages0 : List PageRec) :
    (crawl_url_job st site hashFn now fuel job rootUrl pages0).regenerated = true ↔
    ((crawl_url_job st site hashFn now fuel job rootUrl pages0).finalPages ≠ [] ∧
      (job.last_monitored = false ∨
       dictEq (pages0.map (fun p => (normalize_url p.url, p.content_hash)))
         ((crawl_url_job st site hashFn now fuel job rootUrl pages0).finalPages.map
           (fun p => (normalize_url p.url, p.content_hash))) = false ∨
       job.llm_text_content.getD "" = "")) := by
  rw [crawl_url_job_spec st site hashFn now fuel job rootUrl pages0 _ _ _ rfl rfl rfl,
    initStates_map]
  by_cases hemp : (sortByScoreDesc ((prunePages st.MAX_PAGES
      (evictExpired st.GRACE_PERIOD_CRAWLS (incrementNotSeen
        (crawlLoop st site hashFn now fuel
          { existing := pages0.map (fun p => (normalize_url p.url, p)), seen := [],
            visited := [], queue := [(normalize_url rootUrl, 0)], pagesFetched := 0,
            fetchTrace := [] }).seen
        (crawlLoop st site hashFn now fuel
          { existing := pages0.map (fun p => (normalize_url p.url, p)), seen := [],
            visited := [], queue := [(normalize_url rootUrl, 0)], pagesFetched := 0,
            fetchTrace := [] }).existing))).map Prod.snd)).isEmpty = true
  · rw [if_pos hemp]
    have hnil := List.isEmpty_iff.mp hemp
    simp [hnil]
  · rw [if_neg hemp]
    have hne : sortByScoreDesc ((prunePages st.MAX_PAGES
        (evictExpired st.GRACE_PERIOD_CRAWLS (incrementNotSeen
          (crawlLoop st site hashFn now fuel
            { existing := pages0.map (fun p => (normalize_url p.url, p)), seen := [],
              visited := [], queue := [(normalize_url rootUrl, 0)], pagesFetched := 0,
              fetchTrace := [] }).seen
          (crawlLoop st site hashFn now fuel
            { existing := pages0.map (fun p => (normalize_url p.url, p)), seen := [],
              visited := [], queue := [(normalize_url rootUrl, 0)], pagesFetched := 0,
              fetchTrace := [] }).existing))).map Prod.snd) ≠ [] := by
      intro hc
      rw [hc] at hemp
      exact hemp rfl
    by_cases hcond : ((if job.last_monitored then
        !dictEq (pages0.map (fun p => (normalize_url p.url, p.content_hash)))
          ((sortByScoreDesc ((prunePages st.MAX_PAGES
            (evictExpired st.GRACE_PERIOD_CRAWLS (incrementNotSeen
              (crawlLoop st site hashFn now fuel
                { existing := pages0.map (fun p => (normalize_url p.url, p)), seen := [],
                  visited := [], queue := [(normalize_url rootUrl, 0)], pagesFetched := 0,
                  fetchTrace := [] }).seen
              (crawlLoop st site hashFn now fuel
                { existing := pages0.map (fun p => (normalize_url p.url, p)), seen := [],
                  visited := [], queue := [(normalize_url rootUrl, 0)], pagesFetched := 0,
                  fetchTrace := [] }).existing))).map Prod.snd)).map
            (fun p => (normalize_url p.url, p.content_hash)))
      else true) ||
        (match job.llm_text_content with | none => true | some t => t = "")) = true
    · rw [if_pos hcond]
      refine ⟨fun _ => ⟨hne, ?_⟩, fun _ => rfl⟩
      have hcond2 := hcond
      rw [Bool.or_eq_true] at hcond2
      rcases hcond2 with hc1 | hc2
      · rcases hlm : job.last_monitored with _ | _
        · exact Or.inl rfl
        · rw [hlm, if_pos rfl] at hc1
          refine Or.inr (Or.inl ?_)
          rcases Bool.eq_false_or_eq_true (dictEq
            (pages0.map (fun p => (normalize_url p.url, p.content_hash))) _) with h0 | h0
          · rw [h0] at hc1
            simp at hc1
          · exact h0
      · exact Or.inr (Or.inr ((llmFalsy_iff job.llm_text_content).mp hc2))
    · rw [if_neg hcond]
      constructor
      · intro hc
        cases hc
      · intro hd
        refine absurd ?_ hcond
        rcases hd.2 with hlm | hdq | hllm
        · rw [Bool.or_eq_true]
          refine Or.inl ?_
          rw [hlm]
          rfl
        · rw [Bool.or_eq_true]
          refine Or.inl ?_
          rcases hlm : job.last_monitored with _ | _
          · rfl
          · rw [if_pos rfl, hdq]
            rfl
        · rw [Bool.or_eq_true]
          exact Or.inr ((llmFalsy_iff job.llm_text_content).mpr hllm)

theorem crawl_url_job_loopState (st : Settings) (site : Site) (hashFn : String → String)
    (now fuel : Nat) (job : JobState) (rootUrl : String) (pages0 : List PageRec) :
    (crawl_url_job st site hashFn now fuel job rootUrl pages0).loopState =
      crawlLoop st site hashFn now fuel
        { existing := pages0.map (fun p => (normalize_url p.url, p)), seen := [],
          visited := [], queue := [(normalize_url rootUrl, 0)], pagesFetched := 0,
          fetchTrace := [] } := by
  rw [crawl_url_job_spec st site hashFn now fuel job rootUrl pages0 _ _ _ rfl rfl rfl,
    apply_ite CrawlOutcome.loopState, apply_ite CrawlOutcome.loopState]
  dsimp only
  rw [ite_self, ite_self]

theorem crawl_url_job_pages (st : Settings) (site : Site) (hashFn : String → String)
    (now fuel : Nat) (job : JobState) (rootUrl : String) (pages0 : List PageRec) :
    (crawl_url_job st site hashFn now fuel job rootUrl pages0).pages =
      prunePages st.MAX_PAGES (evictExpired st.GRACE_PERIOD_CRAWLS
        (incrementNotSeen
          (crawl_url_job st site hashFn now fuel job rootUrl pages0).loopState.seen
          (crawl_url_job st site hashFn now fuel job rootUrl pages0).loopState.existing)) := by
  rw [crawl_url_job_loopState,
    crawl_url_job_spec st site hashFn now fuel job rootUrl pages0 _ _ _ rfl rfl rfl,
    apply_ite CrawlOutcome.pages, apply_ite CrawlOutcome.pages]
  dsimp only
  rw [ite_self, ite_self]

theorem crawl_url_job_finalPages (st : Settings) (site : Site) (hashFn : String → String)
    (now fuel : Nat) (job : JobState) (rootUrl : String) (pages0 : List PageRec) :
    (crawl_url_job st site hashFn now fuel job rootUrl pages0).finalPages =
      sortByScoreDesc
        (((crawl_url_job st site hashFn now fuel job rootUrl pages0).pages).map
          Prod.snd) := by
  rw [crawl_url_job_pages st site hashFn now fuel job rootUrl pages0,
    crawl_url_job_loopState,
    crawl_url_job_spec st site hashFn now fuel job rootUrl pages0 _ _ _ rfl rfl rfl,
    apply_ite CrawlOutcome.finalPages, apply_ite CrawlOutcome.finalPages]
  dsimp only
  rw [ite_self, ite_self]

theorem crawl_twice_stable (st : Settings) (site : Site) (hashFn : String → String)
    (now1 now2 fuel : Nat) (job : JobState) (rootUrl : String)
    (H304 : ∀ u e lm, (check_url_with_head site u e lm).status = HeadStatus.notModified)
    (Hgrace : 1 ≤ st.GRACE_PERIOD_CRAWLS)
    (Hq : (crawl_url_job st site hashFn now1 fuel job rootUrl []).loopState.queue = [])
    (Hfin : (crawl_url_job st site hashFn now1 fuel job rootUrl []).finalPages ≠ [])
    (Hidem : ∀ e ∈ (crawl_url_job st site hashFn now1 fuel job rootUrl []).pages,
      normalize_url e.1 = e.1) :
    (crawl_url_job st site hashFn now2 fuel
        { (crawl_url_job st site hashFn now1 fuel job rootUrl []).job with
          last_monitored := true } rootUrl
        ((crawl_url_job st site hashFn now1 fuel job rootUrl []).pages.map Prod.snd)
      ).regenerated = false ∧
    (crawl_url_job st site hashFn now2 fuel
        { (crawl_url_job st site hashFn now1 fuel job rootUrl []).job with
          last_monitored := true } rootUrl
        ((crawl_url_job st site hashFn now1 fuel job rootUrl []).pages.map Prod.snd)
      ).pages =
      (crawl_url_job st site hashFn now1 fuel job rootUrl []).pages.map
        (fun e => (e.1, { e.2 with last_seen := now2 })) ∧
    (crawl_url_job st site hashFn now2 fuel
        { (crawl_url_job st site hashFn now1 fuel job rootUrl []).job with
          last_monitored := true } rootUrl
        ((crawl_url_job st site hashFn now1 fuel job rootUrl []).pages.map Prod.snd)
      ).job.llm_text_content =
      (crawl_url_job st site hashFn now1 fuel job rootUrl []).job.llm_text_content := by
  have hInv0 : RunInv site
      { existing := List.map (fun p => (normalize_url p.url, p)) ([] : List PageRec),
        seen := [], visited := [], queue := [(normalize_url rootUrl, 0)],
        pagesFetched := 0, fetchTrace := [] } := by
    refine ⟨?_, ?_, ?_, rfl, ?_, ?_⟩
    · intro k hk
      simp [lookupPage] at hk
    · intro e he
      simp at he
    · simp
    · simp
    · intro k hk
      simp at hk
  have hInvF := RunInv_loop st site hashFn now1 fuel _ hInv0
  have hbud := crawlLoop_budget_le st site hashFn now1 fuel
    { existing := List.map (fun p => (normalize_url p.url, p)) ([] : List PageRec),
      seen := [], visited := [], queue := [(normalize_url rootUrl, 0)],
      pagesFetched := 0, fetchTrace := [] } (Nat.zero_le _)
  rw [crawl_url_job_loopState] at Hq
  rw [crawl_url_job_pages, crawl_url_job_loopState] at Hidem
  rw [crawl_url_job_finalPages, crawl_url_job_pages, crawl_url_job_loopState] at Hfin
  generalize hsF : crawlLoop st site hashFn now1 fuel
      { existing := List.map (fun p => (normalize_url p.url, p)) ([] : List PageRec),
        seen := [], visited := [], queue := [(normalize_url rootUrl, 0)],
        pagesFetched := 0, fetchTrace := [] } = sF at Hq Hidem Hfin hInvF hbud
  have hseen1 : ∀ e ∈ sF.existing, e.1 ∈ sF.seen := by
    intro e he
    rw [hInvF.2.2.2.1]
    exact hInvF.1 e.1 (lookupPage_isSome_iff.mpr ⟨e, he, rfl⟩)
  have hcnt1 : ∀ e ∈ sF.existing, e.2.not_seen_count < st.GRACE_PERIOD_CRAWLS := by
    intro e he
    rw [(hInvF.2.1 e he).2.1]
    exact Nat.lt_of_lt_of_le Nat.zero_lt_one Hgrace
  have hlen1 : sF.existing.length ≤ st.MAX_PAGES := Nat.le_trans hInvF.2.2.2.2.1 hbud
  have hsurv1 : prunePages st.MAX_PAGES (evictExpired st.GRACE_PERIOD_CRAWLS
      (incrementNotSeen sF.seen sF.existing)) = sF.existing := by
    rw [incrementNotSeen_id hseen1, evictExpired_id hcnt1, prunePages_id hlen1]
  rw [hsurv1] at Hidem Hfin
  have hkey : ∀ e ∈ sF.existing, normalize_url e.2.url = e.1 := by
    intro e he
    rw [(hInvF.2.1 e he).2.2]
    exact Hidem e he
  have hDB1ne : sF.existing ≠ [] := by
    intro hc
    rw [hc] at Hfin
    exact Hfin rfl
  have hjob1 : (crawl_url_job st site hashFn now1 fuel job rootUrl []).job =
      { job with
        llm_text_content := some (generate_llms_txt
          (sortByScoreDesc (sF.existing.map Prod.snd)) rootUrl),
        content_hash := some (hashFn (generate_llms_txt
          (sortByScoreDesc (sF.existing.map Prod.snd)) rootUrl)),
        status := "completed" } := by
    rw [crawl_url_job_spec st site hashFn now1 fuel job rootUrl [] _ _ _ rfl rfl rfl,
      hsF, hsurv1]
    rw [if_neg (fun hc => Hfin (List.isEmpty_iff.mp hc))]
    simp only [List.map_nil]
    rcases hX : sortByScoreDesc (sF.existing.map Prod.snd) with _ | ⟨p, ps⟩
    · exact absurd hX Hfin
    · have hdq : dictEq []
          ((p :: ps).map (fun q => (normalize_url q.url, q.content_hash))) = false := by
        simp [dictEq]
      have hcondT : ((if job.last_monitored then
          !dictEq [] ((p :: ps).map (fun q => (normalize_url q.url, q.content_hash)))
          else true) ||
          (match job.llm_text_content with | none => true | some t => t = "")) = true := by
        rw [Bool.or_eq_true]
        refine Or.inl ?_
        cases hb : job.last_monitored
        · rfl
        · rw [if_pos rfl, hdq]
          rfl
      rw [if_pos hcondT]
  rw [crawl_url_job_pages, crawl_url_job_loopState, hsF, hsurv1, hjob1]
  have hs02 : ({ existing := List.map (fun p => (normalize_url p.url, p)) (List.map Prod.snd sF.existing),
                 seen := [], visited := [],
                 queue := [(normalize_url rootUrl, 0)], pagesFetched := 0,
                 fetchTrace := [] } : CrawlState) =
      mirrorState now2 sF.existing []
        { existing := List.map (fun p => (normalize_url p.url, p)) ([] : List PageRec),
          seen := [], visited := [], queue := [(normalize_url rootUrl, 0)],
          pagesFetched := 0, fetchTrace := [] } := by
    rw [rekey_map_id hkey]
    unfold mirrorState
    dsimp only
    rw [touchAll_nil_vs]
  obtain ⟨tr2, hloop2⟩ := crawlLoop_mirror st site hashFn now1 now2 sF.existing
    sF.visited H304
    (fun k r hkr => (hInvF.2.1 (k, r) (lookupPage_mem hkr)).1)
    (fun k hk hf2 => hInvF.2.2.2.2.2 k hk hf2)
    hInvF.2.2.1
    fuel
    { existing := List.map (fun p => (normalize_url p.url, p)) ([] : List PageRec),
      seen := [], visited := [], queue := [(normalize_url rootUrl, 0)],
      pagesFetched := 0, fetchTrace := [] }
    [] hInv0 (by rw [hsF]; exact fun k hk => hk) (by rw [hsF]; exact Hq)
  rw [hsF] at hloop2
  have htch : ∀ e ∈ sF.existing.map (fun e =>
      (e.1, { e.2 with last_seen := now2, not_seen_count := 0 })), e.1 ∈ sF.visited := by
    intro e he
    rcases List.mem_map.mp he with ⟨x, hx, hxe⟩
    rw [← hxe]
    exact hInvF.1 x.1 (lookupPage_isSome_iff.mpr ⟨x, hx, rfl⟩)
  have htchc : ∀ e ∈ sF.existing.map (fun e =>
      (e.1, { e.2 with last_seen := now2, not_seen_count := 0 })),
      e.2.not_seen_count < st.GRACE_PERIOD_CRAWLS := by
    intro e he
    rcases List.mem_map.mp he with ⟨x, hx, hxe⟩
    rw [← hxe]
    exact Nat.lt_of_lt_of_le Nat.zero_lt_one Hgrace
  have htchl : (sF.existing.map (fun e =>
      (e.1, { e.2 with last_seen := now2, not_seen_count := 0 }))).length ≤
      st.MAX_PAGES := by
    rw [List.length_map]
    exact hlen1
  have hsurv2 : prunePages st.MAX_PAGES (evictExpired st.GRACE_PERIOD_CRAWLS
      (incrementNotSeen (mirrorState now2 sF.existing tr2 sF).seen
        (mirrorState now2 sF.existing tr2 sF).existing)) =
      sF.existing.map (fun e => (e.1, { e.2 with last_seen := now2, not_seen_count := 0 })) := by
    have hex2 : (mirrorState now2 sF.existing tr2 sF).existing =
        sF.existing.map (fun e => (e.1, { e.2 with last_seen := now2, not_seen_count := 0 })) := by
      rw [mirrorState_existing]
      refine touchAll_full now2 sF.visited ?_
      intro e he
      exact hInvF.1 e.1 (lookupPage_isSome_iff.mpr ⟨e, he, rfl⟩)
    rw [hex2, mirrorState_seen, hInvF.2.2.2.1, incrementNotSeen_id htch,
      evictExpired_id htchc, prunePages_id htchl]
  have hfinemp2 : ¬((sortByScoreDesc ((sF.existing.map (fun e =>
      (e.1, { e.2 with last_seen := now2, not_seen_count := 0 }))).map
        Prod.snd)).isEmpty = true) := by
    intro hc
    have h2 := (sortByScoreDesc_perm ((sF.existing.map (fun e =>
      (e.1, { e.2 with last_seen := now2, not_seen_count := 0 }))).map Prod.snd)).length_eq
    rw [List.isEmpty_iff.mp hc] at h2
    have h3 := List.eq_nil_of_length_eq_zero h2.symm
    have h4 := List.map_eq_nil_iff.mp h3
    exact hDB1ne (List.map_eq_nil_iff.mp h4)
  have hgen_ne : generate_llms_txt (sortByScoreDesc (List.map Prod.snd sF.existing))
      rootUrl ≠ "" := by
    rcases hX : sortByScoreDesc (List.map Prod.snd sF.existing) with _ | ⟨p, ps⟩
    · exact absurd hX Hfin
    · exact generate_llms_txt_ne_empty p ps rootUrl
  have hdq2 : dictEq (sF.existing.map (fun e => (e.1, e.2.content_hash)))
      ((sortByScoreDesc ((sF.existing.map (fun e =>
        (e.1, { e.2 with last_seen := now2, not_seen_count := 0 }))).map
          Prod.snd)).map (fun p => (normalize_url p.url, p.content_hash))) = true := by
    refine dictEq_of_perm (List.Perm.symm ?_)
    have h1 := (sortByScoreDesc_perm ((sF.existing.map (fun e =>
      (e.1, { e.2 with last_seen := now2, not_seen_count := 0 }))).map
        Prod.snd)).map (fun p => (normalize_url p.url, p.content_hash))
    refine h1.trans ?_
    rw [List.map_map, List.map_map]
    refine List.Perm.of_eq ?_
    refine List.map_congr_left ?_
    intro e he
    show (normalize_url e.2.url, e.2.content_hash) = (e.1, e.2.content_hash)
    rw [hkey e he]
  dsimp only
  have hrun2 : crawl_url_job st site hashFn now2 fuel
      { llm_text_content := some (generate_llms_txt (sortByScoreDesc (List.map Prod.snd sF.existing)) rootUrl),
        content_hash := some (hashFn (generate_llms_txt (sortByScoreDesc (List.map Prod.snd sF.existing)) rootUrl)),
        last_monitored := true, status := "completed" }
      rootUrl (List.map Prod.snd sF.existing) =
      { job := { llm_text_content := some (generate_llms_txt (sortByScoreDesc (List.map Prod.snd sF.existing)) rootUrl),
                 content_hash := some (hashFn (generate_llms_txt (sortByScoreDesc (List.map Prod.snd sF.existing)) rootUrl)),
                 last_monitored := true, status := "completed" },
        pages := sF.existing.map (fun e => (e.1, { e.2 with last_seen := now2, not_seen_count := 0 })),
        finalPages := sortByScoreDesc ((sF.existing.map (fun e => (e.1, { e.2 with last_seen := now2, not_seen_count := 0 }))).map Prod.snd),
        regenerated := false,
        loopState := mirrorState now2 sF.existing tr2 sF } := by
    rw [crawl_url_job_spec st site hashFn now2 fuel _ rootUrl _ _ _ _ rfl rfl rfl]
    rw [hs02, hloop2, hsurv2]
    rw [if_neg hfinemp2]
    dsimp only
    rw [rekey_map_id hkey]
    have hcondF : ¬(((if (true : Bool) = true then
        !dictEq (List.map (fun e => (e.1, e.2.content_hash)) sF.existing)
          (List.map (fun p => (normalize_url p.url, p.content_hash))
            (sortByScoreDesc (List.map Prod.snd (List.map (fun e =>
              (e.1, { e.2 with last_seen := now2, not_seen_count := 0 }))
              sF.existing))))
        else true) ||
        decide (generate_llms_txt (sortByScoreDesc (List.map Prod.snd sF.existing))
          rootUrl = "")) = true) := by
      rw [if_pos rfl, hdq2, decide_eq_false hgen_ne]
      simp
    rw [if_neg hcondF]
  rw [hrun2]
  refine ⟨rfl, ?_, rfl⟩
  show sF.existing.map (fun e => (e.1, { e.2 with last_seen := now2, not_seen_count := 0 })) = _
  refine List.map_congr_left ?_
  intro e he
  show (e.1, { e.2 with last_seen := now2, not_seen_count := 0 }) =
    (e.1, { e.2 with last_seen := now2 })
  rw [touched_record_eq (hInvF.2.1 e he).2.1 now2]

/-- C2 counterexample: on the fixture site, an immediate second
`crawl_url_job` run regenerated the manifest even though every page digest
was unchanged and a manifest was already stored, because the job had never
been monitored (`last_monitored` unset keeps `pages_changed = True`). -/
theorem C2_counterexample_second_run_regenerates :
    (crawl_url_job fixtureSettings cachedSite id 1 5
        (crawl_url_job fixtureSettings cachedSite id 0 5 job0 "http://a/" []).job
        "http://a/"
        ((crawl_url_job fixtureSettings cachedSite id 0 5 job0 "http://a/" []).pages.map
          Prod.snd)).regenerated = true ∧
    dictEq
      ((((crawl_url_job fixtureSettings cachedSite id 0 5 job0 "http://a/" []).pages.map
          Prod.snd).map (fun p => (normalize_url p.url, p.content_hash))))
      ((crawl_url_job fixtureSettings cachedSite id 1 5
          (crawl_url_job fixtureSettings cachedSite id 0 5 job0 "http://a/" []).job
          "http://a/"
          ((crawl_url_job fixtureSettings cachedSite id 0 5 job0 "http://a/" []).pages.map
            Prod.snd)).finalPages.map
        (fun p => (normalize_url p.url, p.content_hash))) = true ∧
    (crawl_url_job fixtureSettings cachedSite id 0 5 job0 "http://a/" []).job.llm_text_content
      ≠ none ∧
    (crawl_url_job fixtureSettings cachedSite id 0 5 job0 "http://a/" []).job.last_monitored
      = false := by
  decide

/-- C2 (amended): (i) the manifest is regenerated iff some page survived
and (`last_monitored` is unset, or the pre- and post-crawl digest
dictionaries differ, or no manifest text is stored) — an unmonitored job
therefore regenerates even when nothing changed; (ii) when every HEAD probe
answers 304 (unchanged site with caching validators), the grace period is
positive, the first crawl from an empty page table drains its frontier and
stores at least one page under normalize-fixed keys, and `last_monitored`
is set before the second run, then the second run regenerates nothing,
returns every page identical except for its `last_seen` stamp (same digest,
score and link set), and keeps the manifest text unchanged. -/
theorem C2_second_crawl_stable :
    (∀ (st : Settings) (site : Site) (hashFn : String → String)
        (now fuel : Nat) (job : JobState) (rootUrl : String) (pages0 : List PageRec),
      (crawl_url_job st site hashFn now fuel job rootUrl pages0).regenerated = true ↔
      ((crawl_url_job st site hashFn now fuel job rootUrl pages0).finalPages ≠ [] ∧
        (job.last_monitored = false ∨
         dictEq (pages0.map (fun p => (normalize_url p.url, p.content_hash)))
           ((crawl_url_job st site hashFn now fuel job rootUrl pages0).finalPages.map
             (fun p => (normalize_url p.url, p.content_hash))) = false ∨
         job.llm_text_content.getD "" = ""))) ∧
    (∀ (st : Settings) (site : Site) (hashFn : String → String)
        (now1 now2 fuel : Nat) (job : JobState) (rootUrl : String),
      (∀ u e lm, (check_url_with_head site u e lm).status = HeadStatus.notModified) →
      1 ≤ st.GRACE_PERIOD_CRAWLS →
      (crawl_url_job st site hashFn now1 fuel job rootUrl []).loopState.queue = [] →
      (crawl_url_job st site hashFn now1 fuel job rootUrl []).finalPages ≠ [] →
      (∀ e ∈ (crawl_url_job st site hashFn now1 fuel job rootUrl []).pages,
        normalize_url e.1 = e.1) →
      (crawl_url_job st site hashFn now2 fuel
          { (crawl_url_job st site hashFn now1 fuel job rootUrl []).job with
            last_monitored := true } rootUrl
          ((crawl_url_job st site hashFn now1 fuel job rootUrl []).pages.map Prod.snd)
        ).regenerated = false ∧
      (crawl_url_job st site hashFn now2 fuel
          { (crawl_url_job st site hashFn now1 fuel job rootUrl []).job with
            last_monitored := true } rootUrl
          ((crawl_url_job st site hashFn now1 fuel job rootUrl []).pages.map Prod.snd)
        ).pages =
        (crawl_url_job st site hashFn now1 fuel job rootUrl []).pages.map
          (fun e => (e.1, { e.2 with last_seen := now2 })) ∧
      (crawl_url_job st site hashFn now2 fuel
          { (crawl_url_job st site hashFn now1 fuel job rootUrl []).job with
            last_monitored := true } rootUrl
          ((crawl_url_job st site hashFn now1 fuel job rootUrl []).pages.map Prod.snd)
        ).job.llm_text_content =
        (crawl_url_job st site hashFn now1 fuel job rootUrl []).job.llm_text_content) :=
  ⟨crawl_url_job_regen_iff, crawl_twice_stable⟩

/-- Witness: the amended C2 statement on the concrete cached fixture site. -/
theorem C2_second_crawl_stable_witness :
    ((crawl_url_job fixtureSettings cachedSite id 0 5 job0 "http://a/" []).regenerated
        = true ↔
      ((crawl_url_job fixtureSettings cachedSite id 0 5 job0 "http://a/" []).finalPages
          ≠ [] ∧
        (job0.last_monitored = false ∨
         dictEq (([] : List PageRec).map (fun p => (normalize_url p.url, p.content_hash)))
           ((crawl_url_job fixtureSettings cachedSite id 0 5 job0 "http://a/"
              []).finalPages.map (fun p => (normalize_url p.url, p.content_hash))) =
            false ∨
         job0.llm_text_content.getD "" = ""))) ∧
    (crawl_url_job fixtureSettings cachedSite id 1 5
        { (crawl_url_job fixtureSettings cachedSite id 0 5 job0 "http://a/" []).job with
          last_monitored := true } "http://a/"
        ((crawl_url_job fixtureSettings cachedSite id 0 5 job0 "http://a/" []).pages.map
          Prod.snd)).regenerated = false ∧
    (crawl_url_job fixtureSettings cachedSite id 1 5
        { (crawl_url_job fixtureSettings cachedSite id 0 5 job0 "http://a/" []).job with
          last_monitored := true } "http://a/"
        ((crawl_url_job fixtureSettings cachedSite id 0 5 job0 "http://a/" []).pages.map
          Prod.snd)).job.llm_text_content =
      (crawl_url_job fixtureSettings cachedSite id 0 5 job0 "http://a/"
        []).job.llm_text_content :=
  ⟨C2_second_crawl_stable.1 fixtureSettings cachedSite id 0 5 job0 "http://a/" [],
   (C2_second_crawl_stable.2 fixtureSettings cachedSite id 0 1 5 job0 "http://a/"
      (fun u e lm => rfl) (by decide) (by decide) (by decide) (by decide)).1,
   (C2_second_crawl_stable.2 fixtureSettings cachedSite id 0 1 5 job0 "http://a/"
      (fun u e lm => rfl) (by decide) (by decide) (by decide) (by decide)).2.2⟩

end LlmTextGen
